import Mathlib

/-!
Verification of the streaming relay and message normalizer of
`fastapi_server.py` (Zeroui AI Agent FastAPI Server).

The Python source is shallowly embedded: strings are modelled as `List Char`
(ASCII fragment of Python's `str` semantics), the per-request streaming
generator as a function from an abstract backend behaviour to the list of
chunks it yields, and `json.loads` as an executable recursive-descent parser.
-/

namespace Spec2Proof

/-! ### ASCII models of Python character predicates

`str.strip()` / `str.split()` / `re \s` whitespace, `str.isalpha`,
`str.isdigit`, `str.isalnum`, `str.isupper`, `str.islower`, `str.lower`,
`str.upper`, and the regex word-character class `\w`, restricted to ASCII. -/

def pyWS (c : Char) : Bool :=
  c = ' ' || c = '\t' || c = '\n' || c = '\r' || c = Char.ofNat 11 || c = Char.ofNat 12

def pyIsAlphaCh (c : Char) : Bool :=
  ('a' ≤ c && c ≤ 'z') || ('A' ≤ c && c ≤ 'Z')

def pyIsDigitCh (c : Char) : Bool :=
  '0' ≤ c && c ≤ '9'

def pyIsAlnumCh (c : Char) : Bool :=
  pyIsAlphaCh c || pyIsDigitCh c

def isWordChar (c : Char) : Bool :=
  pyIsAlnumCh c || c = '_'

def pyIsUpperCh (c : Char) : Bool :=
  'A' ≤ c && c ≤ 'Z'

def pyIsLowerCh (c : Char) : Bool :=
  'a' ≤ c && c ≤ 'z'

def lowCh (c : Char) : Char :=
  if pyIsUpperCh c then Char.ofNat (c.toNat + 32) else c

def upCh (c : Char) : Char :=
  if pyIsLowerCh c then Char.ofNat (c.toNat - 32) else c

def lowStr (l : List Char) : List Char := l.map lowCh

/-- The apostrophe character (written via its code point to keep quoting simple). -/
def apoChar : Char := Char.ofNat 39

/-! ### List-of-characters utilities mirroring Python string operations -/

/-- `startsL p l` : `l` starts with `p` (`str.startswith`). -/
def startsL : List Char → List Char → Bool
  | [], _ => true
  | _ :: _, [] => false
  | a :: p, b :: l => a = b && startsL p l

/-- `containsL n h` : `n` occurs as a contiguous substring of `h` (Python `n in h`). -/
def containsL (n : List Char) : List Char → Bool
  | [] => n.isEmpty
  | b :: t => startsL n (b :: t) || containsL n t

/-- Remove trailing ASCII whitespace. -/
def rstripWS (l : List Char) : List Char :=
  (l.reverse.dropWhile pyWS).reverse

/-- `str.strip()` (ASCII whitespace). -/
def pyStripL (l : List Char) : List Char :=
  rstripWS (l.dropWhile pyWS)

/-- `str.rstrip('.!')`. -/
def rstripDotBangL (l : List Char) : List Char :=
  (l.reverse.dropWhile (fun c => c = '.' || c = '!')).reverse

/-- Helper for `re.sub(r'\s+', ' ', ...)`: the flag records whether the previous
character was whitespace (in which case further whitespace is elided). -/
def collapseAux : Bool → List Char → List Char
  | _, [] => []
  | prevWS, c :: rest =>
    if pyWS c then
      (if prevWS then collapseAux true rest else ' ' :: collapseAux true rest)
    else c :: collapseAux false rest

/-- `re.sub(r'\s+', ' ', l)`. -/
def collapseL (l : List Char) : List Char := collapseAux false l

/-- Helper for `len(s.split())`: the flag records whether we are inside a token. -/
def tcAux : Bool → List Char → Nat
  | _, [] => 0
  | inTok, c :: rest =>
    if pyWS c then tcAux false rest
    else (if inTok then 0 else 1) + tcAux true rest

/-- `len(s.split())`: number of whitespace-separated tokens. -/
def tokenCountL (l : List Char) : Nat := tcAux false l

/-- First whitespace-separated token (`s.split()[0]`, or `[]` if there is none). -/
def firstTokenL (l : List Char) : List Char :=
  (l.dropWhile pyWS).takeWhile (fun c => !pyWS c)

/-- `l.getLast? = some c` as a Bool: the string ends with character `c`. -/
def endsWithCh (l : List Char) (c : Char) : Bool :=
  l.getLast? = some c

/-! ### Regex word-substitution model

All the typo-fix patterns of `fine_tune_user_message` are of the form
`\bWORD\b` (case-insensitive) over all-letter words, except the phrase fix
which is handled separately below.  For such patterns `re.sub` replaces
exactly the maximal word-character runs that are case-insensitively equal to
the pattern word, which is what `mapWords` implements: it decomposes its
input into maximal runs of regex word characters (`\w`) and applies `f` to
every run, leaving the separating characters untouched. -/

theorem length_dropWhile_le {α : Type} (p : α → Bool) (l : List α) :
    (l.dropWhile p).length ≤ l.length := by
  induction l with
  | nil => simp [List.dropWhile]
  | cons a t ih =>
    simp only [List.dropWhile_cons]
    split
    · exact Nat.le_succ_of_le ih
    · exact Nat.le_refl _

def mapWords (f : List Char → List Char) : List Char → List Char
  | [] => []
  | c :: rest =>
    if h : isWordChar c then
      f ((c :: rest).takeWhile isWordChar) ++ mapWords f ((c :: rest).dropWhile isWordChar)
    else
      c :: mapWords f rest
termination_by l => l.length
decreasing_by
  · simp only [List.dropWhile_cons, h, if_true]
    exact Nat.lt_succ_of_le (length_dropWhile_le _ _)
  · simp

/-- Fuel-driven version of `mapWords` (structural recursion, so that closed
instances reduce inside the kernel; `mapWordsC` below supplies enough fuel
and `mapWordsC_eq` identifies the two). -/
def mapWordsF (f : List Char → List Char) : Nat → List Char → List Char
  | 0, l => l
  | _ + 1, [] => []
  | fuel + 1, c :: rest =>
    if isWordChar c then
      f ((c :: rest).takeWhile isWordChar) ++ mapWordsF f fuel ((c :: rest).dropWhile isWordChar)
    else c :: mapWordsF f fuel rest

def mapWordsC (f : List Char → List Char) (l : List Char) : List Char :=
  mapWordsF f (l.length + 1) l

/-- The un-apostrophized contractions of source line 57. -/
def contrWords : List (List Char) :=
  ["cant", "wont", "dont", "isnt", "arent", "wasnt", "werent"].map String.toList

/-- The replacement of source line 57: insert an apostrophe after the first
letter of a matched contraction (the source reproduces this literally, e.g.
`cant` becomes `c'ant`). -/
def contrF (r : List Char) : List Char :=
  if lowStr r ∈ contrWords then
    match r with
    | [] => []
    | c :: cs => c :: apoChar :: cs
  else r

def contractionFix : List Char → List Char := mapWordsC contrF

/-- A single case-insensitive whole-word fix `\bpat\b → rep` (source lines 60-67). -/
def oneWordF (pat rep : List Char) (r : List Char) : List Char :=
  if lowStr r = pat then rep else r

def tehFix : List Char → List Char := mapWordsC (oneWordF "teh".toList "the".toList)
def adnFix : List Char → List Char := mapWordsC (oneWordF "adn".toList "and".toList)
def yoruFix : List Char → List Char := mapWordsC (oneWordF "yoru".toList "your".toList)

/-! ### The phrase fix `\byou\s+are\s+right\b → you are correct` -/

/-- Match the (lowercase) word `p` case-insensitively at the head of `l`,
returning the remainder. -/
def stripCI : List Char → List Char → Option (List Char)
  | [], l => some l
  | _ :: _, [] => none
  | a :: p, b :: l => if lowCh b = a then stripCI p l else none

/-- Try to match `you\s+are\s+right\b` at the head of `s` (the leading `\b`
is the responsibility of the caller); returns the remainder after the match. -/
def tryPhrase (s : List Char) : Option (List Char) :=
  match stripCI "you".toList s with
  | none => none
  | some r1 =>
    if (r1.takeWhile pyWS).isEmpty then none else
    match stripCI "are".toList (r1.dropWhile pyWS) with
    | none => none
    | some r3 =>
      if (r3.takeWhile pyWS).isEmpty then none else
      match stripCI "right".toList (r3.dropWhile pyWS) with
      | none => none
      | some r5 =>
        match r5 with
        | [] => some []
        | d :: _ => if isWordChar d then none else some r5

theorem stripCI_length {p s r : List Char} (h : stripCI p s = some r) :
    r.length + p.length = s.length := by
  induction p generalizing s r with
  | nil => simp [stripCI] at h; simp [h]
  | cons a p ih =>
    cases s with
    | nil => simp [stripCI] at h
    | cons b l =>
      simp only [stripCI] at h
      split at h
      · have := ih h
        simp [List.length_cons]
        omega
      · exact absurd h (by simp)

theorem isEmpty_false_ne_nil {α : Type} {l : List α} (h : ¬(l.isEmpty = true)) : l ≠ [] :=
  fun he => h (by rw [he]; rfl)

theorem tryPhrase_remainder {s rem : List Char} (h : tryPhrase s = some rem) :
    ∃ r1 r3, stripCI "you".toList s = some r1 ∧ r1.takeWhile pyWS ≠ [] ∧
      stripCI "are".toList (r1.dropWhile pyWS) = some r3 ∧ r3.takeWhile pyWS ≠ [] ∧
      stripCI "right".toList (r3.dropWhile pyWS) = some rem ∧
      (rem = [] ∨ ∃ d r2, rem = d :: r2 ∧ isWordChar d = false) := by
  unfold tryPhrase at h
  split at h
  · exact absurd h (by simp)
  case _ r1 h1 =>
    split at h
    · exact absurd h (by simp)
    case _ hg1 =>
      split at h
      · exact absurd h (by simp)
      case _ r3 h3 =>
        split at h
        · exact absurd h (by simp)
        case _ hg2 =>
          split at h
          · exact absurd h (by simp)
          case _ r5 h5 =>
            refine ⟨r1, r3, h1, isEmpty_false_ne_nil hg1, h3, isEmpty_false_ne_nil hg2, ?_, ?_⟩
            · rw [h5]
              match r5, h with
              | [], h => exact h
              | d :: r6, h =>
                cases hw : isWordChar d with
                | true => simp [hw] at h
                | false =>
                  simp [hw] at h
                  rw [h]
            · match r5, h with
              | [], h =>
                have : rem = [] := by
                  have h' : some ([] : List Char) = some rem := h
                  injection h' with h''
                  exact h''.symm
                exact Or.inl this
              | d :: r6, h =>
                cases hw : isWordChar d with
                | true => simp [hw] at h
                | false =>
                  simp [hw] at h
                  exact Or.inr ⟨d, r6, h.symm, hw⟩

theorem tryPhrase_length {s rem : List Char} (h : tryPhrase s = some rem) :
    rem.length < s.length := by
  obtain ⟨r1, r3, h1, _, h3, _, h5, _⟩ := tryPhrase_remainder h
  have hl1 := stripCI_length h1
  have hl3 := stripCI_length h3
  have hl5 := stripCI_length h5
  have hd1 : (r1.dropWhile pyWS).length ≤ r1.length := length_dropWhile_le _ _
  have hd3 : (r3.dropWhile pyWS).length ≤ r3.length := length_dropWhile_le _ _
  have e1 : "you".toList.length = 3 := rfl
  have e2 : "are".toList.length = 3 := rfl
  have e3 : "right".toList.length = 5 := rfl
  omega

/-- The scanner of `re.sub(r'\byou\s+are\s+right\b', 'you are correct', ...)`:
`atB` records whether the previous character was a non-word character (i.e.
whether a `\b` word boundary can hold before a word character here). -/
def phraseGo : Bool → List Char → List Char
  | _, [] => []
  | atB, c :: rest =>
    if atB then
      match h : tryPhrase (c :: rest) with
      | some rem => "you are correct".toList ++ phraseGo false rem
      | none => c :: phraseGo (!isWordChar c) rest
    else c :: phraseGo (!isWordChar c) rest
termination_by _ l => l.length
decreasing_by
  · exact tryPhrase_length h
  · simp
  · simp

/-- Fuel-driven version of `phraseGo` (structural recursion, so that closed
instances reduce inside the kernel; `phraseSub` supplies enough fuel and
`phraseSub_eq` below identifies it with `phraseGo`). -/
def phraseGoF : Nat → Bool → List Char → List Char
  | 0, _, l => l
  | _ + 1, _, [] => []
  | fuel + 1, atB, c :: rest =>
    if atB then
      match tryPhrase (c :: rest) with
      | some rem => "you are correct".toList ++ phraseGoF fuel false rem
      | none => c :: phraseGoF fuel (!isWordChar c) rest
    else c :: phraseGoF fuel (!isWordChar c) rest

def phraseSub (l : List Char) : List Char := phraseGoF (l.length + 1) true l

/-! ### The normalizer `fine_tune_user_message` (source lines 43-108) -/

def questionWords : List (List Char) :=
  ["what", "how", "why", "when", "where", "who", "which", "can", "could",
   "should", "would", "is", "are", "do", "does", "did"].map String.toList

def greetWords : List (List Char) :=
  ["hi", "hello", "help", "thanks", "thank"].map String.toList

def ctxKeywords : List (List Char) :=
  ["it", "this", "that", "above", "previous", "earlier", "before"].map String.toList

/-- Stages 1-3 of the pipeline (source lines 53-83): strip, contraction
repair, word fixes, short-message clarification, question-mark
normalization.  Stages are applied to the output of the previous one. -/
def fineTunePre (l0 : List Char) : List Char :=
  let t1 := pyStripL l0
  let t2 := contractionFix t1
  let t3 := tehFix t2
  let t4 := adnFix t3
  let t5 := yoruFix t4
  let t6 := phraseSub t5
  let t7 :=
    if tokenCountL t6 < 3 && !endsWithCh t6 '?' then
      (if !(greetWords.any (fun w => containsL w (lowStr t6))) then
        (if !(t6.contains '?') then "Please explain: ".toList ++ t6 else t6)
      else t6)
    else t6
  if (questionWords.any (fun w => startsL w (lowStr t7))) && !endsWithCh t7 '?' then
    (if !endsWithCh t7 '.' then rstripDotBangL t7 ++ ['?'] else t7)
  else t7

/-- Stage 7 of the source (lines 102-106): append a period when the message is
non-empty, ends in an alphanumeric character, and no question word occurs as a
(case-insensitive) substring. -/
def periodStep (t : List Char) : List Char :=
  if !t.isEmpty && pyIsAlnumCh (t.getLastD ' ')
      && !(questionWords.any (fun w => containsL w (lowStr t))) then
    t ++ ['.']
  else t

/-- Stage 6 of the source (lines 98-100): upper-case the first character when
it is a non-uppercase letter. -/
def capitalizeL (t : List Char) : List Char :=
  match t with
  | [] => []
  | c :: rest => if !pyIsUpperCh c && pyIsAlphaCh c then upCh c :: rest else c :: rest

/-- Stages 5-7 of the source (lines 94-106): whitespace collapse + strip,
capitalization of the first character, terminal punctuation. -/
def fineTunePost (t : List Char) : List Char :=
  periodStep (capitalizeL (pyStripL (collapseL t)))

/-- `Message` (pydantic model, source lines 27-29). -/
structure Message where
  role : String
  content : String
deriving DecidableEq

/-- `fine_tune_user_message(message_content, conversation_context)`
(source lines 43-108). -/
def fineTune (content : String) (ctx : Option (List Message)) : String :=
  if content = "" ∨ pyStripL content.toList = [] then content
  else
    let t8 := fineTunePre content.toList
    -- Stage 4 (source lines 85-92): context-reference detection.  The source
    -- computes the condition below and then executes `pass` in its body, so
    -- both branches leave the message unchanged.
    let t8' :=
      match ctx with
      | some l =>
        if l.length > 1 && (ctxKeywords.any (fun w => containsL w (lowStr t8))) then t8 else t8
      | none => t8
    String.mk (fineTunePost t8')

/-! ### Model of `json.loads`

A JSON value as produced by Python's `json.loads` (ASCII/BMP fragment;
numeric literals are kept as written, since the relay never uses their
numeric value; the `NaN`/`Infinity` extensions accepted by Python are
mapped to their `str()` forms). -/

inductive JVal where
  | jnull
  | jbool (b : Bool)
  | jnum (lit : String)
  | jstr (s : String)
  | jarr (elems : List JVal)
  | jobj (fields : List (String × JVal))

def jsonWS (c : Char) : Bool := c = ' ' || c = '\t' || c = '\n' || c = '\r'

def skipWS (l : List Char) : List Char := l.dropWhile jsonWS

def hexVal (c : Char) : Option Nat :=
  if '0' ≤ c && c ≤ '9' then some (c.toNat - 48)
  else if 'a' ≤ c && c ≤ 'f' then some (c.toNat - 87)
  else if 'A' ≤ c && c ≤ 'F' then some (c.toNat - 55)
  else none

/-- Parse the body of a JSON string after the opening quote, returning the
decoded content and the remainder after the closing quote.  Unescaped
control characters are rejected (Python's default `strict=True`). -/
def parseStringBody : List Char → Option (List Char × List Char)
  | [] => none
  | c :: rest =>
    if c = '\"' then some ([], rest)
    else if c = '\\' then
      match rest with
      | [] => none
      | 'u' :: h1 :: h2 :: h3 :: h4 :: rest3 =>
        match hexVal h1, hexVal h2, hexVal h3, hexVal h4 with
        | some a, some b, some c2, some d =>
          (parseStringBody rest3).map (fun p => (Char.ofNat (((a * 16 + b) * 16 + c2) * 16 + d) :: p.1, p.2))
        | _, _, _, _ => none
      | e :: rest2 =>
        if e = '\"' then (parseStringBody rest2).map (fun p => ('\"' :: p.1, p.2))
        else if e = '\\' then (parseStringBody rest2).map (fun p => ('\\' :: p.1, p.2))
        else if e = '/' then (parseStringBody rest2).map (fun p => ('/' :: p.1, p.2))
        else if e = 'b' then (parseStringBody rest2).map (fun p => (Char.ofNat 8 :: p.1, p.2))
        else if e = 'f' then (parseStringBody rest2).map (fun p => (Char.ofNat 12 :: p.1, p.2))
        else if e = 'n' then (parseStringBody rest2).map (fun p => ('\n' :: p.1, p.2))
        else if e = 'r' then (parseStringBody rest2).map (fun p => ('\r' :: p.1, p.2))
        else if e = 't' then (parseStringBody rest2).map (fun p => ('\t' :: p.1, p.2))
        else none
    else if c.toNat < 32 then none
    else (parseStringBody rest).map (fun p => (c :: p.1, p.2))

/-- Parse a JSON numeric literal, returning the literal and the remainder.
Any illegal continuation (`1.`, `1e+` ...) is left in the remainder, where
the enclosing context rejects it, matching `json.loads`. -/
def parseNum (l : List Char) : Option (List Char × List Char) :=
  let sign : List Char := match l with
    | c :: _ => if c = '-' then ['-'] else []
    | [] => []
  let l1 : List Char := l.drop sign.length
  match l1 with
  | [] => none
  | c :: rest =>
    if pyIsDigitCh c then
      let ip : List Char := if c = '0' then ['0'] else (c :: rest).takeWhile pyIsDigitCh
      let r1 : List Char := if c = '0' then rest else (c :: rest).dropWhile pyIsDigitCh
      let fp : List Char := match r1 with
        | d :: t => if d = '.' && !(t.takeWhile pyIsDigitCh).isEmpty
            then '.' :: t.takeWhile pyIsDigitCh else []
        | [] => []
      let r2 : List Char := r1.drop fp.length
      let ep : List Char := match r2 with
        | e :: t =>
          if e = 'e' || e = 'E' then
            match t with
            | s :: t2 =>
              if s = '+' || s = '-' then
                (if (t2.takeWhile pyIsDigitCh).isEmpty then [] else e :: s :: t2.takeWhile pyIsDigitCh)
              else (if (t.takeWhile pyIsDigitCh).isEmpty then [] else e :: t.takeWhile pyIsDigitCh)
            | [] => []
          else []
        | [] => []
      let r3 : List Char := r2.drop ep.length
      some (sign ++ ip ++ fp ++ ep, r3)
    else none

mutual

def parseVal : Nat → List Char → Option (JVal × List Char)
  | 0, _ => none
  | fuel + 1, l =>
    match skipWS l with
    | [] => none
    | '{' :: rest =>
      match skipWS rest with
      | '}' :: r2 => some (.jobj [], r2)
      | _ => parseObjItems fuel (skipWS rest) []
    | '[' :: rest =>
      match skipWS rest with
      | ']' :: r2 => some (.jarr [], r2)
      | _ => parseArrItems fuel (skipWS rest) []
    | '\"' :: rest =>
      match parseStringBody rest with
      | some (s, r2) => some (.jstr (String.mk s), r2)
      | none => none
    | c :: rest =>
      if startsL "true".toList (c :: rest) then some (.jbool true, (c :: rest).drop 4)
      else if startsL "false".toList (c :: rest) then some (.jbool false, (c :: rest).drop 5)
      else if startsL "null".toList (c :: rest) then some (.jnull, (c :: rest).drop 4)
      else if startsL "NaN".toList (c :: rest) then some (.jnum "nan", (c :: rest).drop 3)
      else if startsL "Infinity".toList (c :: rest) then some (.jnum "inf", (c :: rest).drop 8)
      else if startsL "-Infinity".toList (c :: rest) then some (.jnum "-inf", (c :: rest).drop 9)
      else
        match parseNum (c :: rest) with
        | some (lit, r2) => some (.jnum (String.mk lit), r2)
        | none => none

def parseArrItems : Nat → List Char → List JVal → Option (JVal × List Char)
  | 0, _, _ => none
  | fuel + 1, l, acc =>
    match parseVal fuel l with
    | none => none
    | some (v, r) =>
      match skipWS r with
      | ',' :: r2 => parseArrItems fuel r2 (acc ++ [v])
      | ']' :: r2 => some (.jarr (acc ++ [v]), r2)
      | _ => none

def parseObjItems : Nat → List Char → List (String × JVal) → Option (JVal × List Char)
  | 0, _, _ => none
  | fuel + 1, l, acc =>
    match skipWS l with
    | '\"' :: rest =>
      match parseStringBody rest with
      | none => none
      | some (k, r1) =>
        match skipWS r1 with
        | ':' :: r2 =>
          match parseVal fuel r2 with
          | none => none
          | some (v, r3) =>
            match skipWS r3 with
            | ',' :: r4 => parseObjItems fuel r4 (acc ++ [(String.mk k, v)])
            | '}' :: r4 => some (.jobj (acc ++ [(String.mk k, v)]), r4)
            | _ => none
        | _ => none
    | _ => none

end

/-- `json.loads(s)`: parse a complete JSON document (the fuel is an upper
bound on the number of parser steps; every two steps consume a character). -/
def parseJson (s : String) : Option JVal :=
  match parseVal (2 * s.length + 2) s.toList with
  | some (v, rest) => if skipWS rest = [] then some v else none
  | none => none

/-! ### Python operations on parsed values used by the relay -/

/-- `d.get(k)` on a parsed object: duplicate keys keep the last value, as in
`json.loads`. -/
def objGet (fields : List (String × JVal)) (k : String) : Option JVal :=
  (fields.reverse.find? (fun p => p.1 = k)).map (fun p => p.2)

/-- `k in d` for a parsed object. -/
def objHas (fields : List (String × JVal)) (k : String) : Bool :=
  fields.any (fun p => p.1 = k)

/-- Python `elem == "k"` for a parsed value (equality between a `str` and any
other type is `False`). -/
def isStrVal (k : String) : JVal → Bool
  | .jstr s => s = k
  | _ => false

def lowerS (s : String) : String := String.mk (lowStr s.toList)

/-- Python substring containment `n in h` for strings. -/
def containsS (n h : String) : Bool := containsL n.toList h.toList

def pyStripS (s : String) : String := String.mk (pyStripL s.toList)

/-- Python `str()` of a parsed JSON value, as used by the f-string building
the error line for a non-success status (numeric literals are rendered as
written; `repr` quoting of nested strings uses single quotes). -/
def pyRepr : JVal → String
  | .jnull => "None"
  | .jbool true => "True"
  | .jbool false => "False"
  | .jnum lit => lit
  | .jstr s => "'" ++ s ++ "'"
  | .jarr es => "[" ++ String.intercalate ", " (es.attach.map (fun e => pyRepr e.1)) ++ "]"
  | .jobj fs => "\x7b" ++ String.intercalate ", "
      (fs.attach.map (fun p => "'" ++ p.1.1 ++ "': " ++ pyRepr p.1.2)) ++ "\x7d"
termination_by v => sizeOf v
decreasing_by
  · have h := List.sizeOf_lt_of_mem e.2
    simp only [JVal.jarr.sizeOf_spec]
    omega
  · have h := List.sizeOf_lt_of_mem p.2
    have h2 : sizeOf p.1.2 < sizeOf p.1 := by
      obtain ⟨⟨k, v⟩, hp⟩ := p
      simp only [Prod.mk.sizeOf_spec]
      omega
    simp only [JVal.jobj.sizeOf_spec]
    omega

def pyStr : JVal → String
  | .jstr s => s
  | v => pyRepr v

/-! ### The streaming relay `chat_stream.stream_response` (source lines 126-228)

The generator is modelled as a function from the backend's behaviour to the
list of chunks it yields.  A `.data l` event is the yield `f"{line}\n"` of a
backend line; a `.errEvent m` event is a relay-built yield
`'{"error": "..."}\n'` whose error text is `m` (for the two guidance
messages the raw line escapes the inner quotes). -/

inductive OutEvent where
  | data (line : String)
  | errEvent (msg : String)
deriving DecidableEq

def OutEvent.isErr : OutEvent → Bool
  | .errEvent _ => true
  | _ => false

/-- What the loop body does with one non-empty backend line (source lines
193-214): forward it, emit a translated error and stop, or drop it when the
inspection raises an exception that only the outer per-line handler catches
(`TypeError`/`AttributeError` from `"error" in line_data`, `.get`, `.lower()`
on non-dict/non-str values), which `continue`s without yielding. -/
inductive LineAct where
  | forward
  | drop
  | errEvent (msg : String)
deriving DecidableEq

def lineAct (line : String) : LineAct :=
  match parseJson line with
  | none => .forward
  | some v =>
    match v with
    | .jobj fs =>
      if objHas fs "error" then
        match objGet fs "error" with
        | some (.jstr m) => .errEvent m
        | _ => .drop
      else .forward
    | .jstr s => if containsS "error" s then .drop else .forward
    | .jarr es => if es.any (isStrVal "error") then .drop else .forward
    | _ => .drop

def timeoutMsg (modelName : String) : String :=
  "Model loading timeout. The model may be loading for the first time. Please try again in a moment, or check if the model \\\"" ++ modelName ++ "\\\" is properly installed in Ollama."

def notFoundMsg (modelName : String) : String :=
  "Model \\\"" ++ modelName ++ "\\\" not found in Ollama. Please install it using: ollama pull " ++ modelName

/-- The in-stream error translation (source lines 200-206).  Note that the
first containment test is case-sensitive in the source while the other tests
lower-case the error text. -/
def translateError (modelName msg : String) : String :=
  if containsS "timed out waiting for llama runner" msg || containsS "timeout" (lowerS msg) then
    timeoutMsg modelName
  else if containsS "model" (lowerS msg)
      && (containsS "not found" (lowerS msg) || containsS "does not exist" (lowerS msg)) then
    notFoundMsg modelName
  else msg

/-- How the backend stream ends after its initial lines, covering the
`except` arms of the source: normal exhaustion, `httpx.TimeoutException`,
`httpx.ConnectError`, or any other exception reaching the outermost handler. -/
inductive TailOutcome where
  | eof
  | timeout
  | connectError
  | otherExn (txt : String)

/-- One observed backend interaction: initial response status, error body
(read when the status is not 200), the non-empty-or-empty lines of the
streamed body, and how the stream ends. -/
structure BackendBehavior where
  status : Nat
  body : String
  lines : List String
  tail : TailOutcome

def tailEvents (baseURL : String) : TailOutcome → List OutEvent
  | .eof => []
  | .timeout => [.errEvent "Request timeout to Ollama. Make sure Ollama is running and responsive."]
  | .connectError => [.errEvent ("Cannot connect to Ollama server at " ++ baseURL ++ ". Make sure Ollama is running.")]
  | .otherExn txt => [.errEvent ("Internal server error: " ++ txt)]

/-- The line-forwarding loop of the generator (source lines 192-222): empty
lines are skipped, an error line terminates the generator (so the tail
outcome is never reached), otherwise the tail outcome produces the final
events. -/
def streamLoop (baseURL modelName : String) : List String → TailOutcome → List OutEvent
  | [], tail => tailEvents baseURL tail
  | l :: ls, tail =>
    if l = "" then streamLoop baseURL modelName ls tail
    else
      match lineAct l with
      | .forward => .data l :: streamLoop baseURL modelName ls tail
      | .drop => streamLoop baseURL modelName ls tail
      | .errEvent m => [.errEvent (translateError modelName m)]

/-- The error detail for a non-success initial status (source lines 181-190):
the body's `error` field if the body parses as a JSON object carrying one
(any `.get` failure is swallowed by the bare `except`), else the generic
message. -/
def statusErrorDetail (status : Nat) (body : String) : String :=
  let dflt := "Ollama API error: " ++ toString status
  match parseJson body with
  | some (.jobj fs) =>
    match objGet fs "error" with
    | some v => pyStr v
    | none => dflt
  | _ => dflt

/-- All events of one handled stream, given the resolved model name. -/
def streamEvents (baseURL modelName : String) (b : BackendBehavior) : List OutEvent :=
  if b.status ≠ 200 then [.errEvent (statusErrorDetail b.status b.body)]
  else streamLoop baseURL modelName b.lines b.tail

/-! ### Request handling: model resolution and message preparation -/

structure ChatRequest where
  model : String
  messages : List Message
  stream : Bool := true

/-- Model resolution (source lines 131-139): `not model_name` is the empty
string, then the `strip() == ''` and `lower() == 'string'` tests. -/
def resolveModel (defaultModel model : String) : String :=
  if model = "" ∨ pyStripS model = "" ∨ lowerS model = "string" then defaultModel
  else pyStripS model

/-- The `for i, msg in enumerate(request.messages)` loop (source lines
141-160): `all` is the full message list, `i` the current index. -/
def prepareAux (all : List Message) : Nat → List Message → List Message
  | _, [] => []
  | i, m :: rest =>
    (if m.role = "user" then
      ⟨m.role, fineTune m.content (if i > 0 then some (all.take i) else none)⟩
    else m) :: prepareAux all (i + 1) rest

def prepareMessages (msgs : List Message) : List Message := prepareAux msgs 0 msgs

/-- The outbound payload `ollama_request` (source lines 168-172). -/
structure OllamaRequest where
  model : String
  messages : List Message
  stream : Bool

def buildPayload (defaultModel : String) (req : ChatRequest) : OllamaRequest :=
  ⟨resolveModel defaultModel req.model, prepareMessages req.messages, req.stream⟩

/-- The full generator `stream_response` for one handled chat request. -/
def streamResponse (defaultModel baseURL : String) (req : ChatRequest) (b : BackendBehavior) :
    List OutEvent :=
  streamEvents baseURL (buildPayload defaultModel req).model b

/-- Match `\bpat\b` at the head of `s` (the leading boundary is the caller's
responsibility): strip `pat` case-insensitively, then require a non-word
character (or the end) after it. -/
def tryWord (pat : List Char) (s : List Char) : Option (List Char) :=
  match stripCI pat s with
  | none => none
  | some r =>
    match r with
    | [] => some []
    | d :: _ => if isWordChar d then none else some r

/-- Generic boundary scan: `chk` is applied at every position that follows a
non-word character (or the start when `atB` is initially true). -/
def scanB (chk : List Char → Bool) : Bool → List Char → Bool
  | _, [] => false
  | atB, c :: rest => (atB && chk (c :: rest)) || scanB chk (!isWordChar c) rest

/-- Head shape of a scanning continuation: empty or starting at a non-word
character (so that the next position is a boundary). -/
def bdHead (X : List Char) : Prop :=
  X = [] ∨ ∃ d X', X = d :: X' ∧ isWordChar d = false

/-- The final boundary check of the phrase matcher. -/
def tpEnd (r5 : List Char) : Option (List Char) :=
  match r5 with
  | [] => some []
  | d :: _ => if isWordChar d then none else some r5

/-- One `\s+WORD` stage of the phrase matcher. -/
def tpTail (w : List Char) (next : List Char → Option (List Char)) (r : List Char) :
    Option (List Char) :=
  if (r.takeWhile pyWS).isEmpty then none
  else
    match stripCI w (r.dropWhile pyWS) with
    | none => none
    | some r2 => next r2

/-- The last two stages of `fineTunePre` (short-message clarification and
question-mark normalization, source lines 69-83), abstracted over the result
`t6` of the typo-fix stages.  `fineTunePre_decomp` shows this is literally the
tail of `fineTunePre`. -/
def preTail (t6 : List Char) : List Char :=
  let t7 :=
    if tokenCountL t6 < 3 && !endsWithCh t6 '?' then
      (if !(greetWords.any (fun w => containsL w (lowStr t6))) then
        (if !(t6.contains '?') then "Please explain: ".toList ++ t6 else t6)
      else t6)
    else t6
  if (questionWords.any (fun w => startsL w (lowStr t7))) && !endsWithCh t7 '?' then
    (if !endsWithCh t7 '.' then rstripDotBangL t7 ++ ['?'] else t7)
  else t7

/-- Collapsed-form invariant: every whitespace character is a single `' '`
not preceded by whitespace (the flag records whether the previous character
was whitespace). -/
def collP : Bool → List Char → Bool
  | _, [] => true
  | prev, c :: r => if pyWS c then (!prev && (c = ' ')) && collP true r else collP false r

def wchk (pat : List Char) (s : List Char) : Bool := (tryWord pat s).isSome

def achkC (s : List Char) : Bool := contrWords.any (fun p => (tryWord p s).isSome)

/-- A non-empty line is forwarded exactly when it fails to parse as JSON, or
parses to an object without an `error` key, to a string not containing
`error`, or to an array without an `error` element. -/
def forwardSpec (l : String) : Prop :=
  parseJson l = none ∨
  (∃ fs, parseJson l = some (.jobj fs) ∧ objHas fs "error" = false) ∨
  (∃ s, parseJson l = some (.jstr s) ∧ containsS "error" s = false) ∨
  (∃ es, parseJson l = some (.jarr es) ∧ es.any (isStrVal "error") = false)

/-- The in-stream error translation as an ordered rule list: each rule is a
predicate over the backend error text together with the message it produces
from the resolved model name and the error text. -/
def errorRules : List ((String → Bool) × (String → String → String)) :=
  [ (fun m => containsS "timed out waiting for llama runner" m || containsS "timeout" (lowerS m),
      fun name _ => timeoutMsg name),
    (fun m => containsS "model" (lowerS m)
        && (containsS "not found" (lowerS m) || containsS "does not exist" (lowerS m)),
      fun name _ => notFoundMsg name),
    (fun _ => true, fun _ m => m) ]

def applyRules : List ((String → Bool) × (String → String → String)) → String → String → String
  | [], _, m => m
  | (p, act) :: rs, name, m => if p m then act name m else applyRules rs name m

/-! ### Generic facts about the stream shape -/

theorem streamLoop_shape (baseURL modelName : String) (ls : List String) (tail : TailOutcome) :
    ((streamLoop baseURL modelName ls tail).filter OutEvent.isErr).length ≤ 1 ∧
    ((streamLoop baseURL modelName ls tail).dropLast.all (fun e => !e.isErr)) = true := by
  induction ls with
  | nil => cases tail <;> simp [streamLoop, tailEvents, OutEvent.isErr]
  | cons l ls ih =>
    by_cases hl : l = ""
    · simpa [streamLoop, hl] using ih
    · simp only [streamLoop, hl, if_false, decide_False]
      cases hact : lineAct l with
      | forward =>
        refine ⟨by simpa [OutEvent.isErr] using ih.1, ?_⟩
        cases hrest : streamLoop baseURL modelName ls tail with
        | nil => simp
        | cons e rest =>
          rw [hrest] at ih
          simpa [OutEvent.isErr] using ih.2
      | drop => exact ih
      | errEvent m => simp [OutEvent.isErr]

/-- Claim C1: for every handled chat request, the emitted chunk sequence
contains at most one relay-built error event, any such event is the last
chunk, and in particular two forwarded lines followed by a backend error
line yield exactly three chunks with the error last. -/
theorem claim_C1 (defaultModel baseURL : String) (req : ChatRequest) (b : BackendBehavior) :
    ((streamResponse defaultModel baseURL req b).filter OutEvent.isErr).length ≤ 1 ∧
    ((streamResponse defaultModel baseURL req b).dropLast.all (fun e => !e.isErr)) = true ∧
    streamResponse "phi3:mini-128k" "http://localhost:11434" ⟨"xyz", [], true⟩
        ⟨200, "", ["line1", "line2", "\x7b\"error\":\"model xyz not found\"\x7d"], .eof⟩ =
      [.data "line1", .data "line2", .errEvent (notFoundMsg "xyz")] := by
  refine ⟨?_, ?_, by decide⟩ <;>
  · unfold streamResponse streamEvents
    split
    · simp [OutEvent.isErr]
    · first
      | exact (streamLoop_shape _ _ _ _).1
      | exact (streamLoop_shape _ _ _ _).2

/-- Claim C2 (amended): the outbound payload's model is the configured
default exactly when the request's model is empty, whitespace-only, or has
lowercased form `string`; otherwise it is the trimmed request model.  It is
never empty (for a non-empty configured default), but it can still be the
sentinel `string` when the request's model is the sentinel surrounded by
whitespace (see the counterexample). -/
theorem claim_C2 (defaultModel : String) (req : ChatRequest) (h : defaultModel ≠ "") :
    (buildPayload defaultModel req).model ≠ "" ∧
    ((req.model = "" ∨ pyStripS req.model = "" ∨ lowerS req.model = "string") →
      (buildPayload defaultModel req).model = defaultModel) ∧
    (¬(req.model = "" ∨ pyStripS req.model = "" ∨ lowerS req.model = "string") →
      (buildPayload defaultModel req).model = pyStripS req.model) := by
  have hkey : (buildPayload defaultModel req).model = resolveModel defaultModel req.model := rfl
  refine ⟨?_, fun hc => ?_, fun hc => ?_⟩
  · rw [hkey]
    unfold resolveModel
    split
    · exact h
    · next hn =>
      push_neg at hn
      exact hn.2.1
  · rw [hkey]
    unfold resolveModel
    rw [if_pos hc]
  · rw [hkey]
    unfold resolveModel
    rw [if_neg hc]

/-- Claim C2, counterexample to the claim as stated: the request model
`" string"` is neither empty, nor whitespace-only, nor case-insensitively
equal to `string` (its lowercased form is `" string"`), yet the forwarded
model is exactly the sentinel `string`. -/
theorem claim_C2_counterexample :
    (buildPayload "phi3:mini-128k" ⟨" string", [], true⟩).model = "string" ∧
    lowerS " string" ≠ "string" := by decide

theorem claim_C2_witness :
    resolveModel "phi3:mini-128k" "" ≠ "" ∧ resolveModel "phi3:mini-128k" "" = "phi3:mini-128k" := by
  have h := claim_C2 "phi3:mini-128k" ⟨"", [], true⟩ (by decide)
  exact ⟨h.1, h.2.1 (Or.inl rfl)⟩

/-- Claim C3 (amended): a non-empty backend line is forwarded verbatim, in
order, exactly when `forwardSpec` holds of it — i.e. when it does not parse
as JSON or parses to an object without an `error` field, a string not
containing `error`, or an array without an `error` element.  Lines parsing
to JSON numbers, booleans or `null` (and `error`-containing strings/arrays)
are dropped by the per-line exception handler instead of being forwarded
(see the counterexample). -/
theorem claim_C3 (baseURL modelName : String) (ls : List String)
    (h : ∀ l ∈ ls, lineAct l = .forward) :
    (∀ l : String, lineAct l = .forward ↔ forwardSpec l) ∧
    streamLoop baseURL modelName ls .eof = (ls.filter (fun l => !(l = ""))).map .data := by
  constructor
  · intro l
    unfold lineAct forwardSpec
    cases hp : parseJson l with
    | none => simp
    | some v =>
      cases v with
      | jobj fs =>
        by_cases he : objHas fs "error" = true
        · cases hg : objGet fs "error" with
          | none => simp [he, hg]
          | some w => cases w <;> simp [he, hg]
        · have he' : objHas fs "error" = false := by
            cases hb : objHas fs "error"
            · rfl
            · exact absurd hb he
          simp [he']
      | jstr s =>
        by_cases hs : containsS "error" s = true
        · simp [hs]
        · have hs' : containsS "error" s = false := by
            cases hb : containsS "error" s
            · rfl
            · exact absurd hb hs
          simp [hs']
      | jarr es =>
        by_cases ha : es.any (isStrVal "error") = true
        · simp only [ha, if_true]
          simp only [List.any_eq_true] at ha
          simp [ha]
        · have ha2 : ∀ x ∈ es, isStrVal "error" x = false := by
            intro x hx
            cases hb : isStrVal "error" x
            · rfl
            · exact absurd (List.any_eq_true.mpr ⟨x, hx, hb⟩) ha
          have ha' : es.any (isStrVal "error") = false := by
            cases hb : es.any (isStrVal "error")
            · rfl
            · exact absurd hb ha
          simp [ha']
          exact ha2
      | jnull => simp
      | jbool bb => simp
      | jnum lit => simp
  · induction ls with
    | nil => simp [streamLoop, tailEvents]
    | cons l ls ih =>
      have hl := h l (List.mem_cons_self l ls)
      have hrest : ∀ x ∈ ls, lineAct x = .forward := fun x hx => h x (List.mem_cons_of_mem l hx)
      by_cases he : l = ""
      · simp [streamLoop, he, ih hrest]
      · simp [streamLoop, he, hl, ih hrest]

/-- Claim C3, counterexample to the claim as stated: the backend line `3` is
non-empty and parses as JSON without an `error` field, yet it is dropped
(the membership test `"error" in 3` raises `TypeError`, which only the
per-line `except Exception` handler catches, and that handler `continue`s
without forwarding). -/
theorem claim_C3_counterexample :
    parseJson "3" = some (.jnum "3") ∧
    lineAct "3" = .drop ∧
    streamLoop "http://localhost:11434" "m" ["3"] .eof = [] :=
  ⟨rfl, rfl, rfl⟩

theorem claim_C3_witness :
    streamLoop "http://localhost:11434" "m" ["a", "", "\x7b\"x\": 1\x7d"] .eof =
      [.data "a", .data "\x7b\"x\": 1\x7d"] :=
  (claim_C3 "http://localhost:11434" "m" ["a", "", "\x7b\"x\": 1\x7d"] (by decide)).2

/-- Claim C4 (amended): the in-stream error translation is the ordered
first-match-wins rule list `errorRules` — where the long-phrase test of the
first rule is case-sensitive while its `timeout` keyword test and all the
tests of the second rule are case-insensitive — and after emitting the
translated error event the stream terminates immediately, whatever lines or
tail outcome remain. -/
theorem claim_C4 :
    (∀ modelName msg, translateError modelName msg = applyRules errorRules modelName msg) ∧
    (∀ (baseURL modelName l m : String) (ls : List String) (tail : TailOutcome),
      lineAct l = .errEvent m →
      streamLoop baseURL modelName (l :: ls) tail = [.errEvent (translateError modelName m)]) := by
  constructor
  · intro modelName msg
    rfl
  · intro baseURL modelName l m ls tail hact
    have hne : ¬(l = "") := by
      intro he
      rw [he] at hact
      have base : lineAct "" = .forward := by decide
      rw [base] at hact
      cases hact
    simp [streamLoop, hne, hact]

/-- Claim C4, counterexample to the claim as stated: the error text
`Timed out waiting for llama runner` contains the long phrase
case-insensitively (and contains no `timeout` keyword), so by the claim the
retry guidance should be emitted; the code's case-sensitive test misses it
and the raw text is emitted instead. -/
theorem claim_C4_counterexample :
    containsS "timed out waiting for llama runner"
      (lowerS "Timed out waiting for llama runner") = true ∧
    translateError "m" "Timed out waiting for llama runner" =
      "Timed out waiting for llama runner" ∧
    translateError "m" "Timed out waiting for llama runner" ≠ timeoutMsg "m" := by
  refine ⟨by decide, by decide, by decide⟩

theorem claim_C4_witness :
    streamLoop "u" "m" ["\x7b\"error\":\"boom\"\x7d", "later"] .eof = [.errEvent "boom"] :=
  claim_C4.2 "u" "m" "\x7b\"error\":\"boom\"\x7d" "boom" ["later"] .eof (by decide)

/-- Claim C5: when the backend's initial status is not 200, the relay emits
exactly one error event — carrying the body's `error` field (rendered by
`str()`) when the body parses as a JSON object with that field, and the
generic `Ollama API error: {status}` otherwise — and the backend lines are
never read (the output is the same whatever `b.lines` holds). -/
theorem claim_C5 (defaultModel baseURL : String) (req : ChatRequest) (b : BackendBehavior)
    (h : b.status ≠ 200) :
    streamResponse defaultModel baseURL req b = [.errEvent (statusErrorDetail b.status b.body)] ∧
    (∀ fs v, parseJson b.body = some (.jobj fs) → objGet fs "error" = some v →
      statusErrorDetail b.status b.body = pyStr v) ∧
    (¬(∃ fs v, parseJson b.body = some (.jobj fs) ∧ objGet fs "error" = some v) →
      statusErrorDetail b.status b.body = "Ollama API error: " ++ toString b.status) ∧
    streamResponse "d" "u" ⟨"m", [], true⟩ ⟨500, "\x7b\"error\":\"boom\"\x7d", ["x", "y"], .eof⟩ =
      [.errEvent "boom"] := by
  refine ⟨?_, ?_, ?_, by decide⟩
  · simp [streamResponse, streamEvents, h]
  · intro fs v hp hg
    simp [statusErrorDetail, hp, hg]
  · intro hno
    cases hp : parseJson b.body with
    | none => simp [statusErrorDetail, hp]
    | some v =>
      cases v with
      | jobj fs =>
        cases hg : objGet fs "error" with
        | none => simp [statusErrorDetail, hp, hg]
        | some w => exact absurd ⟨fs, w, hp, hg⟩ hno
      | jnull => simp [statusErrorDetail, hp]
      | jbool bb => simp [statusErrorDetail, hp]
      | jnum lit => simp [statusErrorDetail, hp]
      | jstr s => simp [statusErrorDetail, hp]
      | jarr es => simp [statusErrorDetail, hp]

theorem claim_C5_witness :
    streamResponse "d" "u" ⟨"m", [], true⟩ ⟨404, "oops", ["x"], .eof⟩ =
      [.errEvent "Ollama API error: 404"] := by
  have h := claim_C5 "d" "u" ⟨"m", [], true⟩ ⟨404, "oops", ["x"], .eof⟩ (by decide)
  rw [h.1]
  decide

/-- Claim C6: message preparation preserves the number, order and roles of
the request's messages; the content of the message at index `i` is the
normalized content (with the preceding messages as context, absent for
`i = 0`) when its role is `user`, and is completely unchanged otherwise. -/
theorem claim_C6 (defaultModel : String) (req : ChatRequest) :
    (buildPayload defaultModel req).messages.length = req.messages.length ∧
    (∀ i, i < req.messages.length →
      ((buildPayload defaultModel req).messages.getD i ⟨"", ""⟩).role =
        (req.messages.getD i ⟨"", ""⟩).role ∧
      ((buildPayload defaultModel req).messages.getD i ⟨"", ""⟩).content =
        (if (req.messages.getD i ⟨"", ""⟩).role = "user"
         then fineTune (req.messages.getD i ⟨"", ""⟩).content
            (if i > 0 then some (req.messages.take i) else none)
         else (req.messages.getD i ⟨"", ""⟩).content)) := by
  have hlen : ∀ (all : List Message) (n : Nat) (msgs : List Message),
      (prepareAux all n msgs).length = msgs.length := by
    intro all n msgs
    induction msgs generalizing n with
    | nil => rfl
    | cons m rest ih => simp [prepareAux, ih]
  have hget : ∀ (all : List Message) (n i : Nat) (msgs : List Message), i < msgs.length →
      (prepareAux all n msgs).getD i ⟨"", ""⟩ =
        (if (msgs.getD i ⟨"", ""⟩).role = "user"
         then ⟨(msgs.getD i ⟨"", ""⟩).role,
               fineTune (msgs.getD i ⟨"", ""⟩).content
                 (if n + i > 0 then some (all.take (n + i)) else none)⟩
         else msgs.getD i ⟨"", ""⟩) := by
    intro all n i msgs
    induction msgs generalizing n i with
    | nil => intro hi; exact absurd hi (by simp)
    | cons m rest ih =>
      intro hi
      cases i with
      | zero => simp [prepareAux]
      | succ j =>
        have hj : j < rest.length := by simpa using hi
        have := ih (n + 1) j hj
        simpa [prepareAux, Nat.add_assoc, Nat.add_comm 1 j, Nat.succ_le_iff] using this
  refine ⟨hlen req.messages 0 req.messages, ?_⟩
  intro i hi
  have hmain := hget req.messages 0 i req.messages hi
  rw [Nat.zero_add] at hmain
  show ((prepareAux req.messages 0 req.messages).getD i ⟨"", ""⟩).role = _ ∧
    ((prepareAux req.messages 0 req.messages).getD i ⟨"", ""⟩).content = _
  rw [hmain]
  by_cases hr : (req.messages.getD i ⟨"", ""⟩).role = "user"
  · rw [if_pos hr, if_pos hr]
    exact ⟨rfl, rfl⟩
  · rw [if_neg hr, if_neg hr]
    exact ⟨rfl, rfl⟩

theorem claim_C6_witness :
    (buildPayload "d" ⟨"m", [⟨"user", "what now"⟩, ⟨"assistant", "teh x"⟩], true⟩).messages.length = 2 ∧
    ((buildPayload "d" ⟨"m", [⟨"user", "what now"⟩, ⟨"assistant", "teh x"⟩], true⟩).messages.getD 1
        ⟨"", ""⟩).content = "teh x" := by
  have h := claim_C6 "d" ⟨"m", [⟨"user", "what now"⟩, ⟨"assistant", "teh x"⟩], true⟩
  refine ⟨h.1, ?_⟩
  have h2 := (h.2 1 (by decide)).2
  simpa using h2

/-- Claim C10: the normalizer's output does not depend on the prior-messages
argument; the context-reference detection stage tests a condition and
performs no transformation. -/
theorem claim_C10 (c : String) (ctx1 ctx2 : Option (List Message)) :
    fineTune c ctx1 = fineTune c ctx2 := by
  unfold fineTune
  cases ctx1 <;> cases ctx2 <;> simp [ite_self]

/-! ### Character-level facts -/

theorem charNat_inj {a b : Char} (h : a.toNat = b.toNat) : a = b :=
  Char.eq_of_val_eq (UInt32.ext h)

theorem toNat_ofNat_small {n : Nat} (h : n < 128) : (Char.ofNat n).toNat = n := by
  unfold Char.ofNat
  split
  · rfl
  · next hn => exact absurd (Or.inl (by omega)) hn

theorem pyIsUpperCh_iff {c : Char} : pyIsUpperCh c = true ↔ 65 ≤ c.toNat ∧ c.toNat ≤ 90 := by
  unfold pyIsUpperCh
  simp only [Bool.and_eq_true, decide_eq_true_eq]
  exact ⟨fun ⟨x, y⟩ => ⟨x, y⟩, fun ⟨x, y⟩ => ⟨x, y⟩⟩

theorem pyIsLowerCh_iff {c : Char} : pyIsLowerCh c = true ↔ 97 ≤ c.toNat ∧ c.toNat ≤ 122 := by
  unfold pyIsLowerCh
  simp only [Bool.and_eq_true, decide_eq_true_eq]
  exact ⟨fun ⟨x, y⟩ => ⟨x, y⟩, fun ⟨x, y⟩ => ⟨x, y⟩⟩

theorem pyIsDigitCh_iff {c : Char} : pyIsDigitCh c = true ↔ 48 ≤ c.toNat ∧ c.toNat ≤ 57 := by
  unfold pyIsDigitCh
  simp only [Bool.and_eq_true, decide_eq_true_eq]
  exact ⟨fun ⟨x, y⟩ => ⟨x, y⟩, fun ⟨x, y⟩ => ⟨x, y⟩⟩

theorem pyIsAlphaCh_iff {c : Char} :
    pyIsAlphaCh c = true ↔ (97 ≤ c.toNat ∧ c.toNat ≤ 122) ∨ (65 ≤ c.toNat ∧ c.toNat ≤ 90) := by
  unfold pyIsAlphaCh
  simp only [Bool.or_eq_true, Bool.and_eq_true, decide_eq_true_eq]
  exact ⟨fun h => h.elim (fun ⟨x, y⟩ => Or.inl ⟨x, y⟩) (fun ⟨x, y⟩ => Or.inr ⟨x, y⟩),
    fun h => h.elim (fun ⟨x, y⟩ => Or.inl ⟨x, y⟩) (fun ⟨x, y⟩ => Or.inr ⟨x, y⟩)⟩

theorem pyIsAlnumCh_iff {c : Char} :
    pyIsAlnumCh c = true ↔
      (97 ≤ c.toNat ∧ c.toNat ≤ 122) ∨ (65 ≤ c.toNat ∧ c.toNat ≤ 90)
        ∨ (48 ≤ c.toNat ∧ c.toNat ≤ 57) := by
  unfold pyIsAlnumCh
  simp only [Bool.or_eq_true, pyIsAlphaCh_iff, pyIsDigitCh_iff]
  tauto

theorem char_eq_iff_toNat {c d : Char} : c = d ↔ c.toNat = d.toNat :=
  ⟨fun h => h ▸ rfl, charNat_inj⟩

theorem pyWS_iff {c : Char} :
    pyWS c = true ↔ (c.toNat = 32 ∨ c.toNat = 9 ∨ c.toNat = 10 ∨ c.toNat = 13
      ∨ c.toNat = 11 ∨ c.toNat = 12) := by
  unfold pyWS
  simp only [Bool.or_eq_true, decide_eq_true_eq, char_eq_iff_toNat]
  have e1 : (' ' : Char).toNat = 32 := rfl
  have e2 : ('\t' : Char).toNat = 9 := rfl
  have e3 : ('\n' : Char).toNat = 10 := rfl
  have e4 : ('\r' : Char).toNat = 13 := rfl
  have e5 : (Char.ofNat 11).toNat = 11 := toNat_ofNat_small (by omega)
  have e6 : (Char.ofNat 12).toNat = 12 := toNat_ofNat_small (by omega)
  rw [e1, e2, e3, e4, e5, e6]
  tauto

theorem bool_false_not {b : Bool} (h : b = false) : ¬(b = true) := fun hh => by
  rw [h] at hh
  exact Bool.noConfusion hh

theorem isWordChar_iff {c : Char} :
    isWordChar c = true ↔
      (97 ≤ c.toNat ∧ c.toNat ≤ 122) ∨ (65 ≤ c.toNat ∧ c.toNat ≤ 90)
        ∨ (48 ≤ c.toNat ∧ c.toNat ≤ 57) ∨ c.toNat = 95 := by
  unfold isWordChar
  simp only [Bool.or_eq_true, pyIsAlnumCh_iff, decide_eq_true_eq, char_eq_iff_toNat]
  have e : ('_' : Char).toNat = 95 := rfl
  rw [e]
  tauto

theorem word_not_ws {c : Char} (h : isWordChar c = true) : pyWS c = false := by
  cases hw : pyWS c
  · rfl
  · rw [isWordChar_iff] at h
    rw [pyWS_iff] at hw
    omega

theorem ws_not_alnum {c : Char} (h : pyWS c = true) : pyIsAlnumCh c = false := by
  cases ha : pyIsAlnumCh c
  · rfl
  · rw [pyIsAlnumCh_iff] at ha
    rw [pyWS_iff] at h
    omega

theorem alpha_word {c : Char} (h : pyIsAlphaCh c = true) : isWordChar c = true := by
  rw [pyIsAlphaCh_iff] at h
  rw [isWordChar_iff]
  omega

theorem alpha_not_dot {c : Char} (h : pyIsAlphaCh c = true) : c ≠ '.' ∧ c ≠ '?' := by
  rw [pyIsAlphaCh_iff] at h
  have e1 : ('.' : Char).toNat = 46 := rfl
  have e2 : ('?' : Char).toNat = 63 := rfl
  constructor <;> intro he <;> rw [char_eq_iff_toNat] at he <;> omega

theorem lowCh_toNat {c : Char} :
    (lowCh c).toNat = if 65 ≤ c.toNat ∧ c.toNat ≤ 90 then c.toNat + 32 else c.toNat := by
  unfold lowCh
  by_cases h : pyIsUpperCh c = true
  · rw [if_pos h, if_pos (pyIsUpperCh_iff.mp h)]
    have := (pyIsUpperCh_iff.mp h).2
    exact toNat_ofNat_small (by omega)
  · rw [if_neg h, if_neg]
    intro hb
    exact h (pyIsUpperCh_iff.mpr hb)

theorem upCh_toNat {c : Char} :
    (upCh c).toNat = if 97 ≤ c.toNat ∧ c.toNat ≤ 122 then c.toNat - 32 else c.toNat := by
  unfold upCh
  by_cases h : pyIsLowerCh c = true
  · rw [if_pos h, if_pos (pyIsLowerCh_iff.mp h)]
    have := pyIsLowerCh_iff.mp h
    exact toNat_ofNat_small (by omega)
  · rw [if_neg h, if_neg]
    intro hb
    exact h (pyIsLowerCh_iff.mpr hb)

theorem lowCh_ws {c : Char} : pyWS (lowCh c) = pyWS c := by
  cases h2 : pyWS c
  · cases h1 : pyWS (lowCh c)
    · rfl
    · exfalso
      have h2' := bool_false_not h2
      rw [pyWS_iff] at h1 h2'
      rw [lowCh_toNat] at h1
      split at h1 <;> omega
  · cases h1 : pyWS (lowCh c)
    · exfalso
      have h1' := bool_false_not h1
      rw [pyWS_iff] at h1' h2
      rw [lowCh_toNat] at h1'
      split at h1' <;> omega
    · rfl

theorem lowCh_word {c : Char} : isWordChar (lowCh c) = isWordChar c := by
  cases h2 : isWordChar c
  · cases h1 : isWordChar (lowCh c)
    · rfl
    · exfalso
      have h2' := bool_false_not h2
      rw [isWordChar_iff] at h1 h2'
      rw [lowCh_toNat] at h1
      split at h1 <;> omega
  · cases h1 : isWordChar (lowCh c)
    · exfalso
      have h1' := bool_false_not h1
      rw [isWordChar_iff] at h1' h2
      rw [lowCh_toNat] at h1'
      split at h1' <;> omega
    · rfl

theorem lowCh_not_upper {c : Char} : pyIsUpperCh (lowCh c) = false := by
  cases h : pyIsUpperCh (lowCh c)
  · rfl
  · exfalso
    rw [pyIsUpperCh_iff, lowCh_toNat] at h
    split at h <;> omega

theorem lowCh_eq_self {c : Char} (h : pyIsUpperCh c = false) : lowCh c = c := by
  unfold lowCh
  simp [h]

theorem upCh_eq_self {c : Char} (h : pyIsLowerCh c = false) : upCh c = c := by
  unfold upCh
  simp [h]

theorem lowCh_lowCh {c : Char} : lowCh (lowCh c) = lowCh c :=
  lowCh_eq_self lowCh_not_upper

theorem lowCh_upCh {c : Char} : lowCh (upCh c) = lowCh c := by
  cases h : pyIsLowerCh c
  · rw [upCh_eq_self h]
  · have h1 := pyIsLowerCh_iff.mp h
    have h2 : (upCh c).toNat = c.toNat - 32 := by
      rw [upCh_toNat, if_pos h1]
    rw [char_eq_iff_toNat, lowCh_toNat, lowCh_toNat, h2]
    split <;> split <;> omega

theorem alpha_of_lowCh_alpha {c : Char} (h : pyIsAlphaCh (lowCh c) = true) :
    pyIsAlphaCh c = true := by
  rw [pyIsAlphaCh_iff] at h ⊢
  rw [lowCh_toNat] at h
  split at h <;> omega

theorem ws_of_lowCh_ws {c : Char} (h : pyWS (lowCh c) = true) : pyWS c = true := by
  rw [← lowCh_ws]
  exact h

theorem upCh_upper {c : Char} (h : pyIsLowerCh c = true) : pyIsUpperCh (upCh c) = true := by
  rw [pyIsLowerCh_iff] at h
  rw [pyIsUpperCh_iff, upCh_toNat]
  split <;> omega

/-! ### List-level facts about tokens, stripping, collapsing -/

theorem dropWhile_head_not {α : Type} (p : α → Bool) (l : List α) {d : α} {rest : List α}
    (h : l.dropWhile p = d :: rest) : p d = false := by
  induction l with
  | nil => simp [List.dropWhile] at h
  | cons a t ih =>
    rw [List.dropWhile_cons] at h
    split at h
    · exact ih h
    · next hp =>
      injection h with h1 _
      subst h1
      cases hq : p a
      · rfl
      · exact absurd hq hp

theorem mem_takeWhile {α : Type} (p : α → Bool) (l : List α) {a : α}
    (h : a ∈ l.takeWhile p) : p a = true := by
  induction l with
  | nil => simp [List.takeWhile] at h
  | cons x t ih =>
    rw [List.takeWhile_cons] at h
    split at h
    · next hp =>
      rcases List.mem_cons.mp h with h1 | h1
      · subst h1; exact hp
      · exact ih h1
    · simp at h

theorem takeWhile_all_append {α : Type} (p : α → Bool) (w rest : List α)
    (hall : ∀ c ∈ w, p c = true)
    (hrest : rest = [] ∨ ∃ d rest', rest = d :: rest' ∧ p d = false) :
    (w ++ rest).takeWhile p = w ∧ (w ++ rest).dropWhile p = rest := by
  induction w with
  | nil =>
    simp only [List.nil_append]
    rcases hrest with h | ⟨d, rest', h, hd⟩
    · subst h; simp [List.takeWhile, List.dropWhile]
    · subst h; simp [List.takeWhile_cons, List.dropWhile_cons, hd]
  | cons a w ih =>
    have ha := hall a (by simp)
    have ihh := ih (fun c hc => hall c (by simp [hc]))
    simp [List.takeWhile_cons, List.dropWhile_cons, ha, ihh.1, ihh.2]

theorem tcAux_cons_ws {c : Char} {X : List Char} (b : Bool) (h : pyWS c = true) :
    tcAux b (c :: X) = tcAux false X := by
  simp [tcAux, h]

theorem tcAux_cons_tok {c : Char} {X : List Char} (b : Bool) (h : pyWS c = false) :
    tcAux b (c :: X) = (if b then 0 else 1) + tcAux true X := by
  simp [tcAux, h]

theorem tcAux_run {w : List Char} (hw : w ≠ []) (hac : ∀ c ∈ w, pyWS c = false)
    (b : Bool) (X : List Char) :
    tcAux b (w ++ X) = (if b then 0 else 1) + tcAux true X := by
  induction w generalizing b with
  | nil => exact absurd rfl hw
  | cons a w ih =>
    have ha := hac a (by simp)
    rw [List.cons_append, tcAux_cons_tok b ha]
    cases w with
    | nil => simp
    | cons a2 w2 =>
      rw [ih (by simp) (fun c hc => hac c (by simp [hc])) true]
      simp

theorem tcAux_ws_run {g : List Char} (hg : g ≠ []) (hag : ∀ c ∈ g, pyWS c = true)
    (b : Bool) (X : List Char) :
    tcAux b (g ++ X) = tcAux false X := by
  induction g generalizing b with
  | nil => exact absurd rfl hg
  | cons a g ih =>
    have ha := hag a (by simp)
    rw [List.cons_append, tcAux_cons_ws b ha]
    cases g with
    | nil => rfl
    | cons a2 g2 =>
      exact ih (by simp) (fun c hc => hag c (by simp [hc])) false

theorem getLast?_cons_of_ne_nil {α : Type} {a : α} {l : List α} (h : l ≠ []) :
    (a :: l).getLast? = l.getLast? := by
  cases l with
  | nil => exact absurd rfl h
  | cons x t => rfl

theorem getLast?_append_right {α : Type} {a b : List α} (h : b ≠ []) :
    (a ++ b).getLast? = b.getLast? := by
  induction a with
  | nil => rfl
  | cons x a ih =>
    rw [List.cons_append, getLast?_cons_of_ne_nil, ih]
    intro he
    rcases List.append_eq_nil.mp he with ⟨_, h2⟩
    exact h h2

theorem endsWithCh_iff {l : List Char} {c : Char} :
    endsWithCh l c = true ↔ l.getLast? = some c := by
  unfold endsWithCh
  simp [decide_eq_true_eq]

theorem rstripWS_split (l : List Char) :
    ∃ suf, l = rstripWS l ++ suf ∧ ∀ c ∈ suf, pyWS c = true := by
  refine ⟨(l.reverse.takeWhile pyWS).reverse, ?_, ?_⟩
  · conv_lhs => rw [← l.reverse_reverse,
      ← List.takeWhile_append_dropWhile pyWS l.reverse]
    rw [List.reverse_append]
    rfl
  · intro c hc
    rw [List.mem_reverse] at hc
    exact mem_takeWhile pyWS _ hc

theorem stripL_split (l : List Char) :
    ∃ suf, l.dropWhile pyWS = pyStripL l ++ suf ∧ ∀ c ∈ suf, pyWS c = true :=
  rstripWS_split (l.dropWhile pyWS)

theorem pyStripL_head_not_ws {l : List Char} {d : Char} {rest : List Char}
    (h : pyStripL l = d :: rest) : pyWS d = false := by
  obtain ⟨suf, hs, _⟩ := stripL_split l
  rw [h] at hs
  exact dropWhile_head_not pyWS l hs

theorem getLast?_dropWhile_ws {l : List Char} {c : Char}
    (h : l.getLast? = some c) (hc : pyWS c = false) :
    (l.dropWhile pyWS).getLast? = some c := by
  induction l with
  | nil => simp at h
  | cons x t ih =>
    rw [List.dropWhile_cons]
    split
    · next hx =>
      cases t with
      | nil =>
        simp at h
        subst h
        rw [hx] at hc
        cases hc
      | cons y t2 =>
        rw [getLast?_cons_of_ne_nil (by simp)] at h
        exact ih h
    · exact h

theorem rstripWS_eq_self {l : List Char} {c : Char}
    (h : l.getLast? = some c) (hc : pyWS c = false) : rstripWS l = l := by
  unfold rstripWS
  have hrev : l.reverse.head? = some c := by
    rw [List.head?_reverse]
    exact h
  cases hr : l.reverse with
  | nil => rw [hr] at hrev; cases hrev
  | cons x t =>
    rw [hr] at hrev
    injection hrev with hx
    subst hx
    rw [List.dropWhile_cons, if_neg (by simp [hc]), ← hr, List.reverse_reverse]

theorem getLast?_pyStripL {l : List Char} {c : Char}
    (h : l.getLast? = some c) (hc : pyWS c = false) :
    (pyStripL l).getLast? = some c := by
  unfold pyStripL
  have h1 := getLast?_dropWhile_ws h hc
  rw [rstripWS_eq_self h1 hc]
  exact h1

theorem getLast?_collapseAux {l : List Char} {c : Char}
    (h : l.getLast? = some c) (hc : pyWS c = false) (b : Bool) :
    (collapseAux b l).getLast? = some c := by
  induction l generalizing b with
  | nil => simp at h
  | cons x t ih =>
    cases t with
    | nil =>
      simp at h
      subst h
      simp [collapseAux, hc]
    | cons y t2 =>
      rw [getLast?_cons_of_ne_nil (by simp)] at h
      have iht := ih h
      have hne : ∀ b', collapseAux b' (y :: t2) ≠ [] := by
        intro b' he
        have := iht b'
        rw [he] at this
        cases this
      unfold collapseAux
      split
      · split
        · exact iht true
        · rw [getLast?_cons_of_ne_nil (hne true)]
          exact iht true
      · rw [getLast?_cons_of_ne_nil (hne false)]
        exact iht false

theorem startsL_of_append (p x : List Char) : startsL p (p ++ x) = true := by
  induction p with
  | nil => rfl
  | cons a p ih => simp [startsL, ih]

theorem lowStr_append (a b : List Char) : lowStr (a ++ b) = lowStr a ++ lowStr b := by
  unfold lowStr
  exact List.map_append lowCh a b

/-! ### Facts about the word-run substitution `mapWords` -/

theorem mapWords_nil (f : List Char → List Char) : mapWords f [] = [] := by
  simp [mapWords]

theorem mapWords_cons_nonword (f : List Char → List Char) {c : Char} (rest : List Char)
    (h : isWordChar c = false) : mapWords f (c :: rest) = c :: mapWords f rest := by
  rw [mapWords]
  simp [h]

theorem mapWords_cons_word (f : List Char → List Char) {c : Char} (rest : List Char)
    (h : isWordChar c = true) :
    mapWords f (c :: rest) =
      f ((c :: rest).takeWhile isWordChar) ++ mapWords f ((c :: rest).dropWhile isWordChar) := by
  rw [mapWords]
  simp [h]

theorem mapWordsF_eq (f : List Char → List Char) :
    ∀ fuel (l : List Char), l.length ≤ fuel → mapWordsF f fuel l = mapWords f l := by
  intro fuel
  induction fuel with
  | zero =>
    intro l hl
    have : l = [] := List.length_eq_zero.mp (Nat.le_zero.mp hl)
    subst this
    rw [mapWords_nil]
    rfl
  | succ n ih =>
    intro l hl
    cases l with
    | nil =>
      rw [mapWords_nil]
      rfl
    | cons c rest =>
      show (if isWordChar c then _ else _) = mapWords f (c :: rest)
      cases hw : isWordChar c with
      | true =>
        rw [if_pos rfl, mapWords_cons_word f rest hw]
        have hdrop : ((c :: rest).dropWhile isWordChar).length ≤ n := by
          have h1 : ((c :: rest).dropWhile isWordChar).length ≤ rest.length := by
            rw [List.dropWhile_cons, if_pos hw]
            exact length_dropWhile_le _ _
          simp only [List.length_cons] at hl
          omega
        rw [ih _ hdrop]
      | false =>
        rw [if_neg (by simp), mapWords_cons_nonword f rest hw]
        have hrest : rest.length ≤ n := by
          simp only [List.length_cons] at hl
          omega
        rw [ih rest hrest]

theorem mapWordsC_eq (f : List Char → List Char) (l : List Char) :
    mapWordsC f l = mapWords f l :=
  mapWordsF_eq f (l.length + 1) l (by omega)

theorem mapWords_run (f : List Char → List Char) {w : List Char} (hw : w ≠ [])
    (hall : ∀ c ∈ w, isWordChar c = true) (rest : List Char)
    (hrest : rest = [] ∨ ∃ d rest', rest = d :: rest' ∧ isWordChar d = false) :
    mapWords f (w ++ rest) = f w ++ mapWords f rest := by
  obtain ⟨tk, dr⟩ := takeWhile_all_append isWordChar w rest hall hrest
  cases w with
  | nil => exact absurd rfl hw
  | cons c w' =>
    have hc := hall c (by simp)
    rw [List.cons_append, mapWords_cons_word f _ hc]
    rw [List.cons_append] at tk dr
    rw [tk, dr]

theorem mapWords_tok_front (f : List Char → List Char) {tok : List Char} {d : Char}
    (rest : List Char) (htok : tok ≠ []) (hall : ∀ c ∈ tok, isWordChar c = true)
    (hd : isWordChar d = false) (hftok : f tok = tok) :
    mapWords f (tok ++ d :: rest) = tok ++ d :: mapWords f rest := by
  rw [mapWords_run f htok hall _ (Or.inr ⟨d, rest, rfl, hd⟩), hftok,
    mapWords_cons_nonword f rest hd]

theorem tcAux_mapWords (f : List Char → List Char)
    (hf : ∀ r, r ≠ [] → (∀ c ∈ r, isWordChar c = true) →
      (f r ≠ [] ∧ ∀ c ∈ f r, pyWS c = false)) :
    ∀ l b, tcAux b (mapWords f l) = tcAux b l := by
  have H : ∀ n, ∀ l : List Char, l.length < n → ∀ b, tcAux b (mapWords f l) = tcAux b l := by
    intro n
    induction n with
    | zero => intro l hl; exact absurd hl (Nat.not_lt_zero _)
    | succ n ih =>
      intro l hl b
      cases l with
      | nil => rw [mapWords_nil]
      | cons c rest =>
        cases hw : isWordChar c with
        | false =>
          rw [mapWords_cons_nonword f rest hw]
          cases hws : pyWS c with
          | true =>
            rw [tcAux_cons_ws b hws, tcAux_cons_ws b hws]
            exact ih rest (by simp at hl; omega) false
          | false =>
            rw [tcAux_cons_tok b hws, tcAux_cons_tok b hws]
            rw [ih rest (by simp at hl; omega) true]
        | true =>
          rw [mapWords_cons_word f rest hw]
          have hsplit : (c :: rest).takeWhile isWordChar ++ (c :: rest).dropWhile isWordChar
              = c :: rest := List.takeWhile_append_dropWhile isWordChar (c :: rest)
          have hwne : (c :: rest).takeWhile isWordChar ≠ [] := by
            rw [List.takeWhile_cons, if_pos hw]
            simp
          have hwall : ∀ x ∈ (c :: rest).takeWhile isWordChar, isWordChar x = true :=
            fun x hx => mem_takeWhile _ _ hx
          have hwws : ∀ x ∈ (c :: rest).takeWhile isWordChar, pyWS x = false :=
            fun x hx => word_not_ws (hwall x hx)
          have hrlen : ((c :: rest).dropWhile isWordChar).length < n := by
            have h1 : ((c :: rest).dropWhile isWordChar).length ≤ rest.length := by
              rw [List.dropWhile_cons, if_pos hw]
              exact length_dropWhile_le _ _
            simp only [List.length_cons] at hl
            omega
          obtain ⟨hfne, hfws⟩ := hf _ hwne hwall
          rw [tcAux_run hfne hfws b _, ih _ hrlen true]
          conv_rhs => rw [← hsplit]
          rw [tcAux_run hwne hwws b _]
  intro l b
  exact H (l.length + 1) l (by omega) b

theorem getLast?_mapWords (f : List Char → List Char)
    (hf1 : ∀ r, r ≠ [] → (∀ c ∈ r, isWordChar c = true) → f r ≠ [])
    (hf3 : ∀ r, r ≠ [] → (∀ c ∈ r, isWordChar c = true) →
      (f r = r ∨ ∃ c, (f r).getLast? = some c ∧ pyIsAlphaCh c = true)) :
    ∀ l, l ≠ [] → mapWords f l ≠ [] ∧
      ((mapWords f l).getLast? = l.getLast? ∨
        ∃ c, (mapWords f l).getLast? = some c ∧ pyIsAlphaCh c = true) := by
  have H : ∀ n, ∀ l : List Char, l.length < n → l ≠ [] → mapWords f l ≠ [] ∧
      ((mapWords f l).getLast? = l.getLast? ∨
        ∃ c, (mapWords f l).getLast? = some c ∧ pyIsAlphaCh c = true) := by
    intro n
    induction n with
    | zero => intro l hl; exact absurd hl (Nat.not_lt_zero _)
    | succ n ih =>
      intro l hl hne
      cases l with
      | nil => exact absurd rfl hne
      | cons c rest =>
        cases hw : isWordChar c with
        | false =>
          rw [mapWords_cons_nonword f rest hw]
          cases rest with
          | nil => exact ⟨by simp, Or.inl (by rw [mapWords_nil])⟩
          | cons y t2 =>
            obtain ⟨hMne, hMlast⟩ :=
              ih (y :: t2) (by simp only [List.length_cons] at hl ⊢; omega) (by simp)
            refine ⟨by simp, ?_⟩
            rw [getLast?_cons_of_ne_nil hMne, getLast?_cons_of_ne_nil (by simp : y :: t2 ≠ [])]
            exact hMlast
        | true =>
          rw [mapWords_cons_word f rest hw]
          have hsplit : (c :: rest).takeWhile isWordChar ++ (c :: rest).dropWhile isWordChar
              = c :: rest := List.takeWhile_append_dropWhile isWordChar (c :: rest)
          have hwne : (c :: rest).takeWhile isWordChar ≠ [] := by
            rw [List.takeWhile_cons, if_pos hw]
            simp
          have hwall : ∀ x ∈ (c :: rest).takeWhile isWordChar, isWordChar x = true :=
            fun x hx => mem_takeWhile _ _ hx
          have hfne := hf1 _ hwne hwall
          cases hr : (c :: rest).dropWhile isWordChar with
          | nil =>
            rw [mapWords_nil, List.append_nil]
            have hlw : (c :: rest : List Char) = (c :: rest).takeWhile isWordChar := by
              conv_lhs => rw [← hsplit]
              rw [hr, List.append_nil]
            refine ⟨hfne, ?_⟩
            rcases hf3 _ hwne hwall with he | ⟨x, hx, ha⟩
            · rw [he, ← hlw]
              exact Or.inl rfl
            · exact Or.inr ⟨x, hx, ha⟩
          | cons d r2 =>
            have hrlen : ((d :: r2 : List Char)).length < n := by
              have h1 : ((c :: rest).dropWhile isWordChar).length ≤ rest.length := by
                rw [List.dropWhile_cons, if_pos hw]
                exact length_dropWhile_le _ _
              rw [hr] at h1
              simp only [List.length_cons] at hl h1 ⊢
              omega
            obtain ⟨hMne, hMlast⟩ := ih (d :: r2) hrlen (by simp)
            refine ⟨by simp [hMne], ?_⟩
            rw [getLast?_append_right hMne]
            have hlast : (c :: rest : List Char).getLast? = (d :: r2 : List Char).getLast? := by
              conv_lhs => rw [← hsplit]
              rw [hr, getLast?_append_right (by simp : (d :: r2 : List Char) ≠ [])]
            rw [hlast]
            exact hMlast
  intro l hne
  exact H (l.length + 1) l (by omega) hne

/-! ### Facts about the phrase substitution `phraseSub` -/

theorem stripCI_split {p s r : List Char} (h : stripCI p s = some r) :
    ∃ m, s = m ++ r ∧ lowStr m = p := by
  induction p generalizing s r with
  | nil =>
    refine ⟨[], ?_, rfl⟩
    simp [stripCI] at h
    rw [h]
    rfl
  | cons a p ih =>
    cases s with
    | nil => simp [stripCI] at h
    | cons b l =>
      simp only [stripCI] at h
      split at h
      · next hb =>
        obtain ⟨m, hm1, hm2⟩ := ih h
        exact ⟨b :: m, by rw [List.cons_append, hm1], by simp [lowStr, hb, hm2.symm]⟩
      · exact absurd h (by simp)

theorem lowStr_no_ws {m p : List Char} (h : lowStr m = p) (hp : ∀ c ∈ p, pyWS c = false) :
    ∀ c ∈ m, pyWS c = false := by
  intro c hc
  have hmem : lowCh c ∈ p := by
    rw [← h]
    exact List.mem_map_of_mem lowCh hc
  rw [← lowCh_ws]
  exact hp _ hmem

theorem lowStr_ne_nil {m p : List Char} (h : lowStr m = p) (hp : p ≠ []) : m ≠ [] := by
  intro he
  rw [he] at h
  exact hp h.symm

theorem tryPhrase_split {s rem : List Char} (h : tryPhrase s = some rem) :
    ∃ m1 g1 m2 g2 m3, s = m1 ++ (g1 ++ (m2 ++ (g2 ++ (m3 ++ rem)))) ∧
      lowStr m1 = "you".toList ∧ lowStr m2 = "are".toList ∧ lowStr m3 = "right".toList ∧
      g1 ≠ [] ∧ (∀ c ∈ g1, pyWS c = true) ∧ g2 ≠ [] ∧ (∀ c ∈ g2, pyWS c = true) ∧
      (rem = [] ∨ ∃ d r2, rem = d :: r2 ∧ isWordChar d = false) := by
  obtain ⟨r1, r3, h1, hg1, h3, hg2, h5, hb⟩ := tryPhrase_remainder h
  obtain ⟨m1, hs1, hm1⟩ := stripCI_split h1
  obtain ⟨m2, hs2, hm2⟩ := stripCI_split h3
  obtain ⟨m3, hs3, hm3⟩ := stripCI_split h5
  refine ⟨m1, r1.takeWhile pyWS, m2, r3.takeWhile pyWS, m3, ?_, hm1, hm2, hm3, hg1,
    fun c hc => mem_takeWhile _ _ hc, hg2, fun c hc => mem_takeWhile _ _ hc, hb⟩
  rw [hs1]
  congr 1
  conv_lhs => rw [← List.takeWhile_append_dropWhile pyWS r1]
  congr 1
  rw [hs2]
  congr 1
  conv_lhs => rw [← List.takeWhile_append_dropWhile pyWS r3]
  rw [hs3]

theorem phraseGo_nil (b : Bool) : phraseGo b [] = [] := by
  simp [phraseGo]

theorem phraseGo_cons_false {c : Char} (rest : List Char) :
    phraseGo false (c :: rest) = c :: phraseGo (!isWordChar c) rest := by
  simp [phraseGo]

theorem phraseGo_cons_none {c : Char} {rest : List Char} (h : tryPhrase (c :: rest) = none) :
    phraseGo true (c :: rest) = c :: phraseGo (!isWordChar c) rest := by
  rw [phraseGo.eq_def]
  simp only [if_true]
  split
  · next rem heq =>
    rw [h] at heq
    cases heq
  · rfl

theorem phraseGo_cons_match {c : Char} {rest rem : List Char}
    (h : tryPhrase (c :: rest) = some rem) :
    phraseGo true (c :: rest) = "you are correct".toList ++ phraseGo false rem := by
  rw [phraseGo.eq_def]
  simp only [if_true]
  split
  · next rem2 heq =>
    rw [h] at heq
    injection heq with he
    rw [he]
  · next heq =>
    rw [h] at heq
    cases heq

theorem phraseGoF_eq :
    ∀ fuel (l : List Char), l.length ≤ fuel → ∀ atB, phraseGoF fuel atB l = phraseGo atB l := by
  intro fuel
  induction fuel with
  | zero =>
    intro l hl
    have : l = [] := List.length_eq_zero.mp (Nat.le_zero.mp hl)
    subst this
    intro atB
    rw [phraseGo_nil]
    rfl
  | succ n ih =>
    intro l hl atB
    cases l with
    | nil => rw [phraseGo_nil]; rfl
    | cons c rest =>
      have hrest : rest.length ≤ n := by
        simp only [List.length_cons] at hl
        omega
      cases atB with
      | false =>
        rw [phraseGo_cons_false]
        show c :: phraseGoF n (!isWordChar c) rest = _
        rw [ih rest hrest]
      | true =>
        cases htp : tryPhrase (c :: rest) with
        | none =>
          rw [phraseGo_cons_none htp]
          show (match tryPhrase (c :: rest) with
            | some rem => "you are correct".toList ++ phraseGoF n false rem
            | none => c :: phraseGoF n (!isWordChar c) rest) = _
          rw [htp]
          show c :: phraseGoF n (!isWordChar c) rest = _
          rw [ih rest hrest]
        | some rem =>
          rw [phraseGo_cons_match htp]
          show (match tryPhrase (c :: rest) with
            | some rem => "you are correct".toList ++ phraseGoF n false rem
            | none => c :: phraseGoF n (!isWordChar c) rest) = _
          rw [htp]
          have hrem : rem.length ≤ n := by
            have hle := tryPhrase_length htp
            simp only [List.length_cons] at hle hl
            omega
          show "you are correct".toList ++ phraseGoF n false rem = _
          rw [ih rem hrem]

theorem phraseSub_eq (l : List Char) : phraseSub l = phraseGo true l :=
  phraseGoF_eq (l.length + 1) l (by omega) true

theorem tryPhrase_none_head {c : Char} (x : List Char) (h : ¬(lowCh c = 'y')) :
    tryPhrase (c :: x) = none := by
  unfold tryPhrase
  have hs : stripCI "you".toList (c :: x) = none := by
    show stripCI ('y' :: "ou".toList) (c :: x) = none
    simp [stripCI, h]
  rw [hs]

theorem phraseGo_false_words {w : List Char} (hall : ∀ c ∈ w, isWordChar c = true)
    (z : List Char) : phraseGo false (w ++ z) = w ++ phraseGo false z := by
  induction w with
  | nil => rfl
  | cons a w ih =>
    have ha := hall a (by simp)
    rw [List.cons_append, phraseGo_cons_false, ha]
    simp only [Bool.not_true]
    rw [ih (fun c hc => hall c (by simp [hc]))]
    rfl

theorem phraseGo_tok_front {tok : List Char} {d : Char} (rest : List Char)
    (htok : tok ≠ []) (hall : ∀ c ∈ tok, isWordChar c = true)
    (hhead : ∀ c tk, tok = c :: tk → ¬(lowCh c = 'y')) (hd : isWordChar d = false) :
    phraseGo true (tok ++ d :: rest) = tok ++ d :: phraseGo true rest := by
  cases tok with
  | nil => exact absurd rfl htok
  | cons c tk =>
    have hc := hall c (by simp)
    rw [List.cons_append, phraseGo_cons_none (tryPhrase_none_head _ (hhead c tk rfl)), hc]
    simp only [Bool.not_true]
    rw [phraseGo_false_words (fun x hx => hall x (by simp [hx])) (d :: rest)]
    rw [phraseGo_cons_false, hd]
    simp only [Bool.not_false]
    rfl

theorem tcAux_rep (b : Bool) (X : List Char) :
    tcAux b ("you are correct".toList ++ X) = (if b then 0 else 1) + (1 + (1 + tcAux true X)) := by
  show tcAux b ('y' :: 'o' :: 'u' :: ' ' :: 'a' :: 'r' :: 'e' :: ' '
      :: 'c' :: 'o' :: 'r' :: 'r' :: 'e' :: 'c' :: 't' :: X) = _
  rw [tcAux_cons_tok b (by decide), tcAux_cons_tok true (by decide),
    tcAux_cons_tok true (by decide), tcAux_cons_ws true (by decide),
    tcAux_cons_tok false (by decide), tcAux_cons_tok true (by decide),
    tcAux_cons_tok true (by decide), tcAux_cons_ws true (by decide),
    tcAux_cons_tok false (by decide), tcAux_cons_tok true (by decide),
    tcAux_cons_tok true (by decide), tcAux_cons_tok true (by decide),
    tcAux_cons_tok true (by decide), tcAux_cons_tok true (by decide),
    tcAux_cons_tok true (by decide)]
  cases b <;> simp

theorem tcAux_phraseGo : ∀ (l : List Char) (b atB : Bool),
    tcAux b (phraseGo atB l) = tcAux b l := by
  have H : ∀ n, ∀ l : List Char, l.length < n → ∀ b atB,
      tcAux b (phraseGo atB l) = tcAux b l := by
    intro n
    induction n with
    | zero => intro l hl; exact absurd hl (Nat.not_lt_zero _)
    | succ n ih =>
      intro l hl b atB
      cases l with
      | nil => rw [phraseGo_nil]
      | cons c rest =>
        have hstep : ∀ fl, tcAux b (c :: phraseGo fl rest) = tcAux b (c :: rest) := by
          intro fl
          cases hws : pyWS c with
          | true =>
            rw [tcAux_cons_ws b hws, tcAux_cons_ws b hws]
            exact ih rest (by simp only [List.length_cons] at hl; omega) false fl
          | false =>
            rw [tcAux_cons_tok b hws, tcAux_cons_tok b hws,
              ih rest (by simp only [List.length_cons] at hl; omega) true fl]
        cases atB with
        | false => rw [phraseGo_cons_false]; exact hstep _
        | true =>
          cases htp : tryPhrase (c :: rest) with
          | none => rw [phraseGo_cons_none htp]; exact hstep _
          | some rem =>
            rw [phraseGo_cons_match htp]
            obtain ⟨m1, g1, m2, g2, m3, hs, hm1, hm2, hm3, hg1ne, hg1ws, hg2ne, hg2ws, _⟩ :=
              tryPhrase_split htp
            have hrem : rem.length < n := by
              have hle := tryPhrase_length htp
              simp only [List.length_cons] at hl hle
              omega
            rw [tcAux_rep, ih rem hrem true false]
            rw [hs]
            rw [tcAux_run (lowStr_ne_nil hm1 (by decide))
              (lowStr_no_ws hm1 (by decide)) b _]
            rw [tcAux_ws_run hg1ne hg1ws true _]
            rw [tcAux_run (lowStr_ne_nil hm2 (by decide))
              (lowStr_no_ws hm2 (by decide)) false _]
            rw [tcAux_ws_run hg2ne hg2ws true _]
            rw [tcAux_run (lowStr_ne_nil hm3 (by decide))
              (lowStr_no_ws hm3 (by decide)) false _]
            simp
  intro l b atB
  exact H (l.length + 1) l (by omega) b atB

theorem getLast?_phraseGo : ∀ (l : List Char) (atB : Bool), l ≠ [] →
    phraseGo atB l ≠ [] ∧
      ((phraseGo atB l).getLast? = l.getLast? ∨
        ∃ c, (phraseGo atB l).getLast? = some c ∧ pyIsAlphaCh c = true) := by
  have H : ∀ n, ∀ l : List Char, l.length < n → ∀ atB, l ≠ [] →
      phraseGo atB l ≠ [] ∧
        ((phraseGo atB l).getLast? = l.getLast? ∨
          ∃ c, (phraseGo atB l).getLast? = some c ∧ pyIsAlphaCh c = true) := by
    intro n
    induction n with
    | zero => intro l hl; exact absurd hl (Nat.not_lt_zero _)
    | succ n ih =>
      intro l hl atB hne
      cases l with
      | nil => exact absurd rfl hne
      | cons c rest =>
        have hstep : ∀ fl, (c :: phraseGo fl rest : List Char) ≠ [] ∧
            ((c :: phraseGo fl rest : List Char).getLast? = (c :: rest : List Char).getLast? ∨
              ∃ x, (c :: phraseGo fl rest : List Char).getLast? = some x
                ∧ pyIsAlphaCh x = true) := by
          intro fl
          cases rest with
          | nil => exact ⟨by simp, Or.inl (by rw [phraseGo_nil])⟩
          | cons y t2 =>
            obtain ⟨hMne, hMlast⟩ :=
              ih (y :: t2) (by simp only [List.length_cons] at hl ⊢; omega) fl (by simp)
            refine ⟨by simp, ?_⟩
            rw [getLast?_cons_of_ne_nil hMne,
              getLast?_cons_of_ne_nil (by simp : (y :: t2 : List Char) ≠ [])]
            exact hMlast
        cases atB with
        | false => rw [phraseGo_cons_false]; exact hstep _
        | true =>
          cases htp : tryPhrase (c :: rest) with
          | none => rw [phraseGo_cons_none htp]; exact hstep _
          | some rem =>
            rw [phraseGo_cons_match htp]
            obtain ⟨m1, g1, m2, g2, m3, hs, _, _, hm3, _, _, _, _, _⟩ := tryPhrase_split htp
            cases rem with
            | nil =>
              rw [phraseGo_nil, List.append_nil]
              exact ⟨by decide, Or.inr ⟨'t', by decide, by decide⟩⟩
            | cons d r2 =>
              have hrem : (d :: r2 : List Char).length < n := by
                have hle := tryPhrase_length htp
                simp only [List.length_cons] at hl hle ⊢
                omega
              obtain ⟨hMne, hMlast⟩ := ih (d :: r2) hrem false (by simp)
              refine ⟨by simp [hMne], ?_⟩
              rw [getLast?_append_right hMne]
              have hlast : (c :: rest : List Char).getLast? = (d :: r2 : List Char).getLast? := by
                rw [hs]
                simp only [← List.append_assoc]
                exact getLast?_append_right (by simp)
              rw [hlast]
              exact hMlast
  intro l atB hne
  exact H (l.length + 1) l (by omega) atB hne

/-! ### Facts about the tail stages of the normalizer -/

theorem toList_mk (l : List Char) : (String.mk l).toList = l := rfl

theorem dropWhile_nil_all {α : Type} {p : α → Bool} {l : List α}
    (h : l.dropWhile p = []) : ∀ x ∈ l, p x = true := by
  induction l with
  | nil => intro x hx; simp at hx
  | cons a t ih =>
    rw [List.dropWhile_cons] at h
    split at h
    · next hp =>
      intro x hx
      rcases List.mem_cons.mp hx with h1 | h1
      · subst h1; exact hp
      · exact ih h x h1
    · cases h

theorem strip_nil_all_ws {l : List Char} (h : pyStripL l = []) : ∀ x ∈ l, pyWS x = true := by
  unfold pyStripL rstripWS at h
  have h1 : (l.dropWhile pyWS).reverse.dropWhile pyWS = [] := by
    cases hx : (l.dropWhile pyWS).reverse.dropWhile pyWS with
    | nil => rfl
    | cons a t => rw [hx] at h; simp at h
  have h2 : ∀ x ∈ (l.dropWhile pyWS).reverse, pyWS x = true := dropWhile_nil_all h1
  have h3 : ∀ x ∈ l.dropWhile pyWS, pyWS x = true := by
    intro x hx
    exact h2 x (List.mem_reverse.mpr hx)
  intro x hx
  have hsplit := List.takeWhile_append_dropWhile pyWS l
  rw [← hsplit] at hx
  rcases List.mem_append.mp hx with h4 | h4
  · exact mem_takeWhile _ _ h4
  · exact h3 x h4

theorem startsL_mono {n h x : List Char} (hs : startsL n h = true) :
    startsL n (h ++ x) = true := by
  induction n generalizing h with
  | nil => rfl
  | cons a n ih =>
    cases h with
    | nil => simp [startsL] at hs
    | cons b t =>
      simp only [startsL, Bool.and_eq_true] at hs ⊢
      exact ⟨hs.1, ih hs.2⟩

theorem containsL_append_left {n h : List Char} (x : List Char)
    (hc : containsL n h = true) : containsL n (h ++ x) = true := by
  induction h with
  | nil =>
    simp only [containsL] at hc
    have : n = [] := by
      cases n
      · rfl
      · simp at hc
    subst this
    cases x with
    | nil => rfl
    | cons b t => simp [containsL, startsL]
  | cons b t ih =>
    simp only [containsL, Bool.or_eq_true] at hc ⊢
    rcases hc with h1 | h1
    · exact Or.inl (startsL_mono h1)
    · exact Or.inr (ih h1)

theorem mem_of_getLastQ {α : Type} {l : List α} {c : α} (h : l.getLast? = some c) : c ∈ l := by
  induction l with
  | nil => cases h
  | cons a t ih =>
    cases t with
    | nil =>
      simp at h
      subst h
      simp
    | cons y t2 =>
      rw [getLast?_cons_of_ne_nil (by simp)] at h
      exact List.mem_cons_of_mem a (ih h)

/-- The normalizer on a non-degenerate input is the post-pipeline applied to
the pre-pipeline, independently of the context argument. -/
theorem fineTune_eq_main {m : String} (ctx : Option (List Message))
    (h : ¬(m = "" ∨ pyStripL m.toList = [])) :
    fineTune m ctx = String.mk (fineTunePost (fineTunePre m.toList)) := by
  unfold fineTune
  rw [if_neg h]
  cases ctx with
  | none => rfl
  | some l => simp [ite_self]

theorem fineTune_eq_self {m : String} (ctx : Option (List Message))
    (h : m = "" ∨ pyStripL m.toList = []) : fineTune m ctx = m := by
  unfold fineTune
  rw [if_pos h]

/-- Claim C8 (amended): the terminal-punctuation stage appends a period to a
non-empty message with an alphanumeric last character exactly when no
interrogative-set word occurs as a case-insensitive substring of the message
(the source's guard is a substring test, not a first-token test); hence a
normalized output free of interrogative-substring occurrences never ends in
an alphanumeric character. -/
theorem claim_C8 :
    (∀ t : List Char, t ≠ [] → pyIsAlnumCh (t.getLastD ' ') = true →
      (questionWords.any (fun w => containsL w (lowStr t))) = false →
      periodStep t = t ++ ['.']) ∧
    (∀ (m : String) (ctx : Option (List Message)),
      (questionWords.any (fun w => containsL w (lowStr (fineTune m ctx).toList))) = false →
      ∀ c, ((fineTune m ctx).toList).getLast? = some c → pyIsAlnumCh c = false) := by
  constructor
  · intro t hne halnum hany
    have hie : t.isEmpty = false := by
      cases t
      · exact absurd rfl hne
      · rfl
    unfold periodStep
    rw [hie, halnum, hany]
    rfl
  · intro m ctx hany c hlast
    by_cases hsc : m = "" ∨ pyStripL m.toList = []
    · rw [fineTune_eq_self ctx hsc] at hlast
      rcases hsc with h0 | hstrip
      · subst h0
        cases hlast
      · have hws : ∀ x ∈ m.toList, pyWS x = true := strip_nil_all_ws hstrip
        have hmem : c ∈ m.toList := mem_of_getLastQ hlast
        exact ws_not_alnum (hws c hmem)
    · rw [fineTune_eq_main ctx hsc] at hlast hany
      rw [toList_mk] at hlast hany
      revert hlast hany
      unfold fineTunePost
      generalize capitalizeL (pyStripL (collapseL (fineTunePre m.toList))) = T
      intro hany hlast
      by_cases hcond : (!T.isEmpty && pyIsAlnumCh (T.getLastD ' ')
          && !(questionWords.any (fun w => containsL w (lowStr T)))) = true
      · unfold periodStep at hlast
        rw [if_pos hcond] at hlast
        rw [List.getLast?_concat] at hlast
        injection hlast with he
        rw [← he]
        decide
      · unfold periodStep at hlast hany
        rw [if_neg hcond] at hlast hany
        cases hB : pyIsAlnumCh (T.getLastD ' ') with
        | false =>
          have hd : T.getLastD ' ' = c := by
            rw [List.getLastD_eq_getLast?, hlast]
            rfl
          rw [← hd]
          exact hB
        | true =>
          exfalso
          have hA : T.isEmpty = false := by
            cases T
            · cases hlast
            · rfl
          exact hcond (by rw [hA, hB, hany]; rfl)

/-- Claim C8, counterexample to the claim as stated: the normalized form of
`tell me about dogs` has first token `Tell`, not in the interrogative set,
and ends in the alphanumeric `s`, yet no period is appended, because `do`
occurs inside `dogs` and the stage's guard is a substring test. -/
theorem claim_C8_counterexample :
    fineTune "tell me about dogs" none = "Tell me about dogs" ∧
    lowStr (firstTokenL "Tell me about dogs".toList) ∉ questionWords ∧
    pyIsAlnumCh (("Tell me about dogs".toList).getLastD ' ') = true := by
  refine ⟨by decide, by decide, by decide⟩

theorem claim_C8_witness :
    periodStep "Fix bug now".toList = "Fix bug now".toList ++ ['.'] ∧
    pyIsAlnumCh '.' = false :=
  ⟨claim_C8.1 "Fix bug now".toList (by decide) (by decide) (by decide),
   claim_C8.2 "fix bug now" none (by decide) '.' (by decide)⟩

/-! ### Facts feeding the question-mark normalization claim -/

theorem lower_alpha {x : Char} (h : pyIsLowerCh x = true) : pyIsAlphaCh x = true := by
  rw [pyIsLowerCh_iff] at h
  rw [pyIsAlphaCh_iff]
  omega

theorem ws_not_word {d : Char} (h : pyWS d = true) : isWordChar d = false := by
  cases hw : isWordChar d
  · rfl
  · rw [word_not_ws hw] at h
    cases h

theorem alpha_of_lowCh_lower {c : Char} (h : pyIsLowerCh (lowCh c) = true) :
    pyIsAlphaCh c = true :=
  alpha_of_lowCh_alpha (lower_alpha h)

theorem getLast?_lowStr (r : List Char) : (lowStr r).getLast? = r.getLast?.map lowCh := by
  induction r with
  | nil => rfl
  | cons a t ih =>
    cases t with
    | nil => rfl
    | cons y t2 =>
      show (lowCh a :: lowStr (y :: t2)).getLast? = _
      rw [getLast?_cons_of_ne_nil (by simp [lowStr]), ih,
        getLast?_cons_of_ne_nil (by simp : (y :: t2 : List Char) ≠ [])]

theorem qword_facts : ∀ w ∈ questionWords,
    w ∉ contrWords ∧ w ≠ "teh".toList ∧ w ≠ "adn".toList ∧ w ≠ "yoru".toList ∧
    (∀ c ∈ w, pyIsLowerCh c = true) ∧ w.head? ≠ some 'y' := by
  decide

theorem contr_facts : ∀ w ∈ contrWords, 4 ≤ w.length ∧ w.getLast? = some 't' := by
  decide

theorem exists_getLast {α : Type} {l : List α} (h : l ≠ []) : ∃ c, l.getLast? = some c := by
  induction l with
  | nil => exact absurd rfl h
  | cons a t ih =>
    cases t with
    | nil => exact ⟨a, rfl⟩
    | cons y t2 =>
      obtain ⟨c, hc⟩ := ih (by simp)
      exact ⟨c, by rw [getLast?_cons_of_ne_nil (by simp)]; exact hc⟩

theorem dropWhile_pyStripL (l : List Char) : (pyStripL l).dropWhile pyWS = pyStripL l := by
  cases ht : pyStripL l with
  | nil => rfl
  | cons d r =>
    rw [List.dropWhile_cons, if_neg (bool_false_not (pyStripL_head_not_ws ht))]

/-- Non-emptiness and whitespace-freeness of the outputs of the contraction
substitution, as required by the token-count preservation lemma. -/
theorem contrF_out (r : List Char) (hr : r ≠ []) (hall : ∀ c ∈ r, isWordChar c = true) :
    contrF r ≠ [] ∧ ∀ c ∈ contrF r, pyWS c = false := by
  unfold contrF
  split
  · cases r with
    | nil => exact absurd rfl hr
    | cons c cs =>
      refine ⟨by simp, ?_⟩
      intro x hx
      rcases List.mem_cons.mp hx with h1 | h1
      · subst h1
        exact word_not_ws (hall x (by simp))
      rcases List.mem_cons.mp h1 with h2 | h2
      · subst h2
        decide
      · exact word_not_ws (hall x (by simp [h2]))
  · exact ⟨hr, fun c hc => word_not_ws (hall c hc)⟩

theorem contrF_last (r : List Char) (hr : r ≠ []) (hall : ∀ c ∈ r, isWordChar c = true) :
    contrF r = r ∨ ∃ x, (contrF r).getLast? = some x ∧ pyIsAlphaCh x = true := by
  unfold contrF
  split
  · next hm =>
    right
    cases r with
    | nil => exact absurd rfl hr
    | cons c cs =>
      obtain ⟨hlen, hlastw⟩ := contr_facts _ hm
      have hcs : cs ≠ [] := by
        intro he
        subst he
        simp [lowStr] at hlen
      obtain ⟨e, he⟩ := exists_getLast hcs
      have hle : (lowStr (c :: cs)).getLast? = some (lowCh e) := by
        rw [getLast?_lowStr, getLast?_cons_of_ne_nil hcs, he]
        rfl
      rw [hlastw] at hle
      injection hle with hle2
      have halpha : pyIsAlphaCh e = true := by
        apply alpha_of_lowCh_lower
        rw [← hle2]
        decide
      refine ⟨e, ?_, halpha⟩
      rw [getLast?_cons_of_ne_nil (by simp), getLast?_cons_of_ne_nil hcs]
      exact he
  · exact Or.inl rfl

theorem oneWordF_out (pat rep : List Char) (hrep : rep ≠ [] ∧ ∀ c ∈ rep, pyWS c = false)
    (r : List Char) (hr : r ≠ []) (hall : ∀ c ∈ r, isWordChar c = true) :
    oneWordF pat rep r ≠ [] ∧ ∀ c ∈ oneWordF pat rep r, pyWS c = false := by
  unfold oneWordF
  split
  · exact hrep
  · exact ⟨hr, fun c hc => word_not_ws (hall c hc)⟩

theorem oneWordF_last (pat rep : List Char)
    (hrep : ∃ x, rep.getLast? = some x ∧ pyIsAlphaCh x = true)
    (r : List Char) (hr : r ≠ []) (hall : ∀ c ∈ r, isWordChar c = true) :
    oneWordF pat rep r = r ∨ ∃ x, (oneWordF pat rep r).getLast? = some x ∧ pyIsAlphaCh x = true := by
  unfold oneWordF
  split
  · exact Or.inr hrep
  · exact Or.inl rfl

theorem fineTunePre_decomp (l0 : List Char) :
    fineTunePre l0 =
      preTail (phraseSub (yoruFix (adnFix (tehFix (contractionFix (pyStripL l0)))))) := rfl

theorem preTail_question (t6 : List Char)
    (h3 : 3 ≤ tokenCountL t6)
    (hany : (questionWords.any (fun w => startsL w (lowStr t6))) = true)
    (hq6 : endsWithCh t6 '?' = false)
    (hd6 : endsWithCh t6 '.' = false) :
    preTail t6 = rstripDotBangL t6 ++ ['?'] := by
  unfold preTail
  simp only []
  have h4 : decide (tokenCountL t6 < 3) = false := decide_eq_false (by omega)
  rw [h4]
  simp only [Bool.false_and]
  rw [if_neg (by decide : ¬((false : Bool) = true))]
  rw [hany, hq6, hd6]
  simp only [Bool.not_false, Bool.true_and, if_true]

theorem endsWithCh_false_of_ne {l : List Char} {c e : Char} (h : l.getLast? = some c)
    (hne : ¬(c = e)) : endsWithCh l e = false := by
  cases hE : endsWithCh l e
  · rfl
  · rw [endsWithCh_iff] at hE
    rw [h] at hE
    injection hE with h2
    exact absurd h2 hne

theorem mapWords_last_inv (f : List Char → List Char)
    (hf1 : ∀ r, r ≠ [] → (∀ c ∈ r, isWordChar c = true) → f r ≠ [])
    (hf3 : ∀ r, r ≠ [] → (∀ c ∈ r, isWordChar c = true) →
      (f r = r ∨ ∃ c, (f r).getLast? = some c ∧ pyIsAlphaCh c = true))
    {t : List Char}
    (h : t ≠ [] ∧ ∃ c, t.getLast? = some c ∧ ¬(c = '.') ∧ ¬(c = '?')) :
    mapWords f t ≠ [] ∧
      ∃ c, (mapWords f t).getLast? = some c ∧ ¬(c = '.') ∧ ¬(c = '?') := by
  obtain ⟨hne, c, hc, hcd, hcq⟩ := h
  obtain ⟨hne2, hdisj⟩ := getLast?_mapWords f hf1 hf3 t hne
  refine ⟨hne2, ?_⟩
  rcases hdisj with heq | ⟨e, he, hea⟩
  · exact ⟨c, heq.trans hc, hcd, hcq⟩
  · obtain ⟨h1, h2⟩ := alpha_not_dot hea
    exact ⟨e, he, h1, h2⟩

theorem phraseGo_last_inv {t : List Char}
    (h : t ≠ [] ∧ ∃ c, t.getLast? = some c ∧ ¬(c = '.') ∧ ¬(c = '?')) :
    phraseGo true t ≠ [] ∧
      ∃ c, (phraseGo true t).getLast? = some c ∧ ¬(c = '.') ∧ ¬(c = '?') := by
  obtain ⟨hne, c, hc, hcd, hcq⟩ := h
  obtain ⟨hne2, hdisj⟩ := getLast?_phraseGo t true hne
  refine ⟨hne2, ?_⟩
  rcases hdisj with heq | ⟨e, he, hea⟩
  · exact ⟨c, heq.trans hc, hcd, hcq⟩
  · obtain ⟨h1, h2⟩ := alpha_not_dot hea
    exact ⟨e, he, h1, h2⟩

theorem getLast?_capitalizeL {t : List Char} {c : Char} (hc : pyIsAlphaCh c = false)
    (h : t.getLast? = some c) : (capitalizeL t).getLast? = some c := by
  cases t with
  | nil => simp at h
  | cons a rest =>
    cases rest with
    | nil =>
      have ha : a = c := by simpa using h
      simp only [capitalizeL]
      split
      · next hcond =>
        exfalso
        rw [Bool.and_eq_true] at hcond
        rw [ha, hc] at hcond
        exact absurd hcond.2 (by decide)
      · exact h
    | cons b rest2 =>
      rw [getLast?_cons_of_ne_nil (by simp : (b :: rest2 : List Char) ≠ [])] at h
      simp only [capitalizeL]
      split
      · rw [getLast?_cons_of_ne_nil (by simp)]
        exact h
      · rw [getLast?_cons_of_ne_nil (by simp)]
        exact h

theorem periodStep_skip {t : List Char} {c : Char} (h : t.getLast? = some c)
    (hc : pyIsAlnumCh c = false) : periodStep t = t := by
  unfold periodStep
  have h2 : pyIsAlnumCh (t.getLastD ' ') = false := by
    rw [List.getLastD_eq_getLast?, h]
    exact hc
  rw [h2]
  simp

theorem fineTunePre_question (l0 : List Char)
    (h3 : 3 ≤ tokenCountL (pyStripL l0))
    (hq : lowStr (firstTokenL (pyStripL l0)) ∈ questionWords)
    (hnd : endsWithCh (pyStripL l0) '.' = false)
    (hnq : endsWithCh (pyStripL l0) '?' = false) :
    ∃ u, fineTunePre l0 = u ++ ['?'] := by
  have hdw : (pyStripL l0).dropWhile pyWS = pyStripL l0 := dropWhile_pyStripL l0
  have htokeq : firstTokenL (pyStripL l0) =
      (pyStripL l0).takeWhile (fun c => !pyWS c) := by
    unfold firstTokenL
    rw [hdw]
  rw [htokeq] at hq
  obtain ⟨hnc, hnteh, hnadn, hnyoru, hlow, hhq⟩ := qword_facts _ hq
  have htokne : (pyStripL l0).takeWhile (fun c => !pyWS c) ≠ [] := by
    intro he
    rw [he] at hq
    exact absurd hq (by decide)
  have htoknw : ∀ c ∈ (pyStripL l0).takeWhile (fun c => !pyWS c), pyWS c = false := by
    intro c hc
    have hm : (!pyWS c) = true := mem_takeWhile (fun c => !pyWS c) (pyStripL l0) hc
    cases hpc : pyWS c
    · rfl
    · rw [hpc] at hm
      exact absurd hm (by decide)
  have hallw : ∀ c ∈ (pyStripL l0).takeWhile (fun c => !pyWS c), isWordChar c = true := by
    intro c hc
    have hmem : lowCh c ∈ lowStr ((pyStripL l0).takeWhile (fun c => !pyWS c)) :=
      List.mem_map_of_mem lowCh hc
    exact alpha_word (alpha_of_lowCh_lower (hlow _ hmem))
  have hsplit : (pyStripL l0).takeWhile (fun c => !pyWS c) ++
      (pyStripL l0).dropWhile (fun c => !pyWS c) = pyStripL l0 :=
    List.takeWhile_append_dropWhile (fun c => !pyWS c) (pyStripL l0)
  cases hrest : (pyStripL l0).dropWhile (fun c => !pyWS c) with
  | nil =>
    exfalso
    have ht0 : pyStripL l0 = (pyStripL l0).takeWhile (fun c => !pyWS c) := by
      conv_lhs => rw [← hsplit]
      rw [hrest, List.append_nil]
    have h1 : tokenCountL (pyStripL l0) = 1 := by
      conv_lhs => rw [ht0]
      unfold tokenCountL
      have h2 := tcAux_run htokne htoknw false ([] : List Char)
      rw [List.append_nil] at h2
      rw [h2]
      rfl
    rw [h1] at h3
    omega
  | cons d rest1 =>
    have hsplit2 : pyStripL l0 =
        (pyStripL l0).takeWhile (fun c => !pyWS c) ++ d :: rest1 := by
      conv_lhs => rw [← hsplit]
      rw [hrest]
    have hd : pyWS d = true := by
      have hh : (!pyWS d) = false :=
        dropWhile_head_not (fun c => !pyWS c) (pyStripL l0) hrest
      cases hpd : pyWS d
      · rw [hpd] at hh
        exact absurd hh (by decide)
      · rfl
    have hdnw : isWordChar d = false := ws_not_word hd
    have hfc : contrF ((pyStripL l0).takeWhile (fun c => !pyWS c)) =
        (pyStripL l0).takeWhile (fun c => !pyWS c) := by
      unfold contrF
      rw [if_neg hnc]
    have hft : oneWordF "teh".toList "the".toList ((pyStripL l0).takeWhile (fun c => !pyWS c)) =
        (pyStripL l0).takeWhile (fun c => !pyWS c) := by
      unfold oneWordF
      rw [if_neg hnteh]
    have hfa : oneWordF "adn".toList "and".toList ((pyStripL l0).takeWhile (fun c => !pyWS c)) =
        (pyStripL l0).takeWhile (fun c => !pyWS c) := by
      unfold oneWordF
      rw [if_neg hnadn]
    have hfy : oneWordF "yoru".toList "your".toList ((pyStripL l0).takeWhile (fun c => !pyWS c)) =
        (pyStripL l0).takeWhile (fun c => !pyWS c) := by
      unfold oneWordF
      rw [if_neg hnyoru]
    have hheady : ∀ c tk, (pyStripL l0).takeWhile (fun c => !pyWS c) = c :: tk →
        ¬(lowCh c = 'y') := by
      intro c tk he hy
      apply hhq
      rw [he]
      show some (lowCh c) = some 'y'
      rw [hy]
    -- the front token is preserved by all five substitution stages
    have h2 : contractionFix (pyStripL l0) =
        (pyStripL l0).takeWhile (fun c => !pyWS c) ++ d :: mapWords contrF rest1 := by
      unfold contractionFix
      rw [mapWordsC_eq]
      conv_lhs => rw [hsplit2]
      exact mapWords_tok_front contrF rest1 htokne hallw hdnw hfc
    have h3f : tehFix (contractionFix (pyStripL l0)) =
        (pyStripL l0).takeWhile (fun c => !pyWS c) ++
          d :: mapWords (oneWordF "teh".toList "the".toList) (mapWords contrF rest1) := by
      unfold tehFix
      rw [mapWordsC_eq, h2]
      exact mapWords_tok_front _ _ htokne hallw hdnw hft
    have h4f : adnFix (tehFix (contractionFix (pyStripL l0))) =
        (pyStripL l0).takeWhile (fun c => !pyWS c) ++
          d :: mapWords (oneWordF "adn".toList "and".toList)
            (mapWords (oneWordF "teh".toList "the".toList) (mapWords contrF rest1)) := by
      unfold adnFix
      rw [mapWordsC_eq, h3f]
      exact mapWords_tok_front _ _ htokne hallw hdnw hfa
    have h5f : yoruFix (adnFix (tehFix (contractionFix (pyStripL l0)))) =
        (pyStripL l0).takeWhile (fun c => !pyWS c) ++
          d :: mapWords (oneWordF "yoru".toList "your".toList)
            (mapWords (oneWordF "adn".toList "and".toList)
              (mapWords (oneWordF "teh".toList "the".toList) (mapWords contrF rest1))) := by
      unfold yoruFix
      rw [mapWordsC_eq, h4f]
      exact mapWords_tok_front _ _ htokne hallw hdnw hfy
    have h6f : phraseSub (yoruFix (adnFix (tehFix (contractionFix (pyStripL l0))))) =
        (pyStripL l0).takeWhile (fun c => !pyWS c) ++
          d :: phraseGo true (mapWords (oneWordF "yoru".toList "your".toList)
            (mapWords (oneWordF "adn".toList "and".toList)
              (mapWords (oneWordF "teh".toList "the".toList) (mapWords contrF rest1)))) := by
      rw [phraseSub_eq, h5f]
      exact phraseGo_tok_front _ htokne hallw hheady hdnw
    -- token count is preserved by all five substitution stages
    have hcnt : tokenCountL (phraseSub (yoruFix (adnFix (tehFix (contractionFix
        (pyStripL l0)))))) = tokenCountL (pyStripL l0) := by
      unfold tokenCountL
      rw [phraseSub_eq]
      unfold yoruFix adnFix tehFix contractionFix
      simp only [mapWordsC_eq]
      rw [tcAux_phraseGo, tcAux_mapWords _ (oneWordF_out _ _ ⟨by decide, by decide⟩),
        tcAux_mapWords _ (oneWordF_out _ _ ⟨by decide, by decide⟩),
        tcAux_mapWords _ (oneWordF_out _ _ ⟨by decide, by decide⟩),
        tcAux_mapWords _ contrF_out]
    -- the last character stays clear of '.' and '?'
    have t0ne : pyStripL l0 ≠ [] := by
      intro he
      rw [he] at h3
      simp only [tokenCountL, tcAux] at h3
      omega
    obtain ⟨c0, hc0⟩ := exists_getLast t0ne
    have hc0d : ¬(c0 = '.') := by
      intro he
      rw [he] at hc0
      have hE := endsWithCh_iff.mpr hc0
      rw [hnd] at hE
      cases hE
    have hc0q : ¬(c0 = '?') := by
      intro he
      rw [he] at hc0
      have hE := endsWithCh_iff.mpr hc0
      rw [hnq] at hE
      cases hE
    have hinv : phraseSub (yoruFix (adnFix (tehFix (contractionFix (pyStripL l0))))) ≠ [] ∧
        ∃ c, (phraseSub (yoruFix (adnFix (tehFix (contractionFix
          (pyStripL l0)))))).getLast? = some c ∧ ¬(c = '.') ∧ ¬(c = '?') := by
      rw [phraseSub_eq]
      unfold yoruFix adnFix tehFix contractionFix
      simp only [mapWordsC_eq]
      apply phraseGo_last_inv
      apply mapWords_last_inv _
        (fun r hr hall => (oneWordF_out _ _ ⟨by decide, by decide⟩ r hr hall).1)
        (oneWordF_last _ _ ⟨'r', by decide, by decide⟩)
      apply mapWords_last_inv _
        (fun r hr hall => (oneWordF_out _ _ ⟨by decide, by decide⟩ r hr hall).1)
        (oneWordF_last _ _ ⟨'d', by decide, by decide⟩)
      apply mapWords_last_inv _
        (fun r hr hall => (oneWordF_out _ _ ⟨by decide, by decide⟩ r hr hall).1)
        (oneWordF_last _ _ ⟨'e', by decide, by decide⟩)
      apply mapWords_last_inv _ (fun r hr hall => (contrF_out r hr hall).1) contrF_last
      exact ⟨t0ne, c0, hc0, hc0d, hc0q⟩
    obtain ⟨hne6, c6, h6, h6d, h6q⟩ := hinv
    have hany : (questionWords.any (fun w => startsL w (lowStr (phraseSub (yoruFix (adnFix
        (tehFix (contractionFix (pyStripL l0))))))))) = true := by
      apply List.any_eq_true.mpr
      refine ⟨lowStr ((pyStripL l0).takeWhile (fun c => !pyWS c)), hq, ?_⟩
      rw [h6f, lowStr_append]
      exact startsL_of_append _ _
    refine ⟨rstripDotBangL (phraseSub (yoruFix (adnFix (tehFix (contractionFix
      (pyStripL l0)))))), ?_⟩
    rw [fineTunePre_decomp]
    exact preTail_question _ (by rw [hcnt]; exact h3) hany
      (endsWithCh_false_of_ne h6 h6q) (endsWithCh_false_of_ne h6 h6d)

/-- Counterexample to claim C7 as stated: the two-token message "what now"
has first token "what" in the interrogative set and ends in neither '?' nor
'.', yet normalization returns "Please explain: what now", which does not end
in '?' — the short-message stage fires first and prepends "Please explain: ",
after which the message no longer starts with a question word. -/
theorem claim_C7_counterexample :
    lowStr (firstTokenL (pyStripL "what now".toList)) ∈ questionWords ∧
    endsWithCh (pyStripL "what now".toList) '.' = false ∧
    endsWithCh (pyStripL "what now".toList) '?' = false ∧
    fineTune "what now" none = "Please explain: what now" ∧
    ¬(("Please explain: what now".toList).getLast? = some '?') := by
  refine ⟨by decide, by decide, by decide, by decide, by decide⟩

/-- C7 (amended): if the stripped message has at least three
whitespace-separated tokens, its first token is (case-insensitively) one of
the sixteen interrogative/auxiliary words, and the stripped message ends in
neither '.' nor '?', then the normalized message ends in '?'; moreover
normalize("whats the time") = "Whats the time?" as the spec's example says.
(The three-token floor is needed: shorter messages are captured by the
"Please explain: " stage first, see the counterexample.) -/
theorem claim_C7 (s : String)
    (h3 : 3 ≤ tokenCountL (pyStripL s.toList))
    (hq : lowStr (firstTokenL (pyStripL s.toList)) ∈ questionWords)
    (hnd : endsWithCh (pyStripL s.toList) '.' = false)
    (hnq : endsWithCh (pyStripL s.toList) '?' = false) :
    ((fineTune s none).toList).getLast? = some '?' ∧
    fineTune "whats the time" none = "Whats the time?" := by
  refine ⟨?_, by decide⟩
  have t0ne : pyStripL s.toList ≠ [] := by
    intro he
    rw [he] at h3
    simp only [tokenCountL, tcAux] at h3
    omega
  have hsne : ¬(s = "" ∨ pyStripL s.toList = []) := by
    intro hcase
    rcases hcase with h1 | h1
    · apply t0ne
      rw [h1]
      rfl
    · exact t0ne h1
  obtain ⟨u, hpre⟩ := fineTunePre_question s.toList h3 hq hnd hnq
  rw [fineTune_eq_main none hsne, toList_mk, hpre]
  unfold fineTunePost
  have l1 : (u ++ ['?']).getLast? = some '?' := by
    rw [getLast?_append_right (by simp)]
    rfl
  have l2 : (collapseL (u ++ ['?'])).getLast? = some '?' :=
    getLast?_collapseAux l1 (by decide) false
  have l3 : (pyStripL (collapseL (u ++ ['?']))).getLast? = some '?' :=
    getLast?_pyStripL l2 (by decide)
  have l4 : (capitalizeL (pyStripL (collapseL (u ++ ['?'])))).getLast? = some '?' :=
    getLast?_capitalizeL (by decide) l3
  rw [periodStep_skip l4 (by decide)]
  exact l4

theorem claim_C7_witness :
    3 ≤ tokenCountL (pyStripL "what is love".toList) ∧
    lowStr (firstTokenL (pyStripL "what is love".toList)) ∈ questionWords ∧
    endsWithCh (pyStripL "what is love".toList) '.' = false ∧
    endsWithCh (pyStripL "what is love".toList) '?' = false ∧
    (((fineTune "what is love" none).toList).getLast? = some '?' ∧
      fineTune "whats the time" none = "Whats the time?") :=
  ⟨by decide, by decide, by decide, by decide,
    claim_C7 "what is love" (by decide) (by decide) (by decide) (by decide)⟩

/-! ### Boundary scanners

To settle idempotence we characterize "the text contains a `\bPAT\b` match"
by a scanner `scanB chk` that walks the text and applies the matcher `chk`
at every word-boundary position, mirroring the scan of `re.sub`.  `tryWord`
is the matcher of a single-word pattern, `tryPhrase` above the one of the
phrase pattern. -/

theorem scanB_nil (chk : List Char → Bool) (b : Bool) : scanB chk b [] = false := rfl

theorem scanB_cons (chk : List Char → Bool) (b : Bool) (c : Char) (rest : List Char) :
    scanB chk b (c :: rest) = ((b && chk (c :: rest)) || scanB chk (!isWordChar c) rest) := rfl

theorem scanB_run (chk : List Char → Bool) {w : List Char} (hw : w ≠ [])
    (hall : ∀ c ∈ w, isWordChar c = true) (b : Bool) (X : List Char) :
    scanB chk b (w ++ X) = ((b && chk (w ++ X)) || scanB chk false X) := by
  cases w with
  | nil => exact absurd rfl hw
  | cons c w2 =>
    rw [List.cons_append, scanB_cons, hall c (by simp)]
    have H : ∀ (w3 : List Char), (∀ c ∈ w3, isWordChar c = true) →
        scanB chk (!true) (w3 ++ X) = scanB chk false X := by
      intro w3
      induction w3 with
      | nil => intro _; rfl
      | cons a w4 ih =>
        intro ha
        rw [List.cons_append, scanB_cons, ha a (by simp)]
        simp only [Bool.not_true, Bool.false_and, Bool.false_or]
        exact ih (fun x hx => ha x (by simp [hx]))
    rw [H w2 (fun x hx => hall x (by simp [hx]))]

theorem scanB_false_bdHead (chk : List Char → Bool)
    (hhead : ∀ c r, isWordChar c = false → chk (c :: r) = false)
    {X : List Char} (hX : bdHead X) : scanB chk false X = scanB chk true X := by
  rcases hX with h | ⟨d, X', h, hd⟩
  · rw [h]
    rfl
  · rw [h, scanB_cons, scanB_cons, hhead d X' hd]
    simp

theorem scanB_all_nonword (chk : List Char → Bool)
    (hhead : ∀ c r, isWordChar c = false → chk (c :: r) = false)
    {s : List Char} (hs : ∀ e ∈ s, isWordChar e = false) (b : Bool) :
    scanB chk b s = false := by
  induction s generalizing b with
  | nil => rfl
  | cons e s2 ih =>
    rw [scanB_cons, hhead e s2 (hs e (by simp))]
    simp only [Bool.and_false, Bool.false_or]
    exact ih (fun x hx => hs x (by simp [hx])) _

theorem scanB_suffix (chk : List Char → Bool) :
    ∀ (a : List Char) (b : Bool) (A : List Char), scanB chk b (a ++ A) = false →
      (a = [] → scanB chk b A = false) ∧
      (∀ c, a.getLast? = some c → scanB chk (!isWordChar c) A = false) := by
  intro a
  induction a with
  | nil =>
    intro b A h
    refine ⟨fun _ => h, fun c hc => ?_⟩
    simp at hc
  | cons x a2 ih =>
    intro b A h
    rw [List.cons_append, scanB_cons] at h
    have h2 : scanB chk (!isWordChar x) (a2 ++ A) = false := by
      cases hh : scanB chk (!isWordChar x) (a2 ++ A)
      · rfl
      · rw [hh] at h
        simp at h
    refine ⟨fun he => (by cases he), ?_⟩
    intro c hc
    cases a2 with
    | nil =>
      have : x = c := by simpa using hc
      rw [← this]
      exact (ih _ A h2).1 rfl
    | cons y a3 =>
      rw [getLast?_cons_of_ne_nil (by simp)] at hc
      exact (ih _ A h2).2 c hc

theorem stripCI_lowStr (w X : List Char) : stripCI (lowStr w) (w ++ X) = some X := by
  induction w with
  | nil => rfl
  | cons c w2 ih =>
    show stripCI (lowCh c :: lowStr w2) (c :: (w2 ++ X)) = some X
    simp only [stripCI, if_pos rfl]
    exact ih

theorem stripCI_exact {p : List Char} (w X : List Char) (h : lowStr w = p) :
    stripCI p (w ++ X) = some X := by
  rw [← h]
  exact stripCI_lowStr w X

theorem word_of_lowCh_eq_alpha {c a : Char} (hca : lowCh c = a) (ha : pyIsAlphaCh a = true) :
    isWordChar c = true := by
  apply alpha_word
  apply alpha_of_lowCh_alpha
  rw [hca]
  exact ha

theorem stripCI_junk {p s : List Char} (hp : ∀ a ∈ p, pyIsAlphaCh a = true)
    (hs : ∀ e ∈ s, isWordChar e = false) :
    ∀ x, stripCI p (x ++ s) = Option.map (fun r => r ++ s) (stripCI p x) := by
  induction p with
  | nil => intro x; rfl
  | cons a p2 ih =>
    intro x
    cases x with
    | nil =>
      show stripCI (a :: p2) s = Option.map _ none
      cases s with
      | nil => rfl
      | cons e s2 =>
        simp only [stripCI]
        rw [if_neg]
        · rfl
        · intro hca
          have := word_of_lowCh_eq_alpha hca (hp a (by simp))
          rw [hs e (by simp)] at this
          cases this
    | cons b x2 =>
      show stripCI (a :: p2) (b :: (x2 ++ s)) = Option.map _ (stripCI (a :: p2) (b :: x2))
      simp only [stripCI]
      split
      · exact ih (fun q hq => hp q (by simp [hq])) x2
      · rfl

/-- On a complete word run followed by a boundary, the single-word matcher
succeeds exactly when the run equals the pattern case-insensitively. -/
theorem tw_run : ∀ (w pat X : List Char), pat ≠ [] → (∀ a ∈ pat, pyIsAlphaCh a = true) →
    w ≠ [] → (∀ c ∈ w, isWordChar c = true) → bdHead X →
    (tryWord pat (w ++ X)).isSome = decide (lowStr w = pat) := by
  intro w
  induction w with
  | nil =>
    intro pat X _ _ hw _ _
    exact absurd rfl hw
  | cons c w2 ih =>
    intro pat X hpne hpa _ hall hX
    cases pat with
    | nil => exact absurd rfl hpne
    | cons a p2 =>
      by_cases hca : lowCh c = a
      · have htw : tryWord (a :: p2) ((c :: w2) ++ X) = tryWord p2 (w2 ++ X) := by
          unfold tryWord
          rw [show stripCI (a :: p2) ((c :: w2) ++ X) = stripCI p2 (w2 ++ X) from by
            show stripCI (a :: p2) (c :: (w2 ++ X)) = _
            simp only [stripCI, if_pos hca]]
        rw [htw]
        cases w2 with
        | nil =>
          cases p2 with
          | nil =>
            have hl : (tryWord [] (([] : List Char) ++ X)).isSome = true := by
              rcases hX with hXe | ⟨d, X2, hXd, hdw⟩
              · rw [hXe]; rfl
              · rw [hXd]
                show (tryWord [] (d :: X2)).isSome = true
                unfold tryWord
                simp only [stripCI]
                simp [hdw]
            rw [hl]
            have he : lowStr [c] = [a] := by
              show [lowCh c] = [a]
              rw [hca]
            simp [he]
          | cons b p3 =>
            have hl : (tryWord (b :: p3) (([] : List Char) ++ X)).isSome = false := by
              rcases hX with hXe | ⟨d, X2, hXd, hdw⟩
              · rw [hXe]; rfl
              · rw [hXd]
                show (tryWord (b :: p3) (d :: X2)).isSome = false
                unfold tryWord
                simp only [stripCI]
                rw [if_neg]
                · rfl
                · intro hdb
                  have hwd := word_of_lowCh_eq_alpha hdb (hpa b (by simp))
                  rw [hdw] at hwd
                  cases hwd
            rw [hl]
            have he : ¬(lowStr [c] = a :: b :: p3) := by
              intro he2
              have := congrArg List.length he2
              simp [lowStr] at this
            simp [he]
        | cons c2 w3 =>
          cases p2 with
          | nil =>
            have hc2 : isWordChar c2 = true := hall c2 (by simp)
            have hl : (tryWord [] ((c2 :: w3) ++ X)).isSome = false := by
              show (tryWord [] (c2 :: (w3 ++ X))).isSome = false
              unfold tryWord
              simp only [stripCI]
              simp [hc2]
            rw [hl]
            have he : ¬(lowStr (c :: c2 :: w3) = [a]) := by
              intro he2
              have := congrArg List.length he2
              simp [lowStr] at this
            simp [he]
          | cons b p3 =>
            rw [ih (b :: p3) X (by simp) (fun q hq => hpa q (by simp [hq])) (by simp)
              (fun q hq => hall q (by simp [hq])) hX]
            simp only [lowStr, List.map_cons, List.cons.injEq]
            simp [hca]
      · have hl : (tryWord (a :: p2) ((c :: w2) ++ X)).isSome = false := by
          show (tryWord (a :: p2) (c :: (w2 ++ X))).isSome = false
          unfold tryWord
          simp only [stripCI]
          rw [if_neg hca]
          rfl
        rw [hl]
        have he : ¬(lowStr (c :: w2) = a :: p2) := by
          intro he2
          simp only [lowStr, List.map_cons, List.cons.injEq] at he2
          exact hca he2.1
        simp [he]

theorem tryWord_head_nonword {pat : List Char} (hpne : pat ≠ [])
    (hpa : ∀ a ∈ pat, pyIsAlphaCh a = true) {c : Char} (r : List Char)
    (hc : isWordChar c = false) : tryWord pat (c :: r) = none := by
  cases pat with
  | nil => exact absurd rfl hpne
  | cons a p2 =>
    unfold tryWord
    simp only [stripCI]
    rw [if_neg]
    intro hca
    have := word_of_lowCh_eq_alpha hca (hpa a (by simp))
    rw [hc] at this
    cases this

theorem tryWord_head_low {pat : List Char} {c c2 : Char} (r : List Char)
    (h : lowCh c = lowCh c2) :
    (tryWord pat (c :: r)).isSome = (tryWord pat (c2 :: r)).isSome := by
  cases pat with
  | nil =>
    unfold tryWord
    simp only [stripCI]
    have hw : isWordChar c = isWordChar c2 := by
      rw [← @lowCh_word c, ← @lowCh_word c2, h]
    cases hw2 : isWordChar c2
    · rw [hw, hw2]
      simp
    · rw [hw, hw2]
      simp
  | cons a p2 =>
    unfold tryWord
    simp only [stripCI]
    rw [h]

theorem word_upCh {c : Char} : isWordChar (upCh c) = isWordChar c := by
  cases h2 : isWordChar c
  · cases h1 : isWordChar (upCh c)
    · rfl
    · exfalso
      rw [isWordChar_iff] at h1
      have h3 : isWordChar c = true := by
        rw [isWordChar_iff]
        rw [upCh_toNat] at h1
        split at h1 <;> omega
      rw [h2] at h3
      cases h3
  · rw [isWordChar_iff] at h2
    rw [isWordChar_iff, upCh_toNat]
    split <;> omega

theorem scanB_append_nonword (chk : List Char → Bool)
    (hhead : ∀ c r, isWordChar c = false → chk (c :: r) = false)
    {s : List Char} (hs : ∀ e ∈ s, isWordChar e = false)
    (hjunk : ∀ x, chk (x ++ s) = chk x) :
    ∀ x b, scanB chk b (x ++ s) = scanB chk b x := by
  intro x
  induction x with
  | nil =>
    intro b
    show scanB chk b s = scanB chk b []
    rw [scanB_all_nonword chk hhead hs b]
    rfl
  | cons c x2 ih =>
    intro b
    rw [List.cons_append, scanB_cons, scanB_cons]
    rw [show chk (c :: (x2 ++ s)) = chk (c :: x2) from hjunk (c :: x2), ih]

theorem scanB_dropWhile_ws (chk : List Char → Bool)
    (hhead : ∀ c r, isWordChar c = false → chk (c :: r) = false) :
    ∀ z, scanB chk true (z.dropWhile pyWS) = scanB chk true z := by
  intro z
  induction z with
  | nil => rfl
  | cons c z2 ih =>
    rw [List.dropWhile_cons]
    split
    · next hws =>
      rw [ih, scanB_cons, hhead c z2 (ws_not_word hws), ws_not_word hws]
      simp
    · rfl

theorem scanB_collapse (chk : List Char → Bool)
    (hhead : ∀ c r, isWordChar c = false → chk (c :: r) = false)
    (hcoll : ∀ z, chk (collapseAux false z) = chk z) :
    ∀ z (bws b : Bool), (bws = true → b = true) →
      scanB chk b (collapseAux bws z) = scanB chk b z := by
  intro z
  induction z with
  | nil =>
    intro bws b _
    cases bws <;> rfl
  | cons c z2 ih =>
    intro bws b hinv
    by_cases hws : pyWS c = true
    · have hcw : isWordChar c = false := ws_not_word hws
      cases bws with
      | true =>
        have hb : b = true := hinv rfl
        subst hb
        rw [show collapseAux true (c :: z2) = collapseAux true z2 from by
          simp [collapseAux, hws]]
        rw [ih true true (fun _ => rfl), scanB_cons, hhead c z2 hcw, hcw]
        simp
      | false =>
        rw [show collapseAux false (c :: z2) = ' ' :: collapseAux true z2 from by
          simp [collapseAux, hws]]
        rw [scanB_cons, scanB_cons, hhead ' ' _ (by decide), hhead c z2 hcw, hcw]
        rw [show (!isWordChar ' ') = true from by decide]
        simp only [Bool.and_false, Bool.false_or, Bool.not_false]
        exact ih true true (fun _ => rfl)
    · have hws2 : pyWS c = false := by
        cases hp : pyWS c
        · rfl
        · exact absurd hp hws
      have hstepF : collapseAux false (c :: z2) = c :: collapseAux false z2 := by
        simp [collapseAux, hws2]
      have hstep : collapseAux bws (c :: z2) = c :: collapseAux false z2 := by
        cases bws
        · exact hstepF
        · simp [collapseAux, hws2]
      rw [hstep, scanB_cons, scanB_cons]
      rw [show chk (c :: collapseAux false z2) = chk (c :: z2) from by
        rw [← hstepF]; exact hcoll (c :: z2)]
      rw [ih false (!isWordChar c) (fun h => absurd h (by decide))]

theorem scanB_capitalize (chk : List Char → Bool)
    (hlow : ∀ (c c2 : Char) (r : List Char), lowCh c = lowCh c2 → chk (c :: r) = chk (c2 :: r)) :
    ∀ z b, scanB chk b (capitalizeL z) = scanB chk b z := by
  intro z b
  cases z with
  | nil => rfl
  | cons c r =>
    simp only [capitalizeL]
    split
    · rw [scanB_cons, scanB_cons, hlow (upCh c) c r lowCh_upCh, word_upCh]
    · rfl

theorem tdw_append_stop {α : Type} {p : α → Bool} {x : List α} {d : α} {xr : List α}
    (h : x.dropWhile p = d :: xr) (s : List α) :
    (x ++ s).takeWhile p = x.takeWhile p ∧ (x ++ s).dropWhile p = (d :: xr) ++ s := by
  induction x with
  | nil => cases h
  | cons c x2 ih =>
    rw [List.dropWhile_cons] at h
    split at h
    · next hp =>
      obtain ⟨ht, hd⟩ := ih h
      constructor
      · rw [List.cons_append, List.takeWhile_cons, if_pos hp, ht, List.takeWhile_cons,
          if_pos hp]
      · rw [List.cons_append, List.dropWhile_cons, if_pos hp, hd]
    · next hp =>
      injection h with h1 h2
      constructor
      · rw [List.cons_append, List.takeWhile_cons, if_neg hp, List.takeWhile_cons, if_neg hp]
      · rw [List.cons_append, List.dropWhile_cons, if_neg hp, h1, h2]
        rfl

theorem tdw_append_nil {α : Type} {p : α → Bool} {x : List α}
    (h : x.dropWhile p = []) (s : List α) :
    (x ++ s).takeWhile p = x ++ s.takeWhile p ∧ (x ++ s).dropWhile p = s.dropWhile p := by
  induction x with
  | nil => exact ⟨rfl, rfl⟩
  | cons c x2 ih =>
    rw [List.dropWhile_cons] at h
    split at h
    · next hp =>
      obtain ⟨ht, hd⟩ := ih h
      constructor
      · rw [List.cons_append, List.takeWhile_cons, if_pos hp, ht]
        rfl
      · rw [List.cons_append, List.dropWhile_cons, if_pos hp, hd]
    · cases h

theorem takeWhile_eq_self_of_dropWhile_nil {α : Type} {p : α → Bool} {x : List α}
    (h : x.dropWhile p = []) : x.takeWhile p = x := by
  induction x with
  | nil => rfl
  | cons c x2 ih =>
    rw [List.dropWhile_cons] at h
    split at h
    · next hp =>
      rw [List.takeWhile_cons, if_pos hp, ih h]
    · cases h

theorem stripCI_junk_none {p s : List Char} (hp : ∀ a ∈ p, pyIsAlphaCh a = true)
    (hs : ∀ e ∈ s, isWordChar e = false) {x : List Char} (h : stripCI p x = none) :
    stripCI p (x ++ s) = none := by
  rw [stripCI_junk hp hs x, h]
  rfl

theorem stripCI_junk_some {p s : List Char} (hp : ∀ a ∈ p, pyIsAlphaCh a = true)
    (hs : ∀ e ∈ s, isWordChar e = false) {x r : List Char} (h : stripCI p x = some r) :
    stripCI p (x ++ s) = some (r ++ s) := by
  rw [stripCI_junk hp hs x, h]
  rfl

theorem stripCI_alpha_nonword {a : Char} {p2 : List Char} (ha : pyIsAlphaCh a = true)
    {d : Char} (r : List Char) (hd : isWordChar d = false) :
    stripCI (a :: p2) (d :: r) = none := by
  simp only [stripCI]
  rw [if_neg]
  intro hda
  have := word_of_lowCh_eq_alpha hda ha
  rw [hd] at this
  cases this

theorem stripCI_cons_nil (a : Char) (p2 : List Char) : stripCI (a :: p2) [] = none := rfl

theorem tryWord_junk {pat s : List Char} (hp : ∀ a ∈ pat, pyIsAlphaCh a = true)
    (hs : ∀ e ∈ s, isWordChar e = false) (x : List Char) :
    (tryWord pat (x ++ s)).isSome = (tryWord pat x).isSome := by
  unfold tryWord
  cases h : stripCI pat x with
  | none => rw [stripCI_junk_none hp hs h]
  | some r =>
    rw [stripCI_junk_some hp hs h]
    cases r with
    | nil =>
      cases s with
      | nil => rfl
      | cons e s2 =>
        show (if isWordChar e then none else some (e :: s2)).isSome = _
        rw [hs e (by simp)]
        rfl
    | cons d r2 =>
      show (if isWordChar d then none else some (d :: (r2 ++ s))).isSome =
        (if isWordChar d then none else some (d :: r2)).isSome
      cases hw : isWordChar d <;> simp [hw]

theorem stripCI_collapse {p : List Char} (hp : ∀ a ∈ p, pyIsAlphaCh a = true) :
    ∀ z, stripCI p (collapseAux false z) = Option.map (collapseAux false) (stripCI p z) := by
  induction p with
  | nil => intro z; rfl
  | cons a p2 ih =>
    intro z
    cases z with
    | nil => rfl
    | cons x z2 =>
      by_cases hws : pyWS x = true
      · rw [show collapseAux false (x :: z2) = ' ' :: collapseAux true z2 from by
          simp [collapseAux, hws]]
        rw [stripCI_alpha_nonword (hp a (by simp)) _ (by decide)]
        rw [show stripCI (a :: p2) (x :: z2) = none from
          stripCI_alpha_nonword (hp a (by simp)) _ (ws_not_word hws)]
        rfl
      · have hws2 : pyWS x = false := by
          cases hp2 : pyWS x
          · rfl
          · exact absurd hp2 hws
        rw [show collapseAux false (x :: z2) = x :: collapseAux false z2 from by
          simp [collapseAux, hws2]]
        show (if lowCh x = a then stripCI p2 (collapseAux false z2) else none) =
          Option.map _ (if lowCh x = a then stripCI p2 z2 else none)
        split
        · exact ih (fun q hq => hp q (by simp [hq])) z2
        · rfl

theorem collapseAux_true_eq : ∀ z, collapseAux true z = collapseAux false (z.dropWhile pyWS) := by
  intro z
  induction z with
  | nil => rfl
  | cons c z2 ih =>
    by_cases hws : pyWS c = true
    · rw [show collapseAux true (c :: z2) = collapseAux true z2 from by simp [collapseAux, hws],
        List.dropWhile_cons, if_pos hws, ih]
    · have hws2 : pyWS c = false := by
        cases hp2 : pyWS c
        · rfl
        · exact absurd hp2 hws
      rw [show collapseAux true (c :: z2) = c :: collapseAux false z2 from by
        simp [collapseAux, hws2], List.dropWhile_cons, if_neg hws]
      rw [show collapseAux false (c :: z2) = c :: collapseAux false z2 from by
        simp [collapseAux, hws2]]

theorem pyWS_false_of_not {c : Char} (h : ¬(pyWS c = true)) : pyWS c = false := by
  cases hp : pyWS c
  · rfl
  · exact absurd hp h

theorem collapseAux_false_ne_nil : ∀ {z : List Char}, z ≠ [] → collapseAux false z ≠ [] := by
  intro z hz
  cases z with
  | nil => exact absurd rfl hz
  | cons c z2 =>
    by_cases hws : pyWS c = true
    · rw [show collapseAux false (c :: z2) = ' ' :: collapseAux true z2 from by
        simp [collapseAux, hws]]
      simp
    · rw [show collapseAux false (c :: z2) = c :: collapseAux false z2 from by
        simp [collapseAux, pyWS_false_of_not hws]]
      simp

theorem tdw_collapse : ∀ z : List Char,
    ((collapseAux false z).takeWhile pyWS).isEmpty = (z.takeWhile pyWS).isEmpty ∧
    (collapseAux false z).dropWhile pyWS = collapseAux false (z.dropWhile pyWS) := by
  intro z
  cases z with
  | nil => exact ⟨rfl, rfl⟩
  | cons c z2 =>
    by_cases hws : pyWS c = true
    · rw [show collapseAux false (c :: z2) = ' ' :: collapseAux true z2 from by
        simp [collapseAux, hws]]
      constructor
      · rw [List.takeWhile_cons, if_pos (by decide : pyWS ' ' = true),
          List.takeWhile_cons, if_pos hws]
        rfl
      · rw [List.dropWhile_cons, if_pos (by decide : pyWS ' ' = true), collapseAux_true_eq,
          List.dropWhile_cons, if_pos hws]
        cases hdz : z2.dropWhile pyWS with
        | nil => rfl
        | cons d z3 =>
          have hd : pyWS d = false := dropWhile_head_not _ _ hdz
          rw [show collapseAux false (d :: z3) = d :: collapseAux false z3 from by
            simp [collapseAux, hd]]
          rw [List.dropWhile_cons, if_neg (bool_false_not hd)]
    · have hws2 : pyWS c = false := pyWS_false_of_not hws
      rw [show collapseAux false (c :: z2) = c :: collapseAux false z2 from by
        simp [collapseAux, hws2]]
      constructor
      · rw [List.takeWhile_cons, if_neg (bool_false_not hws2),
          List.takeWhile_cons, if_neg (bool_false_not hws2)]
      · rw [List.dropWhile_cons, if_neg (bool_false_not hws2),
          List.dropWhile_cons, if_neg (bool_false_not hws2)]
        rw [show collapseAux false (c :: z2) = c :: collapseAux false z2 from by
          simp [collapseAux, hws2]]

theorem tryWord_collapse {pat : List Char} (hp : ∀ a ∈ pat, pyIsAlphaCh a = true)
    (z : List Char) :
    (tryWord pat (collapseAux false z)).isSome = (tryWord pat z).isSome := by
  unfold tryWord
  rw [stripCI_collapse hp z]
  cases h : stripCI pat z with
  | none => rfl
  | some r =>
    show (match collapseAux false r with
      | [] => some []
      | d :: _ => if isWordChar d then none else some (collapseAux false r)).isSome =
      (match r with
      | [] => some []
      | d :: _ => if isWordChar d then none else some r).isSome
    cases r with
    | nil => rfl
    | cons d r2 =>
      by_cases hws : pyWS d = true
      · rw [show collapseAux false (d :: r2) = ' ' :: collapseAux true r2 from by
          simp [collapseAux, hws]]
        show (if isWordChar ' ' then none else _).isSome = (if isWordChar d then none else _).isSome
        rw [show isWordChar ' ' = false from by decide, ws_not_word hws]
        rfl
      · rw [show collapseAux false (d :: r2) = d :: collapseAux false r2 from by
          simp [collapseAux, pyWS_false_of_not hws]]
        show (if isWordChar d then none else _).isSome = (if isWordChar d then none else _).isSome
        cases hw : isWordChar d <;> simp [hw]

theorem tryPhrase_head_nonword {c : Char} (r : List Char) (hc : isWordChar c = false) :
    tryPhrase (c :: r) = none := by
  apply tryPhrase_none_head
  intro h
  have := word_of_lowCh_eq_alpha h (by decide)
  rw [hc] at this
  cases this

theorem tryPhrase_head_low {c c2 : Char} (r : List Char) (h : lowCh c = lowCh c2) :
    tryPhrase (c :: r) = tryPhrase (c2 :: r) := by
  unfold tryPhrase
  rw [show stripCI "you".toList (c :: r) = stripCI "you".toList (c2 :: r) from by
    show stripCI ('y' :: "ou".toList) (c :: r) = stripCI ('y' :: "ou".toList) (c2 :: r)
    simp only [stripCI]
    rw [h]]

theorem mem_of_mem_dropWhile {α : Type} {p : α → Bool} {x : α} {l : List α}
    (h : x ∈ l.dropWhile p) : x ∈ l := by
  induction l with
  | nil => simp [List.dropWhile] at h
  | cons a t ih =>
    rw [List.dropWhile_cons] at h
    split at h
    · exact List.mem_cons_of_mem a (ih h)
    · exact h

theorem stripCI_dropWS_junk {w s : List Char} (hwne : w ≠ [])
    (hwa : ∀ a ∈ w, pyIsAlphaCh a = true) (hs : ∀ e ∈ s, isWordChar e = false) :
    stripCI w (s.dropWhile pyWS) = none := by
  cases hds : s.dropWhile pyWS with
  | nil =>
    cases w with
    | nil => exact absurd rfl hwne
    | cons a w2 => exact stripCI_cons_nil a w2
  | cons d2 ds2 =>
    have hmem : d2 ∈ s := mem_of_mem_dropWhile (by rw [hds]; simp)
    cases w with
    | nil => exact absurd rfl hwne
    | cons a w2 => exact stripCI_alpha_nonword (hwa a (by simp)) _ (hs d2 hmem)

theorem tryPhrase_eq (s : List Char) :
    tryPhrase s =
      match stripCI "you".toList s with
      | none => none
      | some r1 => tpTail "are".toList (tpTail "right".toList tpEnd) r1 := by
  unfold tryPhrase tpTail tpEnd
  cases stripCI "you".toList s with
  | none => rfl
  | some r1 =>
    split
    · rfl
    · cases stripCI "are".toList (r1.dropWhile pyWS) with
      | none => rfl
      | some r3 =>
        split
        · rfl
        · cases stripCI "right".toList (r3.dropWhile pyWS) with
          | none => rfl
          | some r5 => rfl

theorem tpEnd_junk {s : List Char} (hs : ∀ e ∈ s, isWordChar e = false) (r5 : List Char) :
    (tpEnd (r5 ++ s)).isSome = (tpEnd r5).isSome := by
  cases r5 with
  | nil =>
    cases s with
    | nil => rfl
    | cons e s2 =>
      show (if isWordChar e then none else some (e :: s2)).isSome = _
      rw [hs e (by simp)]
      rfl
  | cons d r2 =>
    show (if isWordChar d then none else some (d :: (r2 ++ s))).isSome =
      (if isWordChar d then none else some (d :: r2)).isSome
    cases hw : isWordChar d <;> simp [hw]

theorem tpTail_junk {w : List Char} (hwne : w ≠ []) (hwa : ∀ a ∈ w, pyIsAlphaCh a = true)
    {next : List Char → Option (List Char)} {s : List Char}
    (hs : ∀ e ∈ s, isWordChar e = false)
    (hnext : ∀ r, (next (r ++ s)).isSome = (next r).isSome) :
    ∀ r, (tpTail w next (r ++ s)).isSome = (tpTail w next r).isSome := by
  intro r
  unfold tpTail
  cases hdr : r.dropWhile pyWS with
  | cons d rb =>
    obtain ⟨ht, hd⟩ := tdw_append_stop hdr s
    rw [ht, hd]
    by_cases hg : (r.takeWhile pyWS).isEmpty = true
    · rw [if_pos hg, if_pos hg]
    · rw [if_neg hg, if_neg hg]
      cases h2 : stripCI w (d :: rb) with
      | none => rw [stripCI_junk_none hwa hs h2]
      | some r2 =>
        rw [stripCI_junk_some hwa hs h2]
        exact hnext r2
  | nil =>
    obtain ⟨ht, hd⟩ := tdw_append_nil hdr s
    rw [ht, hd]
    have htr : r.takeWhile pyWS = r := takeWhile_eq_self_of_dropWhile_nil hdr
    rw [htr]
    by_cases hr : r = []
    · subst hr
      rw [List.nil_append]
      cases hts : s.takeWhile pyWS with
      | nil =>
        rw [if_pos (by decide : ([] : List Char).isEmpty = true),
          if_pos (by decide : ([] : List Char).isEmpty = true)]
      | cons e ts2 =>
        rw [if_neg (by simp), stripCI_dropWS_junk hwne hwa hs,
          if_pos (by decide : ([] : List Char).isEmpty = true)]
    · have hrc : ¬((r ++ s.takeWhile pyWS).isEmpty = true) := by
        cases r with
        | nil => exact absurd rfl hr
        | cons a r2 => simp
      have hrc2 : ¬(r.isEmpty = true) := by
        cases r with
        | nil => exact absurd rfl hr
        | cons a r2 => simp
      rw [if_neg hrc, if_neg hrc2, stripCI_dropWS_junk hwne hwa hs]
      cases w with
      | nil => exact absurd rfl hwne
      | cons a w2 =>
        rw [stripCI_cons_nil a w2]

theorem tryPhrase_junk {s : List Char} (hs : ∀ e ∈ s, isWordChar e = false) (x : List Char) :
    (tryPhrase (x ++ s)).isSome = (tryPhrase x).isSome := by
  rw [tryPhrase_eq, tryPhrase_eq]
  cases h1 : stripCI "you".toList x with
  | none => rw [stripCI_junk_none (by decide) hs h1]
  | some r1 =>
    rw [stripCI_junk_some (by decide) hs h1]
    show (tpTail "are".toList (tpTail "right".toList tpEnd) (r1 ++ s)).isSome =
      (tpTail "are".toList (tpTail "right".toList tpEnd) r1).isSome
    exact tpTail_junk (by decide) (by decide) hs
      (tpTail_junk (by decide) (by decide) hs (tpEnd_junk hs)) r1

theorem tpEnd_collapse (r5 : List Char) :
    (tpEnd (collapseAux false r5)).isSome = (tpEnd r5).isSome := by
  cases r5 with
  | nil => rfl
  | cons d r2 =>
    by_cases hws : pyWS d = true
    · rw [show collapseAux false (d :: r2) = ' ' :: collapseAux true r2 from by
        simp [collapseAux, hws]]
      show (if isWordChar ' ' then none else _).isSome = (if isWordChar d then none else _).isSome
      rw [show isWordChar ' ' = false from by decide, ws_not_word hws]
      rfl
    · rw [show collapseAux false (d :: r2) = d :: collapseAux false r2 from by
        simp [collapseAux, pyWS_false_of_not hws]]
      show (if isWordChar d then none else _).isSome = (if isWordChar d then none else _).isSome
      cases hw : isWordChar d <;> simp [hw]

theorem tpTail_collapse {w : List Char} (hwa : ∀ a ∈ w, pyIsAlphaCh a = true)
    {next : List Char → Option (List Char)}
    (hnext : ∀ r, (next (collapseAux false r)).isSome = (next r).isSome) :
    ∀ r, (tpTail w next (collapseAux false r)).isSome = (tpTail w next r).isSome := by
  intro r
  unfold tpTail
  obtain ⟨ht, hd⟩ := tdw_collapse r
  rw [ht, hd]
  by_cases hg : (r.takeWhile pyWS).isEmpty = true
  · rw [if_pos hg, if_pos hg]
  · rw [if_neg hg, if_neg hg]
    rw [stripCI_collapse hwa (r.dropWhile pyWS)]
    cases h2 : stripCI w (r.dropWhile pyWS) with
    | none => rfl
    | some r2 => exact hnext r2

theorem tryPhrase_collapse (z : List Char) :
    (tryPhrase (collapseAux false z)).isSome = (tryPhrase z).isSome := by
  rw [tryPhrase_eq, tryPhrase_eq]
  rw [stripCI_collapse (by decide) z]
  cases h1 : stripCI "you".toList z with
  | none => rfl
  | some r1 =>
    show (tpTail "are".toList (tpTail "right".toList tpEnd) (collapseAux false r1)).isSome =
      (tpTail "are".toList (tpTail "right".toList tpEnd) r1).isSome
    exact tpTail_collapse (by decide)
      (tpTail_collapse (by decide) tpEnd_collapse) r1

theorem any_congr {α : Type} {f g : α → Bool} : ∀ {l : List α},
    (∀ x ∈ l, f x = g x) → l.any f = l.any g := by
  intro l
  induction l with
  | nil => intro _; rfl
  | cons a t ih =>
    intro h
    simp only [List.any_cons]
    rw [h a (by simp), ih (fun x hx => h x (by simp [hx]))]

theorem bdHead_nil : bdHead ([] : List Char) := Or.inl rfl

theorem bdHead_cons {d : Char} (X : List Char) (hd : isWordChar d = false) :
    bdHead (d :: X) := Or.inr ⟨d, X, rfl, hd⟩

theorem bdHead_dropWhile_word (l : List Char) : bdHead (l.dropWhile isWordChar) := by
  cases h : l.dropWhile isWordChar with
  | nil => exact bdHead_nil
  | cons d X => exact bdHead_cons X (dropWhile_head_not _ _ h)

theorem bdHead_mapWords (f : List Char → List Char) {X : List Char} (h : bdHead X) :
    bdHead (mapWords f X) := by
  rcases h with he | ⟨d, X2, he, hd⟩
  · rw [he, mapWords_nil]
    exact bdHead_nil
  · rw [he, mapWords_cons_nonword f X2 hd]
    exact bdHead_cons _ hd

theorem bdHead_phraseGo_false {X : List Char} (h : bdHead X) :
    bdHead (phraseGo false X) := by
  rcases h with he | ⟨d, X2, he, hd⟩
  · rw [he, phraseGo_nil]
    exact bdHead_nil
  · rw [he, phraseGo_cons_false X2]
    exact bdHead_cons _ hd

theorem takeWhile_word_facts {c : Char} (rest : List Char) (hc : isWordChar c = true) :
    (c :: rest).takeWhile isWordChar ≠ [] ∧
    (∀ x ∈ (c :: rest).takeWhile isWordChar, isWordChar x = true) ∧
    ((c :: rest).dropWhile isWordChar).length < (c :: rest).length := by
  refine ⟨?_, fun x hx => mem_takeWhile _ _ hx, ?_⟩
  · rw [List.takeWhile_cons, if_pos hc]
    simp
  · rw [List.dropWhile_cons, if_pos hc]
    have := length_dropWhile_le isWordChar rest
    simp only [List.length_cons]
    omega

theorem mapWords_scanB_own (chk : List Char → Bool) (f : List Char → List Char)
    (hhead : ∀ c r, isWordChar c = false → chk (c :: r) = false)
    (hf : ∀ w, w ≠ [] → (∀ c ∈ w, isWordChar c = true) → ∀ X, bdHead X →
      scanB chk true X = false → scanB chk true (f w ++ X) = false) :
    ∀ l, scanB chk true (mapWords f l) = false := by
  have H : ∀ n, ∀ l : List Char, l.length < n → scanB chk true (mapWords f l) = false := by
    intro n
    induction n with
    | zero => intro l hl; exact absurd hl (Nat.not_lt_zero _)
    | succ n ih =>
      intro l hl
      cases l with
      | nil => rw [mapWords_nil]; rfl
      | cons c rest =>
        cases hw : isWordChar c with
        | false =>
          rw [mapWords_cons_nonword f rest hw, scanB_cons, hhead _ _ hw, hw]
          simp only [Bool.and_false, Bool.false_or, Bool.not_false]
          exact ih rest (by simp only [List.length_cons] at hl ⊢; omega)
        | true =>
          obtain ⟨hne, hall, hlen⟩ := takeWhile_word_facts rest hw
          rw [mapWords_cons_word f rest hw]
          exact hf _ hne hall _ (bdHead_mapWords f (bdHead_dropWhile_word _))
            (ih _ (by omega))
  intro l
  exact H (l.length + 1) l (by omega)

theorem mapWords_scanB_pres (chk : List Char → Bool) (f : List Char → List Char)
    (hhead : ∀ c r, isWordChar c = false → chk (c :: r) = false)
    (hrun : ∀ w X X2, w ≠ [] → (∀ c ∈ w, isWordChar c = true) → bdHead X → bdHead X2 →
      chk (w ++ X) = chk (w ++ X2))
    (hf : ∀ w, w ≠ [] → (∀ c ∈ w, isWordChar c = true) →
      (∀ X, bdHead X → chk (w ++ X) = false) → ∀ X, bdHead X →
      scanB chk true X = false → scanB chk true (f w ++ X) = false) :
    ∀ l, scanB chk true l = false → scanB chk true (mapWords f l) = false := by
  have H : ∀ n, ∀ l : List Char, l.length < n → scanB chk true l = false →
      scanB chk true (mapWords f l) = false := by
    intro n
    induction n with
    | zero => intro l hl; exact absurd hl (Nat.not_lt_zero _)
    | succ n ih =>
      intro l hl hscan
      cases l with
      | nil => rw [mapWords_nil]; rfl
      | cons c rest =>
        cases hw : isWordChar c with
        | false =>
          rw [scanB_cons, hhead _ _ hw, hw] at hscan
          simp only [Bool.and_false, Bool.false_or, Bool.not_false] at hscan
          rw [mapWords_cons_nonword f rest hw, scanB_cons, hhead _ _ hw, hw]
          simp only [Bool.and_false, Bool.false_or, Bool.not_false]
          exact ih rest (by simp only [List.length_cons] at hl ⊢; omega) hscan
        | true =>
          obtain ⟨hne, hall, hlen⟩ := takeWhile_word_facts rest hw
          have hsp : (c :: rest).takeWhile isWordChar ++ (c :: rest).dropWhile isWordChar
              = c :: rest := List.takeWhile_append_dropWhile isWordChar (c :: rest)
          have hscan2 : scanB chk true ((c :: rest).takeWhile isWordChar ++
              (c :: rest).dropWhile isWordChar) = false := by
            rw [hsp]
            exact hscan
          rw [scanB_run chk hne hall, Bool.true_and, Bool.or_eq_false_iff] at hscan2
          obtain ⟨hchk, hrest⟩ := hscan2
          have hrest2 : scanB chk true ((c :: rest).dropWhile isWordChar) = false := by
            rw [← scanB_false_bdHead chk hhead (bdHead_dropWhile_word (c :: rest))]
            exact hrest
          have hchkAll : ∀ X, bdHead X →
              chk ((c :: rest).takeWhile isWordChar ++ X) = false := by
            intro X hX
            rw [hrun _ X _ hne hall hX (bdHead_dropWhile_word (c :: rest))]
            exact hchk
          rw [mapWords_cons_word f rest hw]
          exact hf _ hne hall hchkAll _ (bdHead_mapWords f (bdHead_dropWhile_word _))
            (ih _ (by omega) hrest2)
  intro l
  exact H (l.length + 1) l (by omega)

theorem mapWords_id (chk : List Char → Bool) (f : List Char → List Char)
    (hhead : ∀ c r, isWordChar c = false → chk (c :: r) = false)
    (hf : ∀ w X, w ≠ [] → (∀ c ∈ w, isWordChar c = true) → bdHead X →
      chk (w ++ X) = false → f w = w) :
    ∀ l, scanB chk true l = false → mapWords f l = l := by
  have H : ∀ n, ∀ l : List Char, l.length < n → scanB chk true l = false →
      mapWords f l = l := by
    intro n
    induction n with
    | zero => intro l hl; exact absurd hl (Nat.not_lt_zero _)
    | succ n ih =>
      intro l hl hscan
      cases l with
      | nil => exact mapWords_nil f
      | cons c rest =>
        cases hw : isWordChar c with
        | false =>
          rw [scanB_cons, hhead _ _ hw, hw] at hscan
          simp only [Bool.and_false, Bool.false_or, Bool.not_false] at hscan
          rw [mapWords_cons_nonword f rest hw,
            ih rest (by simp only [List.length_cons] at hl ⊢; omega) hscan]
        | true =>
          obtain ⟨hne, hall, hlen⟩ := takeWhile_word_facts rest hw
          have hsp : (c :: rest).takeWhile isWordChar ++ (c :: rest).dropWhile isWordChar
              = c :: rest := List.takeWhile_append_dropWhile isWordChar (c :: rest)
          have hscan2 : scanB chk true ((c :: rest).takeWhile isWordChar ++
              (c :: rest).dropWhile isWordChar) = false := by
            rw [hsp]
            exact hscan
          rw [scanB_run chk hne hall, Bool.true_and, Bool.or_eq_false_iff] at hscan2
          obtain ⟨hchk, hrest⟩ := hscan2
          have hrest2 : scanB chk true ((c :: rest).dropWhile isWordChar) = false := by
            rw [← scanB_false_bdHead chk hhead (bdHead_dropWhile_word (c :: rest))]
            exact hrest
          rw [mapWords_cons_word f rest hw,
            hf _ _ hne hall (bdHead_dropWhile_word (c :: rest)) hchk,
            ih _ (by omega) hrest2, hsp]
  intro l
  exact H (l.length + 1) l (by omega)

theorem phraseGo_false_run : ∀ (w r2 : List Char), (∀ c ∈ w, isWordChar c = true) →
    phraseGo false (w ++ r2) = w ++ phraseGo false r2 := by
  intro w
  induction w with
  | nil => intro r2 _; rfl
  | cons c w2 ih =>
    intro r2 hall
    rw [List.cons_append, phraseGo_cons_false, hall c (by simp)]
    simp only [Bool.not_true]
    rw [ih r2 (fun x hx => hall x (by simp [hx]))]
    rfl

theorem chkW_phraseGo_front {pat : List Char} (hpne : pat ≠ [])
    (hpa : ∀ a ∈ pat, pyIsAlphaCh a = true) (c : Char) (rest : List Char) :
    (tryWord pat (c :: phraseGo false rest)).isSome = (tryWord pat (c :: rest)).isSome := by
  cases hw : isWordChar c with
  | false =>
    rw [tryWord_head_nonword hpne hpa _ hw, tryWord_head_nonword hpne hpa _ hw]
  | true =>
    have hsp : rest.takeWhile isWordChar ++ rest.dropWhile isWordChar = rest :=
      List.takeWhile_append_dropWhile isWordChar rest
    have hall : ∀ x ∈ rest.takeWhile isWordChar, isWordChar x = true :=
      fun x hx => mem_takeWhile _ _ hx
    have hgo : phraseGo false rest =
        rest.takeWhile isWordChar ++ phraseGo false (rest.dropWhile isWordChar) := by
      conv_lhs => rw [← hsp]
      exact phraseGo_false_run _ _ hall
    have hallc : ∀ x ∈ c :: rest.takeWhile isWordChar, isWordChar x = true := by
      intro x hx
      rcases List.mem_cons.mp hx with h1 | h1
      · rw [h1]; exact hw
      · exact hall x h1
    rw [hgo]
    rw [show (c :: (rest.takeWhile isWordChar ++ phraseGo false (rest.dropWhile isWordChar)))
      = ((c :: rest.takeWhile isWordChar) ++ phraseGo false (rest.dropWhile isWordChar))
      from rfl]
    rw [show (c :: rest) = ((c :: rest.takeWhile isWordChar) ++ rest.dropWhile isWordChar)
      from by rw [List.cons_append, hsp]]
    rw [tw_run _ pat _ hpne hpa (by simp) hallc
      (bdHead_phraseGo_false (bdHead_dropWhile_word rest))]
    rw [tw_run _ pat _ hpne hpa (by simp) hallc (bdHead_dropWhile_word rest)]

theorem phraseGo_scanB_pres (chk : List Char → Bool)
    (hhead : ∀ c r, isWordChar c = false → chk (c :: r) = false)
    (hfront : ∀ c rest, isWordChar c = true →
      chk (c :: phraseGo false rest) = chk (c :: rest))
    (hY : ∀ X b, scanB chk b ("you are correct".toList ++ X) = scanB chk false X) :
    ∀ l atB, scanB chk atB l = false → scanB chk atB (phraseGo atB l) = false := by
  have H : ∀ n, ∀ l : List Char, l.length < n → ∀ atB, scanB chk atB l = false →
      scanB chk atB (phraseGo atB l) = false := by
    intro n
    induction n with
    | zero => intro l hl; exact absurd hl (Nat.not_lt_zero _)
    | succ n ih =>
      intro l hl atB hscan
      cases l with
      | nil => rw [phraseGo_nil]; exact hscan
      | cons c rest =>
        rw [scanB_cons, Bool.or_eq_false_iff] at hscan
        obtain ⟨hchk, hrest⟩ := hscan
        have hlen : rest.length < n := by
          simp only [List.length_cons] at hl
          omega
        cases atB with
        | false =>
          rw [phraseGo_cons_false, scanB_cons]
          rw [ih rest hlen _ hrest]
          simp
        | true =>
          rw [Bool.true_and] at hchk
          cases hm : tryPhrase (c :: rest) with
          | none =>
            rw [phraseGo_cons_none hm, scanB_cons, ih rest hlen _ hrest]
            have hchk2 : chk (c :: phraseGo (!isWordChar c) rest) = false := by
              cases hw : isWordChar c with
              | false => exact hhead _ _ hw
              | true =>
                simp only [Bool.not_true]
                rw [hfront c rest hw]
                exact hchk
            rw [hchk2]
            simp
          | some rem =>
            rw [phraseGo_cons_match hm, hY]
            obtain ⟨m1, g1, m2, g2, m3, hsplit, hm1, hm2, hm3, hg1ne, hg1ws, hg2ne,
              hg2ws, hb⟩ := tryPhrase_split hm
            have hm3ne : m3 ≠ [] := lowStr_ne_nil hm3 (by decide)
            obtain ⟨e, he⟩ := exists_getLast hm3ne
            have hew : isWordChar e = true := by
              have hle : (lowStr m3).getLast? = some (lowCh e) := by
                rw [getLast?_lowStr, he]
                rfl
              rw [hm3] at hle
              have : lowCh e = 't' := by
                have h2 : some (lowCh e) = some 't' := by
                  rw [← hle]
                  decide
                injection h2
              exact word_of_lowCh_eq_alpha this (by decide)
            have hsplit2 : c :: rest = (m1 ++ g1 ++ m2 ++ g2 ++ m3) ++ rem := by
              rw [hsplit]
              simp [List.append_assoc]
            have hlast : (m1 ++ g1 ++ m2 ++ g2 ++ m3).getLast? = some e := by
              rw [show m1 ++ g1 ++ m2 ++ g2 ++ m3 = (m1 ++ g1 ++ m2 ++ g2) ++ m3 from by
                simp [List.append_assoc]]
              rw [getLast?_append_right hm3ne]
              exact he
            have hscan3 : scanB chk true ((m1 ++ g1 ++ m2 ++ g2 ++ m3) ++ rem) = false := by
              rw [← hsplit2, scanB_cons, Bool.or_eq_false_iff]
              exact ⟨by rw [Bool.true_and]; exact hchk, hrest⟩
            have hrem : scanB chk (!isWordChar e) rem = false :=
              (scanB_suffix chk _ _ _ hscan3).2 e hlast
            rw [hew] at hrem
            simp only [Bool.not_true] at hrem
            have hremlen : rem.length < n := by
              have h9 := tryPhrase_length hm
              simp only [List.length_cons] at h9
              omega
            exact ih rem hremlen false hrem
  intro l
  exact H (l.length + 1) l (by omega)

theorem phraseGo_id : ∀ (l : List Char) (atB : Bool),
    scanB (fun s => (tryPhrase s).isSome) atB l = false → phraseGo atB l = l := by
  intro l
  induction l with
  | nil => intro atB _; exact phraseGo_nil atB
  | cons c rest ih =>
    intro atB h
    rw [scanB_cons, Bool.or_eq_false_iff] at h
    obtain ⟨hchk, hrest⟩ := h
    cases atB with
    | false => rw [phraseGo_cons_false, ih _ hrest]
    | true =>
      rw [Bool.true_and] at hchk
      cases hm : tryPhrase (c :: rest) with
      | none => rw [phraseGo_cons_none hm, ih _ hrest]
      | some rem =>
        rw [hm] at hchk
        cases hchk

theorem lowStr_eq_cons {m : List Char} {a : Char} {p : List Char} (h : lowStr m = a :: p) :
    ∃ x m2, m = x :: m2 ∧ lowCh x = a ∧ lowStr m2 = p := by
  cases m with
  | nil => cases h
  | cons x m2 =>
    have h2 := h
    injection h2 with ha hp
    exact ⟨x, m2, rfl, ha, hp⟩

/-- First-match decomposition of the phrase substitution: either it is the
identity, or the input splits as an untouched prefix, a matched segment and a
remainder, with the prefix ending at a word boundary. -/
theorem phraseGo_split : ∀ (l : List Char) (atB : Bool),
    phraseGo atB l = l ∨
    ∃ pre msrc rem, l = pre ++ (msrc ++ rem) ∧
      phraseGo atB l = pre ++ ("you are correct".toList ++ phraseGo false rem) ∧
      tryPhrase (msrc ++ rem) = some rem ∧
      ((pre = [] ∧ atB = true) ∨ ∃ pl, pre.getLast? = some pl ∧ isWordChar pl = false) := by
  intro l
  induction l with
  | nil =>
    intro atB
    left
    exact phraseGo_nil atB
  | cons c rest ih =>
    intro atB
    have hstep : ∀ (hout : phraseGo atB (c :: rest) = c :: phraseGo (!isWordChar c) rest),
        phraseGo atB (c :: rest) = c :: rest ∨
        ∃ pre msrc rem, c :: rest = pre ++ (msrc ++ rem) ∧
          phraseGo atB (c :: rest) = pre ++ ("you are correct".toList ++ phraseGo false rem) ∧
          tryPhrase (msrc ++ rem) = some rem ∧
          ((pre = [] ∧ atB = true) ∨ ∃ pl, pre.getLast? = some pl ∧ isWordChar pl = false) := by
      intro hout
      rcases ih (!isWordChar c) with hid | ⟨pre2, msrc, rem, h1, h2, h3, h4⟩
      · left
        rw [hout, hid]
      · right
        refine ⟨c :: pre2, msrc, rem, by rw [h1, List.cons_append],
          by rw [hout, h2, List.cons_append], h3, ?_⟩
        right
        rcases h4 with ⟨hpn, hfl⟩ | ⟨pl, hpl, hplw⟩
        · subst hpn
          refine ⟨c, rfl, ?_⟩
          cases hw : isWordChar c
          · rfl
          · rw [hw] at hfl
            cases hfl
        · have hpne2 : pre2 ≠ [] := by
            intro he
            rw [he] at hpl
            cases hpl
          exact ⟨pl, by rw [getLast?_cons_of_ne_nil hpne2]; exact hpl, hplw⟩
    cases atB with
    | false => exact hstep (phraseGo_cons_false rest)
    | true =>
      cases hm : tryPhrase (c :: rest) with
      | none => exact hstep (phraseGo_cons_none hm)
      | some rem =>
        right
        obtain ⟨m1, g1, m2, g2, m3, hsplit, _, _, _, _, _, _, _, _⟩ := tryPhrase_split hm
        refine ⟨[], m1 ++ (g1 ++ (m2 ++ (g2 ++ m3))), rem, ?_, ?_, ?_, Or.inl ⟨rfl, rfl⟩⟩
        · rw [List.nil_append, hsplit]
          simp [List.append_assoc]
        · rw [List.nil_append]
          exact phraseGo_cons_match hm
        · rw [show (m1 ++ (g1 ++ (m2 ++ (g2 ++ m3)))) ++ rem =
            m1 ++ (g1 ++ (m2 ++ (g2 ++ (m3 ++ rem)))) from by simp [List.append_assoc]]
          rw [← hsplit]
          exact hm

/-- Replaying the phrase matcher on a matched segment followed by any
boundary-shaped continuation succeeds with that continuation. -/
theorem tryPhrase_build {m1 g1 m2 g2 m3 : List Char} (W : List Char)
    (hm1 : lowStr m1 = "you".toList) (hm2 : lowStr m2 = "are".toList)
    (hm3 : lowStr m3 = "right".toList)
    (hg1ne : g1 ≠ []) (hg1ws : ∀ c ∈ g1, pyWS c = true)
    (hg2ne : g2 ≠ []) (hg2ws : ∀ c ∈ g2, pyWS c = true)
    (hW : bdHead W) :
    tryPhrase (m1 ++ (g1 ++ (m2 ++ (g2 ++ (m3 ++ W))))) = some W := by
  have hgap : ∀ (g z : List Char), g ≠ [] → (∀ c ∈ g, pyWS c = true) →
      (∀ d z2, z = d :: z2 → pyWS d = false) →
      ((g ++ z).takeWhile pyWS).isEmpty = false ∧ (g ++ z).dropWhile pyWS = z := by
    intro g z hgne hgws hz
    have hgd : g.dropWhile pyWS = [] := List.dropWhile_eq_nil_iff.mpr hgws
    obtain ⟨ht, hd⟩ := tdw_append_nil hgd z
    have htz : z.takeWhile pyWS = [] := by
      cases z with
      | nil => rfl
      | cons d z2 =>
        rw [List.takeWhile_cons, if_neg (bool_false_not (hz d z2 rfl))]
    have hdz : z.dropWhile pyWS = z := by
      cases z with
      | nil => rfl
      | cons d z2 =>
        rw [List.dropWhile_cons, if_neg (bool_false_not (hz d z2 rfl))]
    refine ⟨?_, by rw [hd, hdz]⟩
    rw [ht, htz, List.append_nil]
    cases g with
    | nil => exact absurd rfl hgne
    | cons a g2 => rfl
  obtain ⟨b2, m2t, hm2e, hm2h, _⟩ := lowStr_eq_cons hm2
  obtain ⟨b3, m3t, hm3e, hm3h, _⟩ := lowStr_eq_cons hm3
  have hm2hw : pyWS b2 = false :=
    word_not_ws (word_of_lowCh_eq_alpha hm2h (by decide))
  have hm3hw : pyWS b3 = false :=
    word_not_ws (word_of_lowCh_eq_alpha hm3h (by decide))
  rw [tryPhrase_eq, stripCI_exact m1 _ hm1]
  show tpTail "are".toList (tpTail "right".toList tpEnd)
    (g1 ++ (m2 ++ (g2 ++ (m3 ++ W)))) = some W
  unfold tpTail
  obtain ⟨hG1e, hG1d⟩ := hgap g1 (m2 ++ (g2 ++ (m3 ++ W))) hg1ne hg1ws
    (by
      intro d z2 hz
      rw [hm2e] at hz
      rw [List.cons_append] at hz
      injection hz with hz1 _
      rw [hz1] at hm2hw
      exact hm2hw)
  rw [if_neg (bool_false_not hG1e), hG1d, stripCI_exact m2 _ hm2]
  show tpTail "right".toList tpEnd (g2 ++ (m3 ++ W)) = some W
  unfold tpTail
  obtain ⟨hG2e, hG2d⟩ := hgap g2 (m3 ++ W) hg2ne hg2ws
    (by
      intro d z2 hz
      rw [hm3e] at hz
      rw [List.cons_append] at hz
      injection hz with hz1 _
      rw [hz1] at hm3hw
      exact hm3hw)
  rw [if_neg (bool_false_not hG2e), hG2d, stripCI_exact m3 _ hm3]
  show tpEnd W = some W
  rcases hW with hWe | ⟨d, W2, hWd, hdw⟩
  · rw [hWe]
    rfl
  · rw [hWd]
    show (if isWordChar d then none else some (d :: W2)) = some (d :: W2)
    rw [hdw]
    rfl

/-- No new phrase match is created at an untouched position: if the matcher
failed at `c :: rest`, it still fails after the tail has been rewritten by the
phrase substitution.  Any match on the rewritten tail would either lie in the
untouched region (contradicting the original failure, by replay) or overlap a
replacement, whose first character `y` cannot occur past the head of the
pattern. -/
theorem tryPhrase_none_phraseGo {c : Char} {rest : List Char}
    (h : tryPhrase (c :: rest) = none) :
    tryPhrase (c :: phraseGo false rest) = none := by
  rcases phraseGo_split rest false with hid | ⟨pre, msrc, rem, h1, h2, h3, _⟩
  · rw [hid]
    exact h
  · rw [h2]
    cases hM : tryPhrase (c :: (pre ++ ("you are correct".toList ++ phraseGo false rem))) with
    | none => rfl
    | some rem2 =>
      exfalso
      obtain ⟨n1, q1, n2, q2, n3, hMs, hn1, hn2, hn3, hq1ne, hq1ws, hq2ne, hq2ws, hbm⟩ :=
        tryPhrase_split hM
      have hM2 : (c :: pre) ++ ("you are correct".toList ++ phraseGo false rem) =
          (n1 ++ (q1 ++ (n2 ++ (q2 ++ n3)))) ++ rem2 := by
        rw [List.cons_append, hMs]
        simp [List.append_assoc]
      rcases List.append_eq_append_iff.mp hM2 with ⟨a2, hA1, hA2⟩ | ⟨c2, hB1, hB2⟩
      · cases a2 with
        | nil =>
          rw [List.nil_append] at hA2
          rcases hbm with hbe | ⟨d, r2, hr, hdw⟩
          · rw [hbe] at hA2
            rw [show "you are correct".toList ++ phraseGo false rem =
              'y' :: ("ou are correct".toList ++ phraseGo false rem) from rfl] at hA2
            cases hA2
          · rw [hr] at hA2
            rw [show "you are correct".toList ++ phraseGo false rem =
              'y' :: ("ou are correct".toList ++ phraseGo false rem) from rfl] at hA2
            injection hA2 with hd1 _
            rw [← hd1] at hdw
            exact absurd hdw (by decide)
        | cons x a3 =>
          rw [show "you are correct".toList ++ phraseGo false rem =
            'y' :: ("ou are correct".toList ++ phraseGo false rem) from rfl,
            List.cons_append] at hA2
          injection hA2 with hx _
          obtain ⟨b1, n1t, hn1e, hb1, hn1t⟩ := lowStr_eq_cons hn1
          rw [hn1e, List.cons_append, List.cons_append] at hA1
          injection hA1 with _ htails
          have hxmem : x ∈ n1t ++ (q1 ++ (n2 ++ (q2 ++ n3))) := by
            rw [htails]
            simp
          rw [← hx] at hxmem
          rcases List.mem_append.mp hxmem with hm1t | hrest1
          · have hmm : lowCh 'y' ∈ lowStr n1t := List.mem_map_of_mem lowCh hm1t
            rw [hn1t] at hmm
            rw [show lowCh 'y' = 'y' from by decide] at hmm
            exact absurd hmm (by decide)
          · rcases List.mem_append.mp hrest1 with hq1m | hrest2
            · exact absurd (hq1ws _ hq1m) (by decide)
            · rcases List.mem_append.mp hrest2 with hn2m | hrest3
              · have hmm : lowCh 'y' ∈ lowStr n2 := List.mem_map_of_mem lowCh hn2m
                rw [hn2] at hmm
                rw [show lowCh 'y' = 'y' from by decide] at hmm
                exact absurd hmm (by decide)
              · rcases List.mem_append.mp hrest3 with hq2m | hn3m
                · exact absurd (hq2ws _ hq2m) (by decide)
                · have hmm : lowCh 'y' ∈ lowStr n3 := List.mem_map_of_mem lowCh hn3m
                  rw [hn3] at hmm
                  rw [show lowCh 'y' = 'y' from by decide] at hmm
                  exact absurd hmm (by decide)
      · cases c2 with
        | nil =>
          rw [List.append_nil] at hB1
          rw [List.nil_append] at hB2
          rcases hbm with hbe | ⟨d, r2, hr, hdw⟩
          · rw [hbe] at hB2
            rw [show "you are correct".toList ++ phraseGo false rem =
              'y' :: ("ou are correct".toList ++ phraseGo false rem) from rfl] at hB2
            cases hB2
          · rw [hr] at hB2
            rw [show "you are correct".toList ++ phraseGo false rem =
              'y' :: ("ou are correct".toList ++ phraseGo false rem) from rfl] at hB2
            injection hB2 with hd1 _
            rw [hd1] at hdw
            exact absurd hdw (by decide)
        | cons x c3 =>
          have hxnw : isWordChar x = false := by
            rcases hbm with hbe | ⟨d, r2, hr, hdw⟩
            · rw [hbe] at hB2
              cases hB2
            · rw [hr, List.cons_append] at hB2
              injection hB2 with hd1 _
              rw [← hd1]
              exact hdw
          have hO : c :: rest = (n1 ++ (q1 ++ (n2 ++ (q2 ++ n3)))) ++
              (x :: (c3 ++ (msrc ++ rem))) := by
            rw [h1]
            rw [show c :: (pre ++ (msrc ++ rem)) = (c :: pre) ++ (msrc ++ rem) from rfl]
            rw [hB1]
            simp [List.append_assoc]
          have hO2 : tryPhrase (c :: rest) = some (x :: (c3 ++ (msrc ++ rem))) := by
            rw [hO]
            rw [show (n1 ++ (q1 ++ (n2 ++ (q2 ++ n3)))) ++ (x :: (c3 ++ (msrc ++ rem))) =
              n1 ++ (q1 ++ (n2 ++ (q2 ++ (n3 ++ (x :: (c3 ++ (msrc ++ rem))))))) from by
              simp [List.append_assoc]]
            exact tryPhrase_build _ hn1 hn2 hn3 hq1ne hq1ws hq2ne hq2ws
              (bdHead_cons _ hxnw)
          rw [h] at hO2
          cases hO2

theorem tryPhrase_on_correct (X : List Char) :
    tryPhrase ("you are correct".toList ++ X) = none := by
  rw [tryPhrase_eq]
  rw [show "you are correct".toList ++ X =
    "you".toList ++ (' ' :: ("are".toList ++ (' ' :: ("correct".toList ++ X)))) from rfl]
  rw [stripCI_exact "you".toList _ (by decide)]
  show tpTail "are".toList (tpTail "right".toList tpEnd)
    (' ' :: ("are".toList ++ (' ' :: ("correct".toList ++ X)))) = none
  unfold tpTail
  rw [List.takeWhile_cons, if_pos (by decide : pyWS ' ' = true),
    if_neg (by simp), List.dropWhile_cons, if_pos (by decide : pyWS ' ' = true)]
  rw [show "are".toList ++ (' ' :: ("correct".toList ++ X)) =
    'a' :: ("re".toList ++ (' ' :: ("correct".toList ++ X))) from rfl]
  rw [List.dropWhile_cons, if_neg (by decide : ¬(pyWS 'a' = true))]
  rw [show 'a' :: ("re".toList ++ (' ' :: ("correct".toList ++ X))) =
    "are".toList ++ (' ' :: ("correct".toList ++ X)) from rfl]
  rw [stripCI_exact "are".toList _ (by decide)]
  show tpTail "right".toList tpEnd (' ' :: ("correct".toList ++ X)) = none
  unfold tpTail
  rw [List.takeWhile_cons, if_pos (by decide : pyWS ' ' = true),
    if_neg (by simp), List.dropWhile_cons, if_pos (by decide : pyWS ' ' = true)]
  rw [show "correct".toList ++ X = 'c' :: ("orrect".toList ++ X) from rfl]
  rw [List.dropWhile_cons, if_neg (by decide : ¬(pyWS 'c' = true))]
  rw [show stripCI "right".toList ('c' :: ("orrect".toList ++ X)) = none from by
    show stripCI ('r' :: "ight".toList) ('c' :: ("orrect".toList ++ X)) = none
    simp only [stripCI]
    rw [if_neg (by decide)]]

theorem scanB_Y_phrase (X : List Char) (b : Bool) :
    scanB (fun s => (tryPhrase s).isSome) b ("you are correct".toList ++ X) =
      scanB (fun s => (tryPhrase s).isSome) false X := by
  rw [show "you are correct".toList ++ X =
    "you".toList ++ (' ' :: ("are".toList ++ (' ' :: ("correct".toList ++ X)))) from rfl]
  have hk1 : (tryPhrase
      ("you".toList ++ (' ' :: ("are".toList ++ (' ' :: ("correct".toList ++ X)))))).isSome
      = false := by
    show (tryPhrase ("you are correct".toList ++ X)).isSome = false
    rw [tryPhrase_on_correct X]
    rfl
  have hk3 : (tryPhrase ("are".toList ++ (' ' :: ("correct".toList ++ X)))).isSome = false := by
    show (tryPhrase ('a' :: ("re".toList ++ (' ' :: ("correct".toList ++ X))))).isSome = false
    rw [tryPhrase_none_head _ (by decide)]
    rfl
  have hk4 : (tryPhrase ("correct".toList ++ X)).isSome = false := by
    show (tryPhrase ('c' :: ("orrect".toList ++ X))).isSome = false
    rw [tryPhrase_none_head _ (by decide)]
    rfl
  rw [scanB_run _ (by decide : "you".toList ≠ [])
    (by decide : ∀ c ∈ "you".toList, isWordChar c = true), hk1]
  rw [scanB_cons]
  rw [scanB_run _ (by decide : "are".toList ≠ [])
    (by decide : ∀ c ∈ "are".toList, isWordChar c = true), hk3]
  rw [scanB_cons]
  rw [scanB_run _ (by decide : "correct".toList ≠ [])
    (by decide : ∀ c ∈ "correct".toList, isWordChar c = true), hk4]
  simp only [Bool.and_false, Bool.false_and, Bool.false_or]

theorem phraseGo_clean : ∀ (l : List Char) (atB : Bool),
    scanB (fun s => (tryPhrase s).isSome) atB (phraseGo atB l) = false := by
  have H : ∀ n, ∀ l : List Char, l.length < n → ∀ atB,
      scanB (fun s => (tryPhrase s).isSome) atB (phraseGo atB l) = false := by
    intro n
    induction n with
    | zero => intro l hl; exact absurd hl (Nat.not_lt_zero _)
    | succ n ih =>
      intro l hl atB
      cases l with
      | nil => rw [phraseGo_nil]; rfl
      | cons c rest =>
        have hlen : rest.length < n := by
          simp only [List.length_cons] at hl
          omega
        have hnone : ∀ (hm : tryPhrase (c :: rest) = none),
            scanB (fun s => (tryPhrase s).isSome) atB
              (c :: phraseGo (!isWordChar c) rest) = false := by
          intro hm
          rw [scanB_cons, ih rest hlen (!isWordChar c), Bool.or_false]
          cases hw : isWordChar c with
          | false =>
            rw [show (tryPhrase (c :: phraseGo (!false) rest)).isSome = false from by
              rw [tryPhrase_head_nonword _ hw]
              rfl]
            rw [Bool.and_false]
          | true =>
            rw [show (tryPhrase (c :: phraseGo (!true) rest)).isSome = false from by
              show (tryPhrase (c :: phraseGo false rest)).isSome = false
              rw [tryPhrase_none_phraseGo hm]
              rfl]
            rw [Bool.and_false]
        cases atB with
        | false =>
          rw [phraseGo_cons_false, scanB_cons, ih rest hlen (!isWordChar c)]
          simp
        | true =>
          cases hm : tryPhrase (c :: rest) with
          | none =>
            rw [phraseGo_cons_none hm]
            exact hnone hm
          | some rem =>
            rw [phraseGo_cons_match hm, scanB_Y_phrase]
            have hremlen : rem.length < n := by
              have h9 := tryPhrase_length hm
              simp only [List.length_cons] at h9
              omega
            exact ih rem hremlen false
  intro l atB
  exact H (l.length + 1) l (by omega) atB

theorem tryWord_head_ne {a : Char} {p2 : List Char} {c : Char} (r : List Char)
    (h : ¬(lowCh c = a)) : tryWord (a :: p2) (c :: r) = none := by
  unfold tryWord
  simp only [stripCI]
  rw [if_neg h]

theorem tryWord_two_ne {a b : Char} {p2 : List Char} {c1 c2 : Char} (r : List Char)
    (h1 : lowCh c1 = a) (h2 : ¬(lowCh c2 = b)) :
    tryWord (a :: b :: p2) (c1 :: c2 :: r) = none := by
  unfold tryWord
  simp only [stripCI]
  rw [if_pos h1, if_neg h2]

theorem scanB_Y_word {pat : List Char} (hpne : pat ≠ [])
    (hpa : ∀ a ∈ pat, pyIsAlphaCh a = true)
    (hyou : ¬(lowStr "you".toList = pat)) (hare : ¬(lowStr "are".toList = pat))
    (hcor : ∀ Z, (tryWord pat ("correct".toList ++ Z)).isSome = false) :
    ∀ X b, scanB (fun s => (tryWord pat s).isSome) b ("you are correct".toList ++ X) =
      scanB (fun s => (tryWord pat s).isSome) false X := by
  intro X b
  rw [show "you are correct".toList ++ X =
    "you".toList ++ (' ' :: ("are".toList ++ (' ' :: ("correct".toList ++ X)))) from rfl]
  have hk1 : (tryWord pat ("you".toList ++ (' ' :: ("are".toList ++
      (' ' :: ("correct".toList ++ X)))))).isSome = false := by
    rw [tw_run "you".toList pat (' ' :: ("are".toList ++ (' ' :: ("correct".toList ++ X))))
      hpne hpa (by decide) (by decide) (bdHead_cons _ (by decide : isWordChar ' ' = false))]
    exact decide_eq_false hyou
  have hk3 : (tryWord pat ("are".toList ++ (' ' :: ("correct".toList ++ X)))).isSome
      = false := by
    rw [tw_run "are".toList pat (' ' :: ("correct".toList ++ X))
      hpne hpa (by decide) (by decide) (bdHead_cons _ (by decide : isWordChar ' ' = false))]
    exact decide_eq_false hare
  have hk4 := hcor X
  rw [scanB_run _ (by decide : "you".toList ≠ [])
    (by decide : ∀ c ∈ "you".toList, isWordChar c = true), hk1]
  rw [scanB_cons]
  rw [scanB_run _ (by decide : "are".toList ≠ [])
    (by decide : ∀ c ∈ "are".toList, isWordChar c = true), hk3]
  rw [scanB_cons]
  rw [scanB_run _ (by decide : "correct".toList ≠ [])
    (by decide : ∀ c ∈ "correct".toList, isWordChar c = true), hk4]
  simp only [Bool.and_false, Bool.false_and, Bool.false_or]

theorem rstripDB_split (l : List Char) :
    ∃ suf, l = rstripDotBangL l ++ suf ∧
      ∀ c ∈ suf, (c = '.' || c = '!') = true := by
  refine ⟨(l.reverse.takeWhile (fun c => c = '.' || c = '!')).reverse, ?_, ?_⟩
  · conv_lhs => rw [← l.reverse_reverse,
      ← List.takeWhile_append_dropWhile (fun c => c = '.' || c = '!') l.reverse]
    rw [List.reverse_append]
    rfl
  · intro c hc
    rw [List.mem_reverse] at hc
    exact mem_takeWhile (fun c => c = '.' || c = '!') l.reverse hc

/-- Scan-false survives the post-processing stages (whitespace collapse, strip,
capitalization). -/
theorem scanB_post_stages (chk : List Char → Bool)
    (hhead : ∀ c r, isWordChar c = false → chk (c :: r) = false)
    (hjunk : ∀ s, (∀ e ∈ s, isWordChar e = false) → ∀ x, chk (x ++ s) = chk x)
    (hcoll : ∀ z, chk (collapseAux false z) = chk z)
    (hlow : ∀ (c c2 : Char) (r : List Char), lowCh c = lowCh c2 → chk (c :: r) = chk (c2 :: r))
    {t8 : List Char} (h : scanB chk true t8 = false) :
    scanB chk true (capitalizeL (pyStripL (collapseL t8))) = false := by
  rw [scanB_capitalize chk hlow]
  show scanB chk true (rstripWS ((collapseL t8).dropWhile pyWS)) = false
  obtain ⟨suf, hsplit, hsufws⟩ := rstripWS_split ((collapseL t8).dropWhile pyWS)
  have hsufnw : ∀ e ∈ suf, isWordChar e = false := fun e he => ws_not_word (hsufws e he)
  have h1 : scanB chk true ((collapseL t8).dropWhile pyWS) = false := by
    rw [scanB_dropWhile_ws chk hhead]
    show scanB chk true (collapseAux false t8) = false
    rw [scanB_collapse chk hhead hcoll t8 false true (fun hx => by cases hx)]
    exact h
  rw [hsplit] at h1
  rw [scanB_append_nonword chk hhead hsufnw (hjunk suf hsufnw) _ true] at h1
  exact h1

/-- Scan-false survives the question-mark normalization rewrite of stage 5. -/
theorem scanB_stage5 (chk : List Char → Bool)
    (hhead : ∀ c r, isWordChar c = false → chk (c :: r) = false)
    (hjunk : ∀ s, (∀ e ∈ s, isWordChar e = false) → ∀ x, chk (x ++ s) = chk x)
    {t6 : List Char} (h : scanB chk true t6 = false) :
    scanB chk true (rstripDotBangL t6 ++ ['?']) = false := by
  obtain ⟨suf, hsplit, hsufc⟩ := rstripDB_split t6
  have hsufnw : ∀ e ∈ suf, isWordChar e = false := by
    intro e he
    rcases Bool.or_eq_true_iff.mp (hsufc e he) with h1 | h1
    · rw [show e = '.' from by simpa using h1]
      decide
    · rw [show e = '!' from by simpa using h1]
      decide
  have h2 : scanB chk true (rstripDotBangL t6) = false := by
    rw [hsplit] at h
    rw [scanB_append_nonword chk hhead hsufnw (hjunk suf hsufnw) _ true] at h
    exact h
  rw [scanB_append_nonword chk hhead
    (by decide : ∀ e ∈ (['?'] : List Char), isWordChar e = false)
    (hjunk ['?'] (by decide)) _ true]
  exact h2

theorem pyWS_upCh {c : Char} : pyWS (upCh c) = pyWS c := by
  cases h2 : pyWS c
  · cases h1 : pyWS (upCh c)
    · rfl
    · exfalso
      rw [pyWS_iff, upCh_toNat] at h1
      have h3 : pyWS c = true := by
        rw [pyWS_iff]
        split at h1 <;> omega
      rw [h2] at h3
      cases h3
  · rw [pyWS_iff] at h2 ⊢
    rw [upCh_toNat]
    split <;> omega

theorem upCh_eq_quest {c : Char} (h : upCh c = '?') : c = '?' := by
  apply charNat_inj
  have h2 : (upCh c).toNat = 63 := by
    rw [h]
    rfl
  rw [upCh_toNat] at h2
  show c.toNat = 63
  split at h2 <;> omega

theorem pyStripL_eq_self {l : List Char} (hh : ∀ d r, l = d :: r → pyWS d = false)
    (hl : ∀ c, l.getLast? = some c → pyWS c = false) : pyStripL l = l := by
  cases l with
  | nil => rfl
  | cons d r =>
    unfold pyStripL
    rw [List.dropWhile_cons, if_neg (bool_false_not (hh d r rfl))]
    obtain ⟨c, hc⟩ := exists_getLast (by simp : (d :: r : List Char) ≠ [])
    exact rstripWS_eq_self hc (hl c hc)

theorem lower_of_alpha_not_upper {c : Char} (ha : pyIsAlphaCh c = true)
    (hu : pyIsUpperCh c = false) : pyIsLowerCh c = true := by
  rw [pyIsAlphaCh_iff] at ha
  rw [pyIsLowerCh_iff]
  rcases ha with h1 | h1
  · omega
  · exfalso
    have : pyIsUpperCh c = true := by
      rw [pyIsUpperCh_iff]
      omega
    rw [hu] at this
    cases this

theorem capitalizeL_idem (y : List Char) : capitalizeL (capitalizeL y) = capitalizeL y := by
  cases y with
  | nil => rfl
  | cons c r =>
    by_cases hcond : (!pyIsUpperCh c && pyIsAlphaCh c) = true
    · have h1 : capitalizeL (c :: r) = upCh c :: r := by
        simp only [capitalizeL]
        rw [if_pos hcond]
      rw [h1]
      rw [Bool.and_eq_true] at hcond
      have hup : pyIsUpperCh (upCh c) = true := by
        apply upCh_upper
        apply lower_of_alpha_not_upper hcond.2
        cases hx : pyIsUpperCh c
        · rfl
        · rw [hx] at hcond
          rcases hcond with ⟨h1x, _⟩
          cases h1x
      show capitalizeL (upCh c :: r) = upCh c :: r
      simp only [capitalizeL]
      rw [if_neg]
      intro hcond2
      rw [Bool.and_eq_true] at hcond2
      rw [hup] at hcond2
      rcases hcond2 with ⟨h1x, _⟩
      cases h1x
    · have h1 : capitalizeL (c :: r) = c :: r := by
        simp only [capitalizeL]
        rw [if_neg hcond]
      rw [h1, h1]

theorem collP_collapse_id : ∀ (t : List Char) (b : Bool), collP b t = true →
    collapseAux b t = t := by
  intro t
  induction t with
  | nil => intro b _; rfl
  | cons c r ih =>
    intro b h
    by_cases hws : pyWS c = true
    · rw [show collP b (c :: r) = ((!b && (c = ' ')) && collP true r) from by
        simp [collP, hws]] at h
      rw [Bool.and_eq_true, Bool.and_eq_true] at h
      obtain ⟨⟨hb, hsp⟩, hr⟩ := h
      have hb2 : b = false := by
        cases hbc : b
        · rfl
        · rw [hbc] at hb
          cases hb
      have hsp2 : c = ' ' := by simpa using hsp
      subst hb2
      rw [show collapseAux false (c :: r) = ' ' :: collapseAux true r from by
        simp [collapseAux, hws]]
      rw [ih true hr, hsp2]
    · have hws2 : pyWS c = false := pyWS_false_of_not hws
      rw [show collP b (c :: r) = collP false r from by simp [collP, hws2]] at h
      rw [show collapseAux b (c :: r) = c :: collapseAux false r from by
        cases b <;> simp [collapseAux, hws2]]
      rw [ih false h]

theorem collP_of_collapse : ∀ (t : List Char) (b : Bool),
    collP b (collapseAux b t) = true := by
  intro t
  induction t with
  | nil => intro b; cases b <;> rfl
  | cons c r ih =>
    intro b
    by_cases hws : pyWS c = true
    · cases b with
      | true =>
        rw [show collapseAux true (c :: r) = collapseAux true r from by
          simp [collapseAux, hws]]
        exact ih true
      | false =>
        rw [show collapseAux false (c :: r) = ' ' :: collapseAux true r from by
          simp [collapseAux, hws]]
        rw [show collP false (' ' :: collapseAux true r) =
          ((!false && (' ' = ' ')) && collP true (collapseAux true r)) from by
          simp only [collP, if_pos (by decide : pyWS ' ' = true)]]
        rw [ih true]
        decide
    · have hws2 : pyWS c = false := pyWS_false_of_not hws
      rw [show collapseAux b (c :: r) = c :: collapseAux false r from by
        cases b <;> simp [collapseAux, hws2]]
      rw [show collP b (c :: collapseAux false r) = collP false (collapseAux false r) from by
        simp [collP, hws2]]
      exact ih false

theorem collP_dropWhile {t : List Char} (h : collP false t = true) :
    collP false (t.dropWhile pyWS) = true := by
  cases t with
  | nil => exact h
  | cons c r =>
    by_cases hws : pyWS c = true
    · rw [show collP false (c :: r) = ((!false && (c = ' ')) && collP true r) from by
        simp [collP, hws]] at h
      rw [Bool.and_eq_true] at h
      obtain ⟨_, hr⟩ := h
      rw [List.dropWhile_cons, if_pos hws]
      cases r with
      | nil => rfl
      | cons d r2 =>
        by_cases hwd : pyWS d = true
        · exfalso
          rw [show collP true (d :: r2) = ((!true && (d = ' ')) && collP true r2) from by
            simp [collP, hwd]] at hr
          simp at hr
        · have hwd2 : pyWS d = false := pyWS_false_of_not hwd
          rw [show collP true (d :: r2) = collP false r2 from by simp [collP, hwd2]] at hr
          rw [List.dropWhile_cons, if_neg (bool_false_not hwd2)]
          rw [show collP false (d :: r2) = collP false r2 from by simp [collP, hwd2]]
          exact hr
    · rw [List.dropWhile_cons, if_neg hws]
      exact h

theorem collP_append_left : ∀ (a : List Char) (b : Bool) (s : List Char),
    collP b (a ++ s) = true → collP b a = true := by
  intro a
  induction a with
  | nil => intro b s _; rfl
  | cons c a2 ih =>
    intro b s h
    by_cases hws : pyWS c = true
    · rw [show collP b ((c :: a2) ++ s) = ((!b && (c = ' ')) && collP true (a2 ++ s)) from by
        simp [collP, hws]] at h
      rw [Bool.and_eq_true] at h
      obtain ⟨hx, hr⟩ := h
      rw [show collP b (c :: a2) = ((!b && (c = ' ')) && collP true a2) from by
        simp [collP, hws]]
      rw [Bool.and_eq_true]
      exact ⟨hx, ih true s hr⟩
    · have hws2 : pyWS c = false := pyWS_false_of_not hws
      rw [show collP b ((c :: a2) ++ s) = collP false (a2 ++ s) from by
        simp [collP, hws2]] at h
      rw [show collP b (c :: a2) = collP false a2 from by simp [collP, hws2]]
      exact ih false s h

theorem collP_capitalize {t : List Char} (h : collP false t = true) :
    collP false (capitalizeL t) = true := by
  cases t with
  | nil => exact h
  | cons c r =>
    simp only [capitalizeL]
    split
    · next hcond =>
      rw [Bool.and_eq_true] at hcond
      have hcnws : pyWS c = false := word_not_ws (alpha_word hcond.2)
      have hunws : pyWS (upCh c) = false := by
        rw [pyWS_upCh]
        exact hcnws
      rw [show collP false (c :: r) = collP false r from by simp [collP, hcnws]] at h
      rw [show collP false (upCh c :: r) = collP false r from by simp [collP, hunws]]
      exact h
    · exact h

theorem periodStep_cases (t : List Char) : periodStep t = t ∨ periodStep t = t ++ ['.'] := by
  unfold periodStep
  split
  · exact Or.inr rfl
  · exact Or.inl rfl

theorem mem_collapseAux {x : Char} : ∀ (t : List Char) (b : Bool),
    x ∈ collapseAux b t → x ∈ t ∨ x = ' ' := by
  intro t
  induction t with
  | nil => intro b h; cases b <;> cases h
  | cons c r ih =>
    intro b h
    by_cases hws : pyWS c = true
    · cases b with
      | true =>
        rw [show collapseAux true (c :: r) = collapseAux true r from by
          simp [collapseAux, hws]] at h
        rcases ih true h with h1 | h1
        · exact Or.inl (by simp [h1])
        · exact Or.inr h1
      | false =>
        rw [show collapseAux false (c :: r) = ' ' :: collapseAux true r from by
          simp [collapseAux, hws]] at h
        rcases List.mem_cons.mp h with h1 | h1
        · exact Or.inr h1
        · rcases ih true h1 with h2 | h2
          · exact Or.inl (by simp [h2])
          · exact Or.inr h2
    · rw [show collapseAux b (c :: r) = c :: collapseAux false r from by
        cases b <;> simp [collapseAux, pyWS_false_of_not hws]] at h
      rcases List.mem_cons.mp h with h1 | h1
      · exact Or.inl (by simp [h1])
      · rcases ih false h1 with h2 | h2
        · exact Or.inl (by simp [h2])
        · exact Or.inr h2

theorem mem_pyStripL {x : Char} {t : List Char} (h : x ∈ pyStripL t) : x ∈ t := by
  obtain ⟨suf, hs, _⟩ := stripL_split t
  have h2 : x ∈ t.dropWhile pyWS := by
    rw [hs]
    exact List.mem_append_left _ h
  exact mem_of_mem_dropWhile h2

theorem quest_mem_capitalizeL {t : List Char} (h : ('?' : Char) ∈ capitalizeL t) :
    ('?' : Char) ∈ t := by
  cases t with
  | nil => cases h
  | cons c r =>
    by_cases hcond : (!pyIsUpperCh c && pyIsAlphaCh c) = true
    · rw [show capitalizeL (c :: r) = upCh c :: r from by
        simp only [capitalizeL]; rw [if_pos hcond]] at h
      rcases List.mem_cons.mp h with h1 | h1
      · rw [upCh_eq_quest h1.symm]
        simp
      · simp [h1]
    · rw [show capitalizeL (c :: r) = c :: r from by
        simp only [capitalizeL]; rw [if_neg hcond]] at h
      exact h

theorem quest_mem_periodStep {t : List Char} (h : ('?' : Char) ∈ periodStep t) :
    ('?' : Char) ∈ t := by
  rcases periodStep_cases t with h1 | h1
  · rw [h1] at h
    exact h
  · rw [h1] at h
    rcases List.mem_append.mp h with h2 | h2
    · exact h2
    · simp at h2

theorem startsL_head_ne {w : List Char} {c : Char} (hne : w ≠ []) (hh : w.head? ≠ some c)
    (Z : List Char) : startsL w (c :: Z) = false := by
  cases w with
  | nil => exact absurd rfl hne
  | cons a w2 =>
    have hac : ¬(a = c) := by
      intro he
      apply hh
      rw [he]
      rfl
    show (decide (a = c) && startsL w2 Z) = false
    rw [decide_eq_false hac, Bool.false_and]

/-! ### C9: per-matcher boundary-check interfaces -/

theorem any_false {α : Type} {f : α → Bool} : ∀ {l : List α},
    (∀ x ∈ l, f x = false) → l.any f = false := by
  intro l
  induction l with
  | nil => intro _; rfl
  | cons a t ih =>
    intro h
    simp only [List.any_cons]
    rw [h a (by simp), ih (fun x hx => h x (by simp [hx]))]
    rfl

theorem contr_pat_facts : ∀ p ∈ contrWords, p ≠ [] ∧ ∀ a ∈ p, pyIsAlphaCh a = true := by
  decide

theorem contr_tail_ne : ∀ p ∈ contrWords, ∀ q ∈ contrWords, ¬(p.tail = q) := by
  decide

theorem qword_headp : ∀ w ∈ questionWords, w ≠ [] ∧ ¬(w.head? = some 'p') := by
  decide

theorem wchk_head (pat : List Char) (hpne : pat ≠ [])
    (hpa : ∀ a ∈ pat, pyIsAlphaCh a = true) :
    ∀ c r, isWordChar c = false → wchk pat (c :: r) = false := by
  intro c r hc
  show (tryWord pat (c :: r)).isSome = false
  rw [tryWord_head_nonword hpne hpa r hc]
  rfl

theorem wchk_run (pat : List Char) (hpne : pat ≠ [])
    (hpa : ∀ a ∈ pat, pyIsAlphaCh a = true) :
    ∀ w X X2, w ≠ [] → (∀ c ∈ w, isWordChar c = true) → bdHead X → bdHead X2 →
      wchk pat (w ++ X) = wchk pat (w ++ X2) := by
  intro w X X2 hw hall hX hX2
  show (tryWord pat (w ++ X)).isSome = (tryWord pat (w ++ X2)).isSome
  rw [tw_run w pat X hpne hpa hw hall hX, tw_run w pat X2 hpne hpa hw hall hX2]

theorem wchk_junk (pat : List Char) (hpa : ∀ a ∈ pat, pyIsAlphaCh a = true) :
    ∀ s, (∀ e ∈ s, isWordChar e = false) → ∀ x, wchk pat (x ++ s) = wchk pat x := by
  intro s hs x
  show (tryWord pat (x ++ s)).isSome = (tryWord pat x).isSome
  exact tryWord_junk hpa hs x

theorem wchk_coll (pat : List Char) (hpa : ∀ a ∈ pat, pyIsAlphaCh a = true) :
    ∀ z, wchk pat (collapseAux false z) = wchk pat z := by
  intro z
  show (tryWord pat (collapseAux false z)).isSome = (tryWord pat z).isSome
  exact tryWord_collapse hpa z

theorem wchk_low (pat : List Char) :
    ∀ c c2 r, lowCh c = lowCh c2 → wchk pat (c :: r) = wchk pat (c2 :: r) := by
  intro c c2 r h
  show (tryWord pat (c :: r)).isSome = (tryWord pat (c2 :: r)).isSome
  exact tryWord_head_low r h

theorem wchk_rep_ne (pat : List Char) (hpne : pat ≠ [])
    (hpa : ∀ a ∈ pat, pyIsAlphaCh a = true) (rep : List Char) (h1 : rep ≠ [])
    (h2 : ∀ c ∈ rep, isWordChar c = true) (h3 : ¬(lowStr rep = pat)) :
    ∀ X, bdHead X → wchk pat (rep ++ X) = false := by
  intro X hX
  show (tryWord pat (rep ++ X)).isSome = false
  rw [tw_run rep pat X hpne hpa h1 h2 hX]
  exact decide_eq_false h3

theorem achkC_head : ∀ c r, isWordChar c = false → achkC (c :: r) = false := by
  intro c r hc
  show contrWords.any (fun p => (tryWord p (c :: r)).isSome) = false
  refine any_false ?_
  intro p hp
  show (tryWord p (c :: r)).isSome = false
  rw [tryWord_head_nonword (contr_pat_facts p hp).1 (contr_pat_facts p hp).2 r hc]
  rfl

theorem achkC_junk : ∀ s, (∀ e ∈ s, isWordChar e = false) → ∀ x,
    achkC (x ++ s) = achkC x := by
  intro s hs x
  show contrWords.any (fun p => (tryWord p (x ++ s)).isSome)
    = contrWords.any (fun p => (tryWord p x).isSome)
  refine any_congr ?_
  intro p hp
  show (tryWord p (x ++ s)).isSome = (tryWord p x).isSome
  exact tryWord_junk (contr_pat_facts p hp).2 hs x

theorem achkC_coll : ∀ z, achkC (collapseAux false z) = achkC z := by
  intro z
  show contrWords.any (fun p => (tryWord p (collapseAux false z)).isSome)
    = contrWords.any (fun p => (tryWord p z).isSome)
  refine any_congr ?_
  intro p hp
  show (tryWord p (collapseAux false z)).isSome = (tryWord p z).isSome
  exact tryWord_collapse (contr_pat_facts p hp).2 z

theorem achkC_low : ∀ c c2 r, lowCh c = lowCh c2 → achkC (c :: r) = achkC (c2 :: r) := by
  intro c c2 r h
  show contrWords.any (fun p => (tryWord p (c :: r)).isSome)
    = contrWords.any (fun p => (tryWord p (c2 :: r)).isSome)
  refine any_congr ?_
  intro p hp
  show (tryWord p (c :: r)).isSome = (tryWord p (c2 :: r)).isSome
  exact tryWord_head_low r h

theorem achkC_run_val (w : List Char) (hw : w ≠ [])
    (hall : ∀ c ∈ w, isWordChar c = true) (X : List Char) (hX : bdHead X) :
    achkC (w ++ X) = decide (lowStr w ∈ contrWords) := by
  show contrWords.any (fun p => (tryWord p (w ++ X)).isSome) = _
  have h1 : ∀ p ∈ contrWords, (fun p => (tryWord p (w ++ X)).isSome) p
      = (fun p => decide (lowStr w = p)) p := by
    intro p hp
    show (tryWord p (w ++ X)).isSome = decide (lowStr w = p)
    exact tw_run w p X (contr_pat_facts p hp).1 (contr_pat_facts p hp).2 hw hall hX
  rw [any_congr h1]
  by_cases hm : lowStr w ∈ contrWords
  · rw [decide_eq_true hm, List.any_eq_true]
    exact ⟨lowStr w, hm, by simp⟩
  · rw [decide_eq_false hm]
    refine any_false ?_
    intro p hp
    show decide (lowStr w = p) = false
    apply decide_eq_false
    intro he
    apply hm
    rw [he]
    exact hp

theorem achkC_run : ∀ w X X2, w ≠ [] → (∀ c ∈ w, isWordChar c = true) →
    bdHead X → bdHead X2 → achkC (w ++ X) = achkC (w ++ X2) := by
  intro w X X2 hw hall hX hX2
  rw [achkC_run_val w hw hall X hX, achkC_run_val w hw hall X2 hX2]

theorem achkC_front : ∀ c rest, isWordChar c = true →
    achkC (c :: phraseGo false rest) = achkC (c :: rest) := by
  intro c rest _
  show contrWords.any (fun p => (tryWord p (c :: phraseGo false rest)).isSome)
    = contrWords.any (fun p => (tryWord p (c :: rest)).isSome)
  refine any_congr ?_
  intro p hp
  show (tryWord p (c :: phraseGo false rest)).isSome = (tryWord p (c :: rest)).isSome
  exact chkW_phraseGo_front (contr_pat_facts p hp).1 (contr_pat_facts p hp).2 c rest

theorem achkC_rep (rep : List Char) (h1 : rep ≠ [])
    (h2 : ∀ c ∈ rep, isWordChar c = true) (h3 : ¬(lowStr rep ∈ contrWords)) :
    ∀ X, bdHead X → achkC (rep ++ X) = false := by
  intro X hX
  rw [achkC_run_val rep h1 h2 X hX]
  exact decide_eq_false h3

theorem achkC_correct (X : List Char) : achkC ("correct".toList ++ X) = false := by
  show contrWords.any (fun p => (tryWord p ("correct".toList ++ X)).isSome) = false
  refine any_false ?_
  intro p hp
  rw [show contrWords = ["cant".toList, "wont".toList, "dont".toList, "isnt".toList,
    "arent".toList, "wasnt".toList, "werent".toList] from rfl] at hp
  simp only [List.mem_cons, List.not_mem_nil, or_false] at hp
  rcases hp with h | h | h | h | h | h | h
  · subst h
    show (tryWord ('c' :: 'a' :: "nt".toList) ('c' :: 'o' :: ("rrect".toList ++ X))).isSome
      = false
    rw [tryWord_two_ne _ (by decide) (by decide)]
    rfl
  · subst h
    show (tryWord ('w' :: "ont".toList) ('c' :: ("orrect".toList ++ X))).isSome = false
    rw [tryWord_head_ne _ (by decide)]
    rfl
  · subst h
    show (tryWord ('d' :: "ont".toList) ('c' :: ("orrect".toList ++ X))).isSome = false
    rw [tryWord_head_ne _ (by decide)]
    rfl
  · subst h
    show (tryWord ('i' :: "snt".toList) ('c' :: ("orrect".toList ++ X))).isSome = false
    rw [tryWord_head_ne _ (by decide)]
    rfl
  · subst h
    show (tryWord ('a' :: "rent".toList) ('c' :: ("orrect".toList ++ X))).isSome = false
    rw [tryWord_head_ne _ (by decide)]
    rfl
  · subst h
    show (tryWord ('w' :: "asnt".toList) ('c' :: ("orrect".toList ++ X))).isSome = false
    rw [tryWord_head_ne _ (by decide)]
    rfl
  · subst h
    show (tryWord ('w' :: "erent".toList) ('c' :: ("orrect".toList ++ X))).isSome = false
    rw [tryWord_head_ne _ (by decide)]
    rfl

theorem scanB_Y_achkC : ∀ X b, scanB achkC b ("you are correct".toList ++ X) =
    scanB achkC false X := by
  intro X b
  rw [show "you are correct".toList ++ X =
    "you".toList ++ (' ' :: ("are".toList ++ (' ' :: ("correct".toList ++ X)))) from rfl]
  have hk1 : achkC ("you".toList ++ (' ' :: ("are".toList ++ (' ' ::
      ("correct".toList ++ X))))) = false := by
    rw [achkC_run_val "you".toList (by decide) (by decide) _
      (bdHead_cons _ (by decide : isWordChar ' ' = false))]
    decide
  have hk3 : achkC ("are".toList ++ (' ' :: ("correct".toList ++ X))) = false := by
    rw [achkC_run_val "are".toList (by decide) (by decide) _
      (bdHead_cons _ (by decide : isWordChar ' ' = false))]
    decide
  rw [scanB_run achkC (by decide : "you".toList ≠ [])
    (by decide : ∀ c ∈ "you".toList, isWordChar c = true), hk1]
  rw [scanB_cons]
  rw [scanB_run achkC (by decide : "are".toList ≠ [])
    (by decide : ∀ c ∈ "are".toList, isWordChar c = true), hk3]
  rw [scanB_cons]
  rw [scanB_run achkC (by decide : "correct".toList ≠ [])
    (by decide : ∀ c ∈ "correct".toList, isWordChar c = true), achkC_correct X]
  simp only [Bool.and_false, Bool.false_and, Bool.false_or]

/-! ### C9: the typo-fix stages introduce no fresh matches -/

theorem oneWordF_scan_pres (chk : List Char → Bool)
    (hhead : ∀ c r, isWordChar c = false → chk (c :: r) = false)
    (pat rep : List Char) (hrepne : rep ≠ [])
    (hrepw : ∀ c ∈ rep, isWordChar c = true)
    (hrepchk : ∀ X, bdHead X → chk (rep ++ X) = false) :
    ∀ w, w ≠ [] → (∀ c ∈ w, isWordChar c = true) →
      (∀ X, bdHead X → chk (w ++ X) = false) → ∀ X, bdHead X →
      scanB chk true X = false → scanB chk true (oneWordF pat rep w ++ X) = false := by
  intro w hwne hall hchkw X hX hsX
  unfold oneWordF
  by_cases hm : lowStr w = pat
  · rw [if_pos hm, scanB_run chk hrepne hrepw, hrepchk X hX, Bool.and_false, Bool.false_or,
      scanB_false_bdHead chk hhead hX]
    exact hsX
  · rw [if_neg hm, scanB_run chk hwne hall, hchkw X hX, Bool.and_false, Bool.false_or,
      scanB_false_bdHead chk hhead hX]
    exact hsX

theorem oneWordF_scan_own (pat rep : List Char) (hpne : pat ≠ [])
    (hpa : ∀ a ∈ pat, pyIsAlphaCh a = true) (hrepne : rep ≠ [])
    (hrepw : ∀ c ∈ rep, isWordChar c = true) (hrepm : ¬(lowStr rep = pat)) :
    ∀ w, w ≠ [] → (∀ c ∈ w, isWordChar c = true) → ∀ X, bdHead X →
      scanB (wchk pat) true X = false →
      scanB (wchk pat) true (oneWordF pat rep w ++ X) = false := by
  intro w hwne hall X hX hsX
  have hhead := wchk_head pat hpne hpa
  unfold oneWordF
  by_cases hm : lowStr w = pat
  · rw [if_pos hm, scanB_run _ hrepne hrepw,
      wchk_rep_ne pat hpne hpa rep hrepne hrepw hrepm X hX, Bool.and_false, Bool.false_or,
      scanB_false_bdHead _ hhead hX]
    exact hsX
  · rw [if_neg hm, scanB_run _ hwne hall,
      wchk_rep_ne pat hpne hpa w hwne hall hm X hX, Bool.and_false, Bool.false_or,
      scanB_false_bdHead _ hhead hX]
    exact hsX

theorem contrF_scan_own :
    ∀ w, w ≠ [] → (∀ c ∈ w, isWordChar c = true) → ∀ X, bdHead X →
      scanB achkC true X = false → scanB achkC true (contrF w ++ X) = false := by
  intro w hwne hall X hX hsX
  have hres : scanB achkC false X = scanB achkC true X :=
    scanB_false_bdHead achkC achkC_head hX
  unfold contrF
  split
  · next hm =>
    cases w with
    | nil => exact absurd rfl hwne
    | cons c cs =>
      have hcs : cs ≠ [] := by
        intro he
        subst he
        have hlen := (contr_facts _ hm).1
        simp only [lowStr, List.map_cons, List.map_nil, List.length_cons,
          List.length_nil] at hlen
        omega
      show scanB achkC true ([c] ++ (apoChar :: (cs ++ X))) = false
      have hcw : ∀ x ∈ ([c] : List Char), isWordChar x = true := by
        intro x hx
        rw [show x = c from by simpa using hx]
        exact hall c (by simp)
      rw [scanB_run achkC (by simp : ([c] : List Char) ≠ []) hcw]
      have h1 : achkC ([c] ++ (apoChar :: (cs ++ X))) = false := by
        rw [achkC_run_val [c] (by simp) hcw _
          (bdHead_cons _ (by decide : isWordChar apoChar = false))]
        apply decide_eq_false
        intro hmem
        have h2 := (contr_facts _ hmem).1
        simp only [lowStr, List.map_cons, List.map_nil, List.length_cons,
          List.length_nil] at h2
        omega
      rw [h1, Bool.and_false, Bool.false_or, scanB_cons,
        show isWordChar apoChar = false from by decide]
      simp only [Bool.false_and, Bool.false_or, Bool.not_false]
      have hcsw : ∀ x ∈ cs, isWordChar x = true := fun x hx => hall x (by simp [hx])
      rw [scanB_run achkC hcs hcsw]
      have h2 : achkC (cs ++ X) = false := by
        rw [achkC_run_val cs hcs hcsw X hX]
        apply decide_eq_false
        intro hmem
        have htail : (lowStr (c :: cs)).tail = lowStr cs := rfl
        exact contr_tail_ne _ hm _ hmem htail
      rw [h2, Bool.and_false, Bool.false_or, hres]
      exact hsX
  · next hm =>
    rw [scanB_run achkC hwne hall]
    have h1 : achkC (w ++ X) = false := by
      rw [achkC_run_val w hwne hall X hX]
      exact decide_eq_false hm
    rw [h1, Bool.and_false, Bool.false_or, hres]
    exact hsX

theorem t6_scan_achkC (z : List Char) :
    scanB achkC true (phraseGo true
      (mapWords (oneWordF "yoru".toList "your".toList)
        (mapWords (oneWordF "adn".toList "and".toList)
          (mapWords (oneWordF "teh".toList "the".toList) (mapWords contrF z))))) = false := by
  apply phraseGo_scanB_pres achkC achkC_head achkC_front scanB_Y_achkC
  apply mapWords_scanB_pres achkC _ achkC_head achkC_run
    (oneWordF_scan_pres achkC achkC_head "yoru".toList "your".toList (by decide) (by decide)
      (achkC_rep "your".toList (by decide) (by decide) (by decide)))
  apply mapWords_scanB_pres achkC _ achkC_head achkC_run
    (oneWordF_scan_pres achkC achkC_head "adn".toList "and".toList (by decide) (by decide)
      (achkC_rep "and".toList (by decide) (by decide) (by decide)))
  apply mapWords_scanB_pres achkC _ achkC_head achkC_run
    (oneWordF_scan_pres achkC achkC_head "teh".toList "the".toList (by decide) (by decide)
      (achkC_rep "the".toList (by decide) (by decide) (by decide)))
  exact mapWords_scanB_own achkC contrF achkC_head contrF_scan_own z

theorem t6_scan_teh (z : List Char) :
    scanB (wchk "teh".toList) true (phraseGo true
      (mapWords (oneWordF "yoru".toList "your".toList)
        (mapWords (oneWordF "adn".toList "and".toList)
          (mapWords (oneWordF "teh".toList "the".toList) z)))) = false := by
  have hhead := wchk_head "teh".toList (by decide) (by decide)
  have hfront : ∀ c rest, isWordChar c = true →
      wchk "teh".toList (c :: phraseGo false rest) = wchk "teh".toList (c :: rest) :=
    fun c rest _ => chkW_phraseGo_front (by decide) (by decide) c rest
  have hY : ∀ X b, scanB (wchk "teh".toList) b ("you are correct".toList ++ X) =
      scanB (wchk "teh".toList) false X :=
    scanB_Y_word (by decide) (by decide) (by decide) (by decide) (fun Z => by
      show (tryWord ('t' :: "eh".toList) ('c' :: ("orrect".toList ++ Z))).isSome = false
      rw [tryWord_head_ne _ (by decide)]
      rfl)
  apply phraseGo_scanB_pres _ hhead hfront hY
  apply mapWords_scanB_pres _ _ hhead (wchk_run _ (by decide) (by decide))
    (oneWordF_scan_pres _ hhead "yoru".toList "your".toList (by decide) (by decide)
      (wchk_rep_ne "teh".toList (by decide) (by decide) "your".toList (by decide)
        (by decide) (by decide)))
  apply mapWords_scanB_pres _ _ hhead (wchk_run _ (by decide) (by decide))
    (oneWordF_scan_pres _ hhead "adn".toList "and".toList (by decide) (by decide)
      (wchk_rep_ne "teh".toList (by decide) (by decide) "and".toList (by decide)
        (by decide) (by decide)))
  exact mapWords_scanB_own _ _ hhead
    (oneWordF_scan_own "teh".toList "the".toList (by decide) (by decide) (by decide)
      (by decide) (by decide)) z

theorem t6_scan_adn (z : List Char) :
    scanB (wchk "adn".toList) true (phraseGo true
      (mapWords (oneWordF "yoru".toList "your".toList)
        (mapWords (oneWordF "adn".toList "and".toList) z))) = false := by
  have hhead := wchk_head "adn".toList (by decide) (by decide)
  have hfront : ∀ c rest, isWordChar c = true →
      wchk "adn".toList (c :: phraseGo false rest) = wchk "adn".toList (c :: rest) :=
    fun c rest _ => chkW_phraseGo_front (by decide) (by decide) c rest
  have hY : ∀ X b, scanB (wchk "adn".toList) b ("you are correct".toList ++ X) =
      scanB (wchk "adn".toList) false X :=
    scanB_Y_word (by decide) (by decide) (by decide) (by decide) (fun Z => by
      show (tryWord ('a' :: "dn".toList) ('c' :: ("orrect".toList ++ Z))).isSome = false
      rw [tryWord_head_ne _ (by decide)]
      rfl)
  apply phraseGo_scanB_pres _ hhead hfront hY
  apply mapWords_scanB_pres _ _ hhead (wchk_run _ (by decide) (by decide))
    (oneWordF_scan_pres _ hhead "yoru".toList "your".toList (by decide) (by decide)
      (wchk_rep_ne "adn".toList (by decide) (by decide) "your".toList (by decide)
        (by decide) (by decide)))
  exact mapWords_scanB_own _ _ hhead
    (oneWordF_scan_own "adn".toList "and".toList (by decide) (by decide) (by decide)
      (by decide) (by decide)) z

theorem t6_scan_yoru (z : List Char) :
    scanB (wchk "yoru".toList) true (phraseGo true
      (mapWords (oneWordF "yoru".toList "your".toList) z)) = false := by
  have hhead := wchk_head "yoru".toList (by decide) (by decide)
  have hfront : ∀ c rest, isWordChar c = true →
      wchk "yoru".toList (c :: phraseGo false rest) = wchk "yoru".toList (c :: rest) :=
    fun c rest _ => chkW_phraseGo_front (by decide) (by decide) c rest
  have hY : ∀ X b, scanB (wchk "yoru".toList) b ("you are correct".toList ++ X) =
      scanB (wchk "yoru".toList) false X :=
    scanB_Y_word (by decide) (by decide) (by decide) (by decide) (fun Z => by
      show (tryWord ('y' :: "oru".toList) ('c' :: ("orrect".toList ++ Z))).isSome = false
      rw [tryWord_head_ne _ (by decide)]
      rfl)
  apply phraseGo_scanB_pres _ hhead hfront hY
  exact mapWords_scanB_own _ _ hhead
    (oneWordF_scan_own "yoru".toList "your".toList (by decide) (by decide) (by decide)
      (by decide) (by decide)) z

/-! ### C9: shape of the clarification/question-mark stages -/

theorem preTail_shape (t6 : List Char) :
    preTail t6 = t6 ∨ preTail t6 = rstripDotBangL t6 ++ ['?'] ∨
      (preTail t6 = "Please explain: ".toList ++ t6 ∧ ¬(('?' : Char) ∈ t6)) := by
  have h5c : ∀ t7 : List Char,
      ((if (questionWords.any (fun w => startsL w (lowStr t7))) && !endsWithCh t7 '?' then
        (if !endsWithCh t7 '.' then rstripDotBangL t7 ++ ['?'] else t7)
      else t7) = t7 ∨
      (if (questionWords.any (fun w => startsL w (lowStr t7))) && !endsWithCh t7 '?' then
        (if !endsWithCh t7 '.' then rstripDotBangL t7 ++ ['?'] else t7)
      else t7) = rstripDotBangL t7 ++ ['?']) := by
    intro t7
    split
    · split
      · exact Or.inr rfl
      · exact Or.inl rfl
    · exact Or.inl rfl
  unfold preTail
  simp only []
  by_cases h4 : (decide (tokenCountL t6 < 3) && !endsWithCh t6 '?') = true
  · rw [if_pos h4]
    by_cases hg : (!(greetWords.any (fun w => containsL w (lowStr t6)))) = true
    · rw [if_pos hg]
      by_cases hc : (!(t6.contains '?')) = true
      · rw [if_pos hc]
        have hany : (questionWords.any
            (fun w => startsL w (lowStr ("Please explain: ".toList ++ t6)))) = false := by
          refine any_false ?_
          intro w hw
          show startsL w (lowStr ("Please explain: ".toList ++ t6)) = false
          rw [lowStr_append]
          rw [show lowStr "Please explain: ".toList = "please explain: ".toList from by
            decide]
          show startsL w ('p' :: ("lease explain: ".toList ++ lowStr t6)) = false
          exact startsL_head_ne (qword_headp w hw).1 (qword_headp w hw).2 _
        rw [hany]
        simp only [Bool.false_and]
        rw [if_neg (by decide : ¬((false : Bool) = true))]
        refine Or.inr (Or.inr ⟨rfl, ?_⟩)
        intro hmem
        have h1 : t6.contains '?' = true := List.elem_eq_true_of_mem hmem
        rw [h1] at hc
        exact absurd hc (by decide)
      · rw [if_neg hc]
        rcases h5c t6 with h | h
        · exact Or.inl h
        · exact Or.inr (Or.inl h)
    · rw [if_neg hg]
      rcases h5c t6 with h | h
      · exact Or.inl h
      · exact Or.inr (Or.inl h)
  · rw [if_neg h4]
    rcases h5c t6 with h | h
    · exact Or.inl h
    · exact Or.inr (Or.inl h)

theorem preTail_ends_quest {t : List Char} (h : endsWithCh t '?' = true) :
    preTail t = t := by
  unfold preTail
  simp only []
  rw [h]
  simp only [Bool.not_true, Bool.and_false]
  rw [if_neg (by decide : ¬((false : Bool) = true))]
  rw [h]
  simp only [Bool.not_true, Bool.and_false]
  rw [if_neg (by decide : ¬((false : Bool) = true))]

/-- Scan-false carries over both stage-5 outcomes and then through the
post-processing stages to the final result. -/
theorem scan_rl (chk : List Char → Bool)
    (hhead : ∀ c r, isWordChar c = false → chk (c :: r) = false)
    (hjunk : ∀ s, (∀ e ∈ s, isWordChar e = false) → ∀ x, chk (x ++ s) = chk x)
    (hcoll : ∀ z, chk (collapseAux false z) = chk z)
    (hlow : ∀ (c c2 : Char) (r : List Char), lowCh c = lowCh c2 → chk (c :: r) = chk (c2 :: r))
    {t6 t8 : List Char} (h : scanB chk true t6 = false)
    (h8 : t8 = t6 ∨ t8 = rstripDotBangL t6 ++ ['?']) :
    scanB chk true (capitalizeL (pyStripL (collapseL t8))) = false := by
  rcases h8 with h8 | h8
  · rw [h8]
    exact scanB_post_stages chk hhead hjunk hcoll hlow h
  · rw [h8]
    exact scanB_post_stages chk hhead hjunk hcoll hlow (scanB_stage5 chk hhead hjunk h)

/-- If the final result `rl` ends in `'?'`, is in collapsed form, starts with a
non-whitespace character, is capitalization-stable, and carries no match of any
of the five rewrite scanners, then a second run of the normalizer leaves it
unchanged. -/
theorem fineTune_fixpoint {rl : List Char}
    (hlast : rl.getLast? = some '?')
    (hsc : scanB achkC true rl = false)
    (hsteh : scanB (wchk "teh".toList) true rl = false)
    (hsadn : scanB (wchk "adn".toList) true rl = false)
    (hsyoru : scanB (wchk "yoru".toList) true rl = false)
    (hsph : scanB (fun s => (tryPhrase s).isSome) true rl = false)
    (hcoll : collP false rl = true)
    (hhead0 : ∀ d r, rl = d :: r → pyWS d = false)
    (hcap : capitalizeL rl = rl) :
    fineTune (String.mk rl) none = String.mk rl := by
  have hne : rl ≠ [] := by
    intro he
    rw [he] at hlast
    exact absurd hlast (by decide)
  have hql : ∀ c, rl.getLast? = some c → pyWS c = false := by
    intro c hc
    rw [hlast] at hc
    injection hc with h2
    rw [← h2]
    decide
  have hstrip : pyStripL rl = rl := pyStripL_eq_self hhead0 hql
  have hend : endsWithCh rl '?' = true := endsWithCh_iff.mpr hlast
  have hblank : ¬(String.mk rl = "" ∨ pyStripL (String.mk rl).toList = []) := by
    intro hor
    rcases hor with h1 | h1
    · have h2 := congrArg String.toList h1
      rw [toList_mk] at h2
      exact hne h2
    · rw [toList_mk, hstrip] at h1
      exact hne h1
  have hfC : ∀ w X, w ≠ [] → (∀ c ∈ w, isWordChar c = true) → bdHead X →
      achkC (w ++ X) = false → contrF w = w := by
    intro w X hw hall hX hchk
    rw [achkC_run_val w hw hall X hX] at hchk
    unfold contrF
    rw [if_neg (of_decide_eq_false hchk)]
  have hfW : ∀ (pat rep : List Char), pat ≠ [] → (∀ a ∈ pat, pyIsAlphaCh a = true) →
      ∀ w X, w ≠ [] → (∀ c ∈ w, isWordChar c = true) → bdHead X →
      wchk pat (w ++ X) = false → oneWordF pat rep w = w := by
    intro pat rep hpne hpa w X hw hall hX hchk
    have h2 : (tryWord pat (w ++ X)).isSome = false := hchk
    rw [tw_run w pat X hpne hpa hw hall hX] at h2
    unfold oneWordF
    rw [if_neg (of_decide_eq_false h2)]
  have e1 : contractionFix rl = rl := by
    show mapWordsC contrF rl = rl
    rw [mapWordsC_eq]
    exact mapWords_id achkC contrF achkC_head hfC rl hsc
  have e2 : tehFix rl = rl := by
    show mapWordsC (oneWordF "teh".toList "the".toList) rl = rl
    rw [mapWordsC_eq]
    exact mapWords_id (wchk "teh".toList) _ (wchk_head _ (by decide) (by decide))
      (hfW "teh".toList "the".toList (by decide) (by decide)) rl hsteh
  have e3 : adnFix rl = rl := by
    show mapWordsC (oneWordF "adn".toList "and".toList) rl = rl
    rw [mapWordsC_eq]
    exact mapWords_id (wchk "adn".toList) _ (wchk_head _ (by decide) (by decide))
      (hfW "adn".toList "and".toList (by decide) (by decide)) rl hsadn
  have e4 : yoruFix rl = rl := by
    show mapWordsC (oneWordF "yoru".toList "your".toList) rl = rl
    rw [mapWordsC_eq]
    exact mapWords_id (wchk "yoru".toList) _ (wchk_head _ (by decide) (by decide))
      (hfW "yoru".toList "your".toList (by decide) (by decide)) rl hsyoru
  have e5 : phraseSub rl = rl := by
    rw [phraseSub_eq]
    exact phraseGo_id rl true hsph
  rw [fineTune_eq_main none hblank, toList_mk]
  refine congrArg String.mk ?_
  rw [fineTunePre_decomp, hstrip, e1, e2, e3, e4, e5, preTail_ends_quest hend]
  unfold fineTunePost
  rw [show collapseL rl = rl from collP_collapse_id rl false hcoll, hstrip, hcap,
    periodStep_skip hlast (by decide)]

/-- Claim C9: for every message whose normalized form ends in a question mark,
normalization is idempotent: a second application of the normalizer to its own
output returns that output unchanged. -/
theorem claim_C9 (m : String)
    (h : ((fineTune m none).toList).getLast? = some '?') :
    fineTune (fineTune m none) none = fineTune m none := by
  by_cases hbl : m = "" ∨ pyStripL m.toList = []
  · exfalso
    rw [fineTune_eq_self none hbl] at h
    rcases hbl with hb | hb
    · rw [hb] at h
      exact absurd h (by decide)
    · have hq := mem_of_getLastQ h
      have hws := strip_nil_all_ws hb _ hq
      exact absurd hws (by decide)
  · have hexp : ∀ z : List Char,
        phraseSub (yoruFix (adnFix (tehFix (contractionFix z)))) =
        phraseGo true (mapWords (oneWordF "yoru".toList "your".toList)
          (mapWords (oneWordF "adn".toList "and".toList)
            (mapWords (oneWordF "teh".toList "the".toList) (mapWords contrF z)))) := by
      intro z
      rw [phraseSub_eq]
      unfold yoruFix adnFix tehFix contractionFix
      rw [mapWordsC_eq, mapWordsC_eq, mapWordsC_eq, mapWordsC_eq]
    have hs1 := t6_scan_achkC (pyStripL m.toList)
    have hs2 := t6_scan_teh (mapWords contrF (pyStripL m.toList))
    have hs3 := t6_scan_adn
      (mapWords (oneWordF "teh".toList "the".toList) (mapWords contrF (pyStripL m.toList)))
    have hs4 := t6_scan_yoru
      (mapWords (oneWordF "adn".toList "and".toList)
        (mapWords (oneWordF "teh".toList "the".toList)
          (mapWords contrF (pyStripL m.toList))))
    have hs5 := phraseGo_clean
      (mapWords (oneWordF "yoru".toList "your".toList)
        (mapWords (oneWordF "adn".toList "and".toList)
          (mapWords (oneWordF "teh".toList "the".toList)
            (mapWords contrF (pyStripL m.toList))))) true
    rw [fineTune_eq_main none hbl] at h ⊢
    rw [toList_mk] at h
    rw [fineTunePre_decomp] at h ⊢
    rw [hexp] at h ⊢
    have hps : fineTunePost (preTail (phraseGo true
        (mapWords (oneWordF "yoru".toList "your".toList)
          (mapWords (oneWordF "adn".toList "and".toList)
            (mapWords (oneWordF "teh".toList "the".toList)
              (mapWords contrF (pyStripL m.toList))))))) =
        capitalizeL (pyStripL (collapseL (preTail (phraseGo true
          (mapWords (oneWordF "yoru".toList "your".toList)
            (mapWords (oneWordF "adn".toList "and".toList)
              (mapWords (oneWordF "teh".toList "the".toList)
                (mapWords contrF (pyStripL m.toList))))))))) := by
      unfold fineTunePost
      rcases periodStep_cases (capitalizeL (pyStripL (collapseL (preTail (phraseGo true
          (mapWords (oneWordF "yoru".toList "your".toList)
            (mapWords (oneWordF "adn".toList "and".toList)
              (mapWords (oneWordF "teh".toList "the".toList)
                (mapWords contrF (pyStripL m.toList)))))))))) with h1 | h1
      · exact h1
      · exfalso
        rw [show fineTunePost (preTail (phraseGo true
            (mapWords (oneWordF "yoru".toList "your".toList)
              (mapWords (oneWordF "adn".toList "and".toList)
                (mapWords (oneWordF "teh".toList "the".toList)
                  (mapWords contrF (pyStripL m.toList))))))) =
            periodStep (capitalizeL (pyStripL (collapseL (preTail (phraseGo true
              (mapWords (oneWordF "yoru".toList "your".toList)
                (mapWords (oneWordF "adn".toList "and".toList)
                  (mapWords (oneWordF "teh".toList "the".toList)
                    (mapWords contrF (pyStripL m.toList)))))))))) from rfl, h1,
          List.getLast?_concat] at h
        injection h with h2
        exact absurd h2 (by decide)
    rw [hps] at h ⊢
    generalize hT : phraseGo true
      (mapWords (oneWordF "yoru".toList "your".toList)
        (mapWords (oneWordF "adn".toList "and".toList)
          (mapWords (oneWordF "teh".toList "the".toList)
            (mapWords contrF (pyStripL m.toList))))) = t6 at hs1 hs2 hs3 hs4 hs5 h ⊢
    have h8 : preTail t6 = t6 ∨ preTail t6 = rstripDotBangL t6 ++ ['?'] := by
      rcases preTail_shape t6 with h1 | h1 | ⟨h1, h2⟩
      · exact Or.inl h1
      · exact Or.inr h1
      · exfalso
        have q1 := mem_of_getLastQ h
        have q2 := quest_mem_capitalizeL q1
        have q3 := mem_pyStripL q2
        have q3b : ('?' : Char) ∈ collapseAux false (preTail t6) := q3
        rcases mem_collapseAux (preTail t6) false q3b with q4 | q4
        · rw [h1] at q4
          rcases List.mem_append.mp q4 with q5 | q5
          · exact absurd q5 (by decide)
          · exact h2 q5
        · exact absurd q4 (by decide)
    have r1 : scanB achkC true (capitalizeL (pyStripL (collapseL (preTail t6)))) = false :=
      scan_rl achkC achkC_head achkC_junk achkC_coll achkC_low hs1 h8
    have r2 : scanB (wchk "teh".toList) true
        (capitalizeL (pyStripL (collapseL (preTail t6)))) = false :=
      scan_rl (wchk "teh".toList) (wchk_head _ (by decide) (by decide))
        (wchk_junk _ (by decide)) (wchk_coll _ (by decide)) (wchk_low _) hs2 h8
    have r3 : scanB (wchk "adn".toList) true
        (capitalizeL (pyStripL (collapseL (preTail t6)))) = false :=
      scan_rl (wchk "adn".toList) (wchk_head _ (by decide) (by decide))
        (wchk_junk _ (by decide)) (wchk_coll _ (by decide)) (wchk_low _) hs3 h8
    have r4 : scanB (wchk "yoru".toList) true
        (capitalizeL (pyStripL (collapseL (preTail t6)))) = false :=
      scan_rl (wchk "yoru".toList) (wchk_head _ (by decide) (by decide))
        (wchk_junk _ (by decide)) (wchk_coll _ (by decide)) (wchk_low _) hs4 h8
    have r5 : scanB (fun s => (tryPhrase s).isSome) true
        (capitalizeL (pyStripL (collapseL (preTail t6)))) = false :=
      scan_rl (fun s => (tryPhrase s).isSome)
        (fun c r hc => by
          show (tryPhrase (c :: r)).isSome = false
          rw [tryPhrase_head_nonword r hc]
          rfl)
        (fun s hs x => tryPhrase_junk hs x)
        (fun z => tryPhrase_collapse z)
        (fun c c2 r hl => by
          show (tryPhrase (c :: r)).isSome = (tryPhrase (c2 :: r)).isSome
          rw [tryPhrase_head_low r hl]) hs5 h8
    have hcp : collP false (capitalizeL (pyStripL (collapseL (preTail t6)))) = true := by
      apply collP_capitalize
      show collP false (rstripWS ((collapseL (preTail t6)).dropWhile pyWS)) = true
      obtain ⟨suf, hsuf, _⟩ := rstripWS_split ((collapseL (preTail t6)).dropWhile pyWS)
      apply collP_append_left _ false suf
      rw [← hsuf]
      apply collP_dropWhile
      show collP false (collapseAux false (preTail t6)) = true
      exact collP_of_collapse (preTail t6) false
    have hh0 : ∀ d r, capitalizeL (pyStripL (collapseL (preTail t6))) = d :: r →
        pyWS d = false := by
      intro d r hdr
      cases hy : pyStripL (collapseL (preTail t6)) with
      | nil =>
        rw [hy] at hdr
        have hdr2 : ([] : List Char) = d :: r := hdr
        exact List.noConfusion hdr2
      | cons e y2 =>
        have he : pyWS e = false := pyStripL_head_not_ws hy
        rw [hy] at hdr
        by_cases hcnd : (!pyIsUpperCh e && pyIsAlphaCh e) = true
        · rw [show capitalizeL (e :: y2) = upCh e :: y2 from by
            simp only [capitalizeL]; rw [if_pos hcnd]] at hdr
          injection hdr with h1 _
          rw [← h1, pyWS_upCh]
          exact he
        · rw [show capitalizeL (e :: y2) = e :: y2 from by
            simp only [capitalizeL]; rw [if_neg hcnd]] at hdr
          injection hdr with h1 _
          rw [← h1]
          exact he
    exact fineTune_fixpoint h r1 r2 r3 r4 r5 hcp hh0
      (capitalizeL_idem (pyStripL (collapseL (preTail t6))))

theorem claim_C9_witness :
    ((fineTune "whats the time" none).toList).getLast? = some '?' ∧
    fineTune (fineTune "whats the time" none) none = fineTune "whats the time" none :=
  ⟨by decide, claim_C9 "whats the time" (by decide)⟩

end Spec2Proof
